import Mathlib

/-!
# libQuotient: end-to-end encryption core

A shallow embedding of the file-encryption and signing code of libQuotient
(`Quotient/events/filesourceinfo.cpp`, `Quotient/e2ee/qolmaccount.cpp`) together
with the properties proved about it.

Byte strings (`QByteArray`) are lists of bytes, `QString` is `String`.  The
cryptographic primitives of Qt, OpenSSL and Olm are parameters of the
definitions that use them; the Base64 and Latin-1 conversions of Qt are
embedded as they are implemented there.
-/

namespace Quotient

/-! ## Bytes and strings -/

/-- One byte of a `QByteArray`. -/
abbrev Byte := Fin 256

/-- A byte string. -/
abbrev QByteArray := List Byte

/-- A `QString`. -/
abbrev QString := String

/-- Conversion of an integer to `char`: the low eight bits. -/
def byteOfNat (n : Nat) : Byte := ⟨n % 256, Nat.mod_lt _ (by decide)⟩

/-- The function `QString::toLatin1`: characters outside Latin-1 become `?`. -/
def toLatin1 (s : QString) : QByteArray :=
  s.data.map fun c => if c.toNat < 256 then byteOfNat c.toNat else byteOfNat 63

/-- The function `QString::fromLatin1`. -/
def fromLatin1 (ba : QByteArray) : QString :=
  ⟨ba.map fun b => Char.ofNat b.val⟩

/-- The function `QString::replace(QChar before, QChar after)`. -/
def replaceChar (s : QString) (before after : Char) : QString :=
  ⟨s.data.map fun c => if c = before then after else c⟩

/-- The effect on one Latin-1 character of replacing `_` by `/` and `-` by `+`. -/
def unUrl (b : Byte) : Byte := if b = 95 then 47 else if b = 45 then 43 else b

/-- The conversion `static_cast<int>` of a size: reduction to 32-bit two's complement. -/
def toInt32 (n : Nat) : Int :=
  if n % 4294967296 < 2147483648 then (n % 4294967296 : Nat) else (n % 4294967296 : Nat) - 4294967296

/-! ## Base64 (`QByteArray::toBase64`, `QByteArray::fromBase64`) -/

/-- The standard Base64 alphabet. -/
def alphabet_base64 : List Char :=
  "ABCDEFGHIJKLMNOPQRSTUVWXYZabcdefghijklmnopqrstuvwxyz0123456789+/".data

/-- The URL-safe Base64 alphabet. -/
def alphabet_base64url : List Char :=
  "ABCDEFGHIJKLMNOPQRSTUVWXYZabcdefghijklmnopqrstuvwxyz0123456789-_".data

/-- The character `alphabet[i]` for the chosen alphabet. -/
def alphabet (url : Bool) (i : Nat) : Byte :=
  byteOfNat ((if url then alphabet_base64url else alphabet_base64).getD i 'A').toNat

/-- The padding character `=`. -/
def padchar : Byte := 61

/-- The function `QByteArray::toBase64(options)`: `url` is `Base64UrlEncoding`,
`omitEquals` is `OmitTrailingEquals`.  Three bytes at a time are packed into a
24-bit chunk whose four 6-bit groups index the alphabet. -/
def toBase64 (url omitEquals : Bool) : QByteArray → QByteArray
  | [] => []
  | [a] =>
    let chunk := a.val * 65536
    alphabet url (chunk / 262144 % 64) :: alphabet url (chunk / 4096 % 64)
      :: (if omitEquals then [] else [padchar, padchar])
  | [a, b] =>
    let chunk := a.val * 65536 + b.val * 256
    alphabet url (chunk / 262144 % 64) :: alphabet url (chunk / 4096 % 64)
      :: alphabet url (chunk / 64 % 64) :: (if omitEquals then [] else [padchar])
  | a :: b :: c :: rest =>
    let chunk := a.val * 65536 + b.val * 256 + c.val
    alphabet url (chunk / 262144 % 64) :: alphabet url (chunk / 4096 % 64)
      :: alphabet url (chunk / 64 % 64) :: alphabet url (chunk % 64)
      :: toBase64 url omitEquals rest

/-- The value `d` that the decoder assigns to an input character, `none` for a
character outside the chosen alphabet (which the decoder skips). -/
def base64Digit (url : Bool) (ch : Nat) : Option Nat :=
  if 65 ≤ ch ∧ ch ≤ 90 then some (ch - 65)
  else if 97 ≤ ch ∧ ch ≤ 122 then some (ch - 97 + 26)
  else if 48 ≤ ch ∧ ch ≤ 57 then some (ch - 48 + 52)
  else if ch = 43 ∧ url = false then some 62
  else if ch = 45 ∧ url = true then some 62
  else if ch = 47 ∧ url = false then some 63
  else if ch = 95 ∧ url = true then some 63
  else none

/-- The decoding loop of `QByteArray::fromBase64`, with its 32-bit accumulator
`buf` and bit count `nbits`; decoding errors are ignored. -/
def fromBase64Loop (url : Bool) : Nat → Nat → QByteArray → QByteArray
  | _, _, [] => []
  | buf, nbits, ch :: rest =>
    match base64Digit url ch.val with
    | none => fromBase64Loop url buf nbits rest
    | some d =>
      let buf1 := (buf * 64 + d) % 4294967296
      if nbits + 6 ≥ 8 then
        byteOfNat (buf1 / 2 ^ (nbits + 6 - 8))
          :: fromBase64Loop url (buf1 % 2 ^ (nbits + 6 - 8)) (nbits + 6 - 8) rest
      else fromBase64Loop url buf1 (nbits + 6) rest

/-- The function `QByteArray::fromBase64(base64, options)`. -/
def fromBase64 (url : Bool) (base64 : QByteArray) : QByteArray :=
  fromBase64Loop url 0 0 base64

/-! ## Maps keyed by strings (`QHash<QString, T>`, members of a `QJsonObject`) -/

/-- Lexicographic comparison of two strings by character code; on strings of the Basic
Multilingual Plane this is the order of `QString`. -/
def ltChars : List Char → List Char → Bool
  | _, [] => false
  | [], _ :: _ => true
  | a :: as, b :: bs => decide (a.toNat < b.toNat) || (decide (a.toNat = b.toNat) && ltChars as bs)

/-- The order in which members are kept. -/
def keyLt (a b : QString) : Bool := ltChars a.data b.data

/-- A map from strings: the entries, kept sorted by key without repetition. -/
abbrev QHash (V : Type) := List (QString × V)

namespace QHash

/-- Insertion, replacing the value of a key already present. -/
def insert {V : Type} (key : QString) (value : V) : QHash V → QHash V
  | [] => [(key, value)]
  | (k, v) :: rest =>
    if keyLt key k then (key, value) :: (k, v) :: rest
    else if key = k then (key, value) :: rest
    else (k, v) :: insert key value rest

/-- Removal of a key. -/
def remove {V : Type} (key : QString) (h : QHash V) : QHash V :=
  h.filter fun e => decide (e.1 ≠ key)

/-- The entry stored under a key, if any. -/
def find {V : Type} (h : QHash V) (key : QString) : Option V :=
  match h with
  | [] => none
  | (k, v) :: rest => if k = key then some v else find rest key

/-- The functions `value(key)` and `operator[](key) const`: a default-constructed
value stands for a missing key. -/
def value {V : Type} [Inhabited V] (h : QHash V) (key : QString) : V :=
  (find h key).getD default

/-- Construction from an initializer list. -/
def ofList {V : Type} (l : List (QString × V)) : QHash V :=
  l.foldl (fun h e => insert e.1 e.2 h) []

/-- The keys of a map are strictly increasing. -/
def WF {V : Type} (h : QHash V) : Prop :=
  List.Pairwise (fun a b => keyLt a.1 b.1 = true) h

instance {V : Type} (h : QHash V) : Decidable (WF h) :=
  inferInstanceAs (Decidable (List.Pairwise (fun a b : QString × V => keyLt a.1 b.1 = true) h))

end QHash

/-! ## File encryption (`filesourceinfo.cpp`) -/

/-- A `QUrl`, identified with its fully encoded text. -/
structure QUrl where
  encoded : QString
deriving DecidableEq, Repr

instance : Inhabited QUrl := ⟨⟨""⟩⟩

/-- The JSON Web Key descriptor of an encrypted file. -/
structure JWK where
  kty : QString
  keyOps : List QString
  alg : QString
  k : QString
  ext : Bool
deriving DecidableEq, Repr

instance : Inhabited JWK := ⟨⟨"", [], "", "", false⟩⟩

/-- The metadata attached to an encrypted file. -/
structure EncryptedFileMetadata where
  url : QUrl
  key : JWK
  iv : QString
  hashes : QHash QString
  v : QString
deriving DecidableEq, Repr

instance : Inhabited EncryptedFileMetadata := ⟨⟨default, default, "", [], ""⟩⟩

/-- The primitives of Qt and OpenSSL used by file encryption. -/
structure CryptoLib where
  /-- The digest `QCryptographicHash::hash(data, Sha256)`. -/
  sha256 : QByteArray → QByteArray
  /-- Byte number `i` of the AES-256 counter-mode keystream for a key and an IV. -/
  keystream : QByteArray → QByteArray → Nat → Byte

/-- The result of `EVP_CIPHER_CTX_block_size` for `EVP_aes_256_ctr`: counter mode
is a stream mode. -/
def EVP_CIPHER_CTX_block_size : Nat := 1

/-- The OpenSSL constant `EVP_MAX_BLOCK_LENGTH`. -/
def EVP_MAX_BLOCK_LENGTH : Nat := 32

/-- Exclusive-or of a byte string with the keystream from position `i` on. -/
def xorStream (ks : Nat → Byte) : Nat → QByteArray → QByteArray
  | _, [] => []
  | i, b :: rest => (b ^^^ ks i) :: xorStream ks (i + 1) rest

/-- The effect of `EVP_EncryptUpdate` and of `EVP_DecryptUpdate` on a counter-mode
context initialised with `key` and `iv`: the bytes written to the output, being the
first `inl` input bytes combined with the keystream.  A length that is not positive
writes nothing. -/
def EVP_CipherUpdate (L : CryptoLib) (key iv : QByteArray) (input : QByteArray) (inl : Int) :
    QByteArray :=
  if inl ≤ 0 then [] else xorStream (L.keystream key iv) 0 (input.take inl.toNat)

/-- The bytes written by `EVP_EncryptFinal_ex` and `EVP_DecryptFinal_ex`: a stream
mode has nothing left to flush. -/
def EVP_CipherFinal : QByteArray := []

/-- Writing `out` into a buffer from offset `pos` on. -/
def writeAt (buf : QByteArray) (pos : Nat) (out : QByteArray) : QByteArray :=
  buf.take pos ++ out ++ buf.drop (pos + out.length)

/-- The key bytes that `decryptFile` recovers from the metadata. -/
def keyBytes (metadata : EncryptedFileMetadata) : QByteArray :=
  fromBase64 false (toLatin1 (replaceChar (replaceChar metadata.key.k '_' '/') '-' '+'))

/-- The IV bytes that `decryptFile` recovers from the metadata. -/
def ivBytes (metadata : EncryptedFileMetadata) : QByteArray :=
  fromBase64 false (toLatin1 metadata.iv)

/-- What `decryptFile` does besides computing its result. -/
inductive CryptoCall where
  | warning (msg : String)
  | decryptInit (key iv : QByteArray)
  | decryptUpdate (input : QByteArray) (inl : Int)
  | decryptFinal
deriving DecidableEq, Repr

/-- The function `Quotient::decryptFile`, with the log of the calls it makes. -/
def decryptFileTraced (L : CryptoLib) (ciphertext : QByteArray)
    (metadata : EncryptedFileMetadata) : QByteArray × List CryptoCall :=
  if fromBase64 false (toLatin1 (metadata.hashes.value "sha256")) ≠ L.sha256 ciphertext then
    ([], [CryptoCall.warning "Hash verification failed for file"])
  else
    let key := keyBytes metadata
    let iv := ivBytes metadata
    let plaintext0 : QByteArray :=
      List.replicate (ciphertext.length + EVP_MAX_BLOCK_LENGTH - 1) 0
    let inl := toInt32 ciphertext.length
    let out := EVP_CipherUpdate L key iv ciphertext inl
    let plaintext1 := writeAt plaintext0 0 out
    let plaintext2 := writeAt plaintext1 out.length EVP_CipherFinal
    (plaintext2.take ciphertext.length,
      [CryptoCall.decryptInit key iv, CryptoCall.decryptUpdate ciphertext inl,
        CryptoCall.decryptFinal])

/-- The function `Quotient::decryptFile`. -/
def decryptFile (L : CryptoLib) (ciphertext : QByteArray) (metadata : EncryptedFileMetadata) :
    QByteArray :=
  (decryptFileTraced L ciphertext metadata).1

/-- The function `Quotient::encryptFile`; `k` and `iv` are the results of
`getRandom<32>()` and `getRandom<16>()`. -/
def encryptFile (L : CryptoLib) (k iv : QByteArray) (plainText : QByteArray) :
    EncryptedFileMetadata × QByteArray :=
  let kBase64 := toBase64 true true k
  let key : JWK :=
    { kty := "oct", keyOps := ["encrypt", "decrypt"], alg := "A256CTR",
      k := fromLatin1 kBase64, ext := true }
  let blockSize := EVP_CIPHER_CTX_block_size
  let cipherText0 : QByteArray := List.replicate (plainText.length + blockSize - 1) 0
  let out := EVP_CipherUpdate L k iv plainText (toInt32 plainText.length)
  let cipherText1 := writeAt cipherText0 0 out
  let cipherText := writeAt cipherText1 out.length EVP_CipherFinal
  let hash := toBase64 false true (L.sha256 cipherText)
  let ivBase64 := toBase64 false true iv
  ({ url := default, key := key, iv := fromLatin1 ivBase64,
     hashes := QHash.ofList [("sha256", fromLatin1 hash)], v := "v2" }, cipherText)

/-! ## JSON values and the converters of `converters.h` -/

/-- A `QJsonValue` other than `Undefined`; numbers are those with an integral value.
A `QJsonObject` is its list of members, kept sorted by key.  The value `Undefined`,
which no array or object can hold, is `none` of `Option QJsonValue`. -/
inductive QJsonValue where
  | null
  | bool (b : Bool)
  | number (n : Int)
  | string (s : QString)
  | array (a : List QJsonValue)
  | object (o : List (QString × QJsonValue))

instance : Inhabited QJsonValue := ⟨QJsonValue.null⟩

/-- A `QJsonObject`. -/
abbrev QJsonObject := QHash QJsonValue

namespace QJsonValue

/-- The function `QJsonValue::toString`. -/
def toQString : QJsonValue → QString
  | string s => s
  | _ => ""

/-- The function `QJsonValue::toBool`. -/
def toBool : QJsonValue → Bool
  | bool b => b
  | _ => false

/-- The function `QJsonValue::toArray`. -/
def toArray : QJsonValue → List QJsonValue
  | array a => a
  | _ => []

/-- The function `QJsonValue::toObject`. -/
def toObject : QJsonValue → QJsonObject
  | object o => o
  | _ => []

end QJsonValue

namespace QJsonObject

/-- The function `QJsonObject::insert` for a value that is not `Undefined`. -/
def insert (key : QString) (value : QJsonValue) (jo : QJsonObject) : QJsonObject :=
  QHash.insert key value jo

/-- The function `QJsonObject::remove`. -/
def remove (key : QString) (jo : QJsonObject) : QJsonObject :=
  QHash.remove key jo

/-- The function `QJsonObject::value`: `none`, standing for `Undefined`, for a missing
key. -/
def value (jo : QJsonObject) (key : QString) : Option QJsonValue :=
  QHash.find jo key

/-- The function `QJsonObject::keys`. -/
def keys (jo : QJsonObject) : List QString := jo.map Prod.fst

end QJsonObject

/-- Modelled from the spec: `converters.h` is not among the sources.  `toJson` of a
`QStringList` is the array of its strings. -/
def toJsonStringList (l : List QString) : QJsonValue :=
  QJsonValue.array (l.map QJsonValue.string)

/-- Modelled from the spec: `converters.h` is not among the sources.  `toJson` of a
`QHash<QString, T>` inserts `toJson` of every value under its key into an object. -/
def toJsonHash {V : Type} (f : V → QJsonValue) (h : QHash V) : QJsonObject :=
  h.foldl (fun jo e => QJsonObject.insert e.1 (f e.2) jo) []

/-- Modelled from the spec: `converters.h` is not among the sources.  `toJson` of a
`QUrl` is its fully encoded text. -/
def toJsonUrl (url : QUrl) : QJsonValue := QJsonValue.string url.encoded

/-- Modelled from the spec: `converters.h` is not among the sources.  `fromJson<QStringList>`
reads every array element as a string. -/
def fromJsonStringList (jv : QJsonValue) : List QString :=
  jv.toArray.map QJsonValue.toQString

/-- Modelled from the spec: `converters.h` is not among the sources.  `fromJson` of a
`QHash<QString, T>` stores `fromJson<T>` of every member of the object under its key. -/
def fromJsonHash {V : Type} (f : QJsonValue → V) (jv : QJsonValue) : QHash V :=
  jv.toObject.foldl (fun h e => QHash.insert e.1 (f e.2) h) []

/-- Modelled from the spec: `converters.h` is not among the sources.  `fromJson<QUrl>`
builds the URL from the string value. -/
def fromJsonUrl (jv : QJsonValue) : QUrl := ⟨jv.toQString⟩

/-- Modelled from the spec: `converters.h` is not among the sources.  The two-argument
`fromJson(jv, pod)` overwrites `pod` with the loaded value unless `jv` is undefined. -/
def fromJsonInto {T : Type} (load : QJsonValue → T) (jv : Option QJsonValue) (pod : T) : T :=
  match jv with
  | none => pod
  | some v => load v

/-- Modelled from the spec: `converters.h` is not among the sources.  `addParam<>` always
inserts `toJson(value)` under the key. -/
def addParam (jo : QJsonObject) (key : QString) (value : QJsonValue) : QJsonObject :=
  QJsonObject.insert key value jo

/-- The function `JsonObjectConverter<JWK>::dumpTo`. -/
def JWK.dumpTo (jo : QJsonObject) (pod : JWK) : QJsonObject :=
  let jo := addParam jo "kty" (QJsonValue.string pod.kty)
  let jo := addParam jo "key_ops" (toJsonStringList pod.keyOps)
  let jo := addParam jo "alg" (QJsonValue.string pod.alg)
  let jo := addParam jo "k" (QJsonValue.string pod.k)
  addParam jo "ext" (QJsonValue.bool pod.ext)

/-- The function `JsonObjectConverter<JWK>::fillFrom`. -/
def JWK.fillFrom (jo : QJsonObject) (pod : JWK) : JWK :=
  let pod := { pod with kty := fromJsonInto QJsonValue.toQString (jo.value "kty") pod.kty }
  let pod := { pod with keyOps := fromJsonInto fromJsonStringList (jo.value "key_ops") pod.keyOps }
  let pod := { pod with alg := fromJsonInto QJsonValue.toQString (jo.value "alg") pod.alg }
  let pod := { pod with k := fromJsonInto QJsonValue.toQString (jo.value "k") pod.k }
  { pod with ext := fromJsonInto QJsonValue.toBool (jo.value "ext") pod.ext }

/-- Modelled from the spec: `converters.h` is not among the sources.  `toJson` of a
structure dumps it into a fresh object. -/
def JWK.toJson (pod : JWK) : QJsonValue := QJsonValue.object (JWK.dumpTo [] pod)

/-- Modelled from the spec: `converters.h` is not among the sources.  `fromJson` of a
structure fills a default-constructed value from the object. -/
def JWK.fromJson (jv : QJsonValue) : JWK := JWK.fillFrom jv.toObject default

/-- The function `JsonObjectConverter<EncryptedFileMetadata>::dumpTo`. -/
def EncryptedFileMetadata.dumpTo (jo : QJsonObject) (pod : EncryptedFileMetadata) :
    QJsonObject :=
  let jo := addParam jo "url" (toJsonUrl pod.url)
  let jo := addParam jo "key" (JWK.toJson pod.key)
  let jo := addParam jo "iv" (QJsonValue.string pod.iv)
  let jo := addParam jo "hashes" (QJsonValue.object (toJsonHash QJsonValue.string pod.hashes))
  addParam jo "v" (QJsonValue.string pod.v)

/-- The function `JsonObjectConverter<EncryptedFileMetadata>::fillFrom`. -/
def EncryptedFileMetadata.fillFrom (jo : QJsonObject) (pod : EncryptedFileMetadata) :
    EncryptedFileMetadata :=
  let pod := { pod with url := fromJsonInto fromJsonUrl (jo.value "url") pod.url }
  let pod := { pod with key := fromJsonInto JWK.fromJson (jo.value "key") pod.key }
  let pod := { pod with iv := fromJsonInto QJsonValue.toQString (jo.value "iv") pod.iv }
  let pod :=
    { pod with
      hashes := fromJsonInto (fromJsonHash QJsonValue.toQString) (jo.value "hashes") pod.hashes }
  { pod with v := fromJsonInto QJsonValue.toQString (jo.value "v") pod.v }

/-! ## UTF-8 and the compact JSON writer (`QString::toUtf8`, `QJsonDocument::toJson`) -/

/-- The UTF-8 encoding of one character. -/
def utf8Char (c : Char) : QByteArray :=
  let u := c.toNat
  if u < 128 then [byteOfNat u]
  else if u < 2048 then [byteOfNat (192 + u / 64), byteOfNat (128 + u % 64)]
  else if u < 65536 then
    [byteOfNat (224 + u / 4096), byteOfNat (128 + u / 64 % 64), byteOfNat (128 + u % 64)]
  else
    [byteOfNat (240 + u / 262144), byteOfNat (128 + u / 4096 % 64),
      byteOfNat (128 + u / 64 % 64), byteOfNat (128 + u % 64)]

/-- The UTF-8 encoding of a list of characters. -/
def utf8Chars : List Char → QByteArray
  | [] => []
  | c :: cs => utf8Char c ++ utf8Chars cs

/-- The function `QString::toUtf8`. -/
def toUtf8 (s : QString) : QByteArray := utf8Chars s.data

/-- The hexadecimal digit `hexdig(u)` of the JSON writer. -/
def hexdig (u : Nat) : Byte := if u < 10 then byteOfNat (48 + u) else byteOfNat (97 + u - 10)

/-- What the JSON writer emits for one character of a string: an escape sequence for
a control character, a quotation mark or a backslash, the character itself otherwise. -/
def escapedChar (c : Char) : QByteArray :=
  let u := c.toNat
  if u < 128 then
    if u < 32 ∨ u = 34 ∨ u = 92 then
      92 :: (if u = 34 then [34]
        else if u = 92 then [92]
        else if u = 8 then [98]
        else if u = 12 then [102]
        else if u = 10 then [110]
        else if u = 13 then [114]
        else if u = 9 then [116]
        else [117, 48, 48, hexdig (u / 16), hexdig (u % 16)])
    else [byteOfNat u]
  else utf8Char c

/-- The escaped text of a list of characters. -/
def escapedChars : List Char → QByteArray
  | [] => []
  | c :: cs => escapedChar c ++ escapedChars cs

/-- The function `escapedString` of the JSON writer. -/
def escapedString (s : QString) : QByteArray := escapedChars s.data

/-- The decimal digits of a natural number, as characters. -/
def decimalText (n : Nat) : QByteArray :=
  if n = 0 then [48] else (Nat.digits 10 n).reverse.map fun d => byteOfNat (48 + d)

/-- The function `QByteArray::number` for an integer. -/
def numberText (n : Int) : QByteArray :=
  if n < 0 then 45 :: decimalText n.natAbs else decimalText n.natAbs

mutual

/-- The function `valueToJson` of the JSON writer, in compact form. -/
def valueToJson : QJsonValue → QByteArray
  | QJsonValue.null => [110, 117, 108, 108]
  | QJsonValue.bool true => [116, 114, 117, 101]
  | QJsonValue.bool false => [102, 97, 108, 115, 101]
  | QJsonValue.number n => numberText n
  | QJsonValue.string s => 34 :: (escapedString s ++ [34])
  | QJsonValue.array a => 91 :: (arrayContentToJson a ++ [93])
  | QJsonValue.object o => 123 :: (objectContentToJson o ++ [125])

/-- The function `arrayContentToJson` of the JSON writer, in compact form. -/
def arrayContentToJson : List QJsonValue → QByteArray
  | [] => []
  | [v] => valueToJson v
  | v :: w :: rest => valueToJson v ++ 44 :: arrayContentToJson (w :: rest)

/-- The function `objectContentToJson` of the JSON writer, in compact form. -/
def objectContentToJson : List (QString × QJsonValue) → QByteArray
  | [] => []
  | [(k, v)] => 34 :: (escapedString k ++ 34 :: 58 :: valueToJson v)
  | (k, v) :: e :: rest =>
    34 :: (escapedString k ++ 34 :: 58 :: (valueToJson v ++ 44 :: objectContentToJson (e :: rest)))

end

/-- The call `QJsonDocument(obj).toJson(QJsonDocument::Compact)`. -/
def toJsonCompact (obj : QJsonObject) : QByteArray :=
  123 :: (objectContentToJson obj ++ [125])

/-! ## Signing and verification (`qolmaccount.cpp`) -/

/-- The type `OlmErrorCode` of `olm/error.h`. -/
abbrev OlmErrorCode := Nat

/-- The code `OLM_SUCCESS`. -/
def OLM_SUCCESS : OlmErrorCode := 0

/-- The code `OLM_NOT_ENOUGH_RANDOM`. -/
def OLM_NOT_ENOUGH_RANDOM : OlmErrorCode := 1

/-- The native account state `olmData`, as seen through the Olm functions that the
code calls on it; `none` stands for the result `olm_error()`. -/
structure OlmAccount where
  /-- The call `olm_account_identity_keys`: the JSON object written to the key buffer. -/
  identity_keys : Option QJsonObject
  /-- The call `olm_account_sign`: the content of the signature buffer after signing
  the message. -/
  sign : QByteArray → Option QByteArray
  /-- The call `olm_account_one_time_keys`: the JSON object written to the buffer. -/
  one_time_keys : Option QJsonObject := some []
  /-- The call `olm_account_last_error_code`. -/
  last_error_code : OlmErrorCode := OLM_SUCCESS

/-- The Olm utility object, with `QOlmUtility::ed25519Verify(key, message, signature)`. -/
structure QOlmUtility where
  ed25519Verify : QByteArray → QByteArray → QByteArray → Bool

/-- The class `QOlmAccount`. -/
structure QOlmAccount where
  olmData : OlmAccount
  m_userId : QString
  m_deviceId : QString

/-- The structure `IdentityKeys`. -/
structure IdentityKeys where
  curve25519 : QString
  ed25519 : QString
deriving DecidableEq, Repr

/-- Modelled from the spec: the constant `SupportedAlgorithms` of `e2ee_common.h`, which
is not among the sources; the algorithms list of a device-keys bundle. -/
def SupportedAlgorithms : List QString :=
  ["m.olm.v1.curve25519-aes-sha2", "m.megolm.v1.aes-sha2"]

/-- The structure `DeviceKeys`. -/
structure DeviceKeys where
  userId : QString
  deviceId : QString
  algorithms : List QString
  keys : QHash QString
  signatures : QHash (QHash QString)
deriving DecidableEq, Repr

/-- Modelled from the spec: `csapi/definitions/device_keys.h` is not among the sources.
`JsonObjectConverter<DeviceKeys>::dumpTo` writes the members `user_id`, `device_id`,
`algorithms`, `keys` and `signatures`. -/
def DeviceKeys.dumpTo (jo : QJsonObject) (pod : DeviceKeys) : QJsonObject :=
  let jo := addParam jo "user_id" (QJsonValue.string pod.userId)
  let jo := addParam jo "device_id" (QJsonValue.string pod.deviceId)
  let jo := addParam jo "algorithms" (toJsonStringList pod.algorithms)
  let jo := addParam jo "keys" (QJsonValue.object (toJsonHash QJsonValue.string pod.keys))
  addParam jo "signatures"
    (QJsonValue.object
      (toJsonHash (fun h => QJsonValue.object (toJsonHash QJsonValue.string h)) pod.signatures))

/-- Modelled from the spec: `converters.h` is not among the sources.  `toJson` of a
structure dumps it into a fresh object. -/
def DeviceKeys.toJson (pod : DeviceKeys) : QJsonObject := DeviceKeys.dumpTo [] pod

/-- A `QJsonObject` built from an initializer list. -/
def QJsonObject.ofList (l : List (QString × QJsonValue)) : QJsonObject :=
  l.foldl (fun jo e => QJsonObject.insert e.1 e.2 jo) []

/-- The function `QJsonValue::toString` applied to a value that may be `Undefined`. -/
def jsonToString (jv : Option QJsonValue) : QString :=
  match jv with
  | some v => v.toQString
  | none => ""

namespace QOlmAccount

/-- The function `QOlmAccount::identityKeys`; `none` is the abort `QOLM_INTERNAL_ERROR`. -/
def identityKeys (a : QOlmAccount) : Option IdentityKeys :=
  match a.olmData.identity_keys with
  | none => none
  | some key =>
    some { curve25519 := jsonToString (key.value "curve25519"),
           ed25519 := jsonToString (key.value "ed25519") }

/-- The function `QOlmAccount::sign(const QByteArray&)`; `none` is the abort
`QOLM_INTERNAL_ERROR`. -/
def sign (a : QOlmAccount) (message : QByteArray) : Option QByteArray :=
  match a.olmData.sign message with
  | none => none
  | some signatureBuffer => some signatureBuffer

/-- The function `QOlmAccount::sign(const QJsonObject&)`. -/
def signJson (a : QOlmAccount) (message : QJsonObject) : Option QByteArray :=
  a.sign (toJsonCompact message)

/-- The object that `signIdentityKeys` signs. -/
def identityKeysJson (a : QOlmAccount) (keys : IdentityKeys) : QJsonObject :=
  QJsonObject.ofList
    [("algorithms", toJsonStringList SupportedAlgorithms),
     ("user_id", QJsonValue.string a.m_userId),
     ("device_id", QJsonValue.string a.m_deviceId),
     ("keys", QJsonValue.object (QJsonObject.ofList
        [("curve25519:" ++ a.m_deviceId, QJsonValue.string keys.curve25519),
         ("ed25519:" ++ a.m_deviceId, QJsonValue.string keys.ed25519)]))]

/-- The function `QOlmAccount::signIdentityKeys`. -/
def signIdentityKeys (a : QOlmAccount) : Option QByteArray :=
  match a.identityKeys with
  | none => none
  | some keys => a.signJson (a.identityKeysJson keys)

/-- The function `QOlmAccount::deviceKeys`. -/
def deviceKeys (a : QOlmAccount) : Option DeviceKeys :=
  match a.identityKeys with
  | none => none
  | some idKeys =>
    match a.signIdentityKeys with
    | none => none
    | some signature =>
      some { userId := a.m_userId,
             deviceId := a.m_deviceId,
             algorithms := SupportedAlgorithms,
             keys := QHash.ofList [("curve25519:" ++ a.m_deviceId, idKeys.curve25519),
                                   ("ed25519:" ++ a.m_deviceId, idKeys.ed25519)],
             signatures := QHash.ofList
               [(a.m_userId, QHash.ofList [("ed25519:" ++ a.m_deviceId, fromLatin1 signature)])] }

end QOlmAccount

/-- What `ed25519VerifySignature` does besides computing its result. -/
inductive VerifyCall where
  | toJson (obj : QJsonObject)
  | ed25519Verify (key message signature : QByteArray)

/-- The object whose serialization `ed25519VerifySignature` verifies: the copy of `obj`
after `remove("unsigned")` and `remove("signatures")`. -/
def signedPart (obj : QJsonObject) : QJsonObject :=
  let obj1 := obj
  let obj1 := QJsonObject.remove "unsigned" obj1
  QJsonObject.remove "signatures" obj1

/-- The function `Quotient::ed25519VerifySignature`, with the log of the calls it makes. -/
def ed25519VerifySignatureTraced (utility : QOlmUtility) (signingKey : QString)
    (obj : QJsonObject) (signature : QString) : Bool × List VerifyCall :=
  if signature = "" then (false, [])
  else
    let obj1 := signedPart obj
    let canonicalJson := toJsonCompact obj1
    let signingKeyBuf := toUtf8 signingKey
    let signatureBuf := toUtf8 signature
    (utility.ed25519Verify signingKeyBuf canonicalJson signatureBuf,
      [VerifyCall.toJson obj1, VerifyCall.ed25519Verify signingKeyBuf canonicalJson signatureBuf])

/-- The function `Quotient::ed25519VerifySignature`. -/
def ed25519VerifySignature (utility : QOlmUtility) (signingKey : QString) (obj : QJsonObject)
    (signature : QString) : Bool :=
  (ed25519VerifySignatureTraced utility signingKey obj signature).1

/-- The function `Quotient::verifyIdentitySignature`. -/
def verifyIdentitySignature (utility : QOlmUtility) (deviceKeys : DeviceKeys)
    (deviceId userId : QString) : Bool :=
  let signKeyId := "ed25519:" ++ deviceId
  let signingKey := deviceKeys.keys.value signKeyId
  let signature := (deviceKeys.signatures.value userId).value signKeyId
  ed25519VerifySignature utility signingKey (DeviceKeys.toJson deviceKeys) signature

/-- The function `Quotient::verifyIdentitySignature`, with the log of the calls that
`ed25519VerifySignature` makes. -/
def verifyIdentitySignatureTraced (utility : QOlmUtility) (deviceKeys : DeviceKeys)
    (deviceId userId : QString) : Bool × List VerifyCall :=
  let signKeyId := "ed25519:" ++ deviceId
  let signingKey := deviceKeys.keys.value signKeyId
  let signature := (deviceKeys.signatures.value userId).value signKeyId
  ed25519VerifySignatureTraced utility signingKey (DeviceKeys.toJson deviceKeys) signature

/-! ## One-time keys, persistence and sessions (`qolmaccount.cpp`) -/

/-- Modelled from the spec: `e2ee_common.h` is not among the sources.  The structure
`UnsignedOneTimeKeys`: the one-time keys, by algorithm and by key id. -/
structure UnsignedOneTimeKeys where
  keys : QHash (QHash QString)
deriving DecidableEq, Repr

/-- The function `UnsignedOneTimeKeys::curve25519`: the keys of the algorithm
`curve25519`. -/
def UnsignedOneTimeKeys.curve25519 (k : UnsignedOneTimeKeys) : QHash QString :=
  k.keys.value "curve25519"

/-- Modelled from the spec: `e2ee_common.h` is not among the sources.  A signed one-time
key: the key with the user id, the device id and the signature it was built from. -/
structure SignedOneTimeKey where
  key : QString
  userId : QString
  deviceId : QString
  signature : QByteArray
deriving DecidableEq, Repr

/-- An element of `OneTimeKeys`: a plain key or a signed one. -/
inductive OneTimeKey where
  | unsignedKey (key : QString)
  | signedKey (key : SignedOneTimeKey)
deriving DecidableEq, Repr

/-- The type `OneTimeKeys`. -/
abbrev OneTimeKeys := QHash OneTimeKey

/-- The severity of a log line: `qDebug`, `qWarning`, `qCritical`. -/
inductive LogLevel where
  | debug
  | warning
  | critical
deriving DecidableEq, Repr

/-- What a function does besides computing its result: a log line, the signal
`needsSave`, a call of the secure heap. -/
inductive Event where
  | log (level : LogLevel) (text : String)
  | needsSave
  | secure_malloc (bytes : Nat)
  | secure_zalloc (bytes : Nat)
  | secure_clear_free (region : QByteArray) (num : Nat)
  | free (region : QByteArray)
deriving DecidableEq, Repr

/-- The native state of a session, as seen through the Olm functions that the code
calls on it. -/
structure OlmSession where
  /-- The call `olm_session_last_error_code`. -/
  last_error_code : OlmErrorCode
  /-- The call `olm_session_id`. -/
  session_id : QByteArray
deriving DecidableEq, Repr

/-- The class `QOlmSession`. -/
structure QOlmSession where
  olmData : OlmSession
deriving DecidableEq, Repr

/-- The function `QOlmSession::lastErrorCode`. -/
def QOlmSession.lastErrorCode (s : QOlmSession) : OlmErrorCode := s.olmData.last_error_code

/-- The type `QOlmMessage::Type`. -/
inductive MessageType where
  | PreKey
  | General
deriving DecidableEq, Repr

/-- The class `QOlmMessage`: the bytes of a message and its type. -/
structure QOlmMessage where
  bytes : QByteArray
  type : MessageType
deriving DecidableEq, Repr

/-- The class template `Expected` of `expected.h`: a value or an error. -/
inductive Expected (T E : Type) where
  | value (v : T)
  | error (e : E)
deriving DecidableEq, Repr

/-- The function `Expected::has_value`. -/
def Expected.has_value {T E : Type} : Expected T E → Bool
  | Expected.value _ => true
  | Expected.error _ => false

/-- The type `QOlmExpected<T>`. -/
abbrev QOlmExpected (T : Type) := Expected T OlmErrorCode

/-- A call of one of the two Olm functions that create an inbound session, with the
identity key and the message passed. -/
inductive InboundCall where
  | olm_create_inbound_session (message : QByteArray)
  | olm_create_inbound_session_from (theirIdentityKey message : QByteArray)
deriving DecidableEq, Repr

/-- The Olm functions that change an account or create a session.  The first component
of a result is true when the call returned `olm_error()`; the second is the state that
the call leaves. -/
structure OlmLibrary where
  olm_unpickle_account : OlmAccount → (key pickled : QByteArray) → Bool × OlmAccount
  olm_pickle_account_length : OlmAccount → Nat
  /-- The bytes written to the pickle buffer of the given length, `none` for
  `olm_error()`. -/
  olm_pickle_account : OlmAccount → (key : QByteArray) → (length : Nat) → Option QByteArray
  olm_remove_one_time_keys : OlmAccount → OlmSession → Bool × OlmAccount
  olm_create_inbound_session : OlmAccount → (message : QByteArray) → Bool × OlmSession
  olm_create_inbound_session_from :
    OlmAccount → (theirIdentityKey message : QByteArray) → Bool × OlmSession
  olm_create_outbound_session_random_length : Nat
  olm_create_outbound_session :
    OlmAccount → (theirIdentityKey theirOneTimeKey random : QByteArray) → Bool × OlmSession

/-- The macro `Q_ASSERT`: a failed assertion aborts (`none`) in a build with assertions
enabled and does nothing in a build with `QT_NO_DEBUG`. -/
def Q_ASSERT (assertionsEnabled : Bool) (cond : Bool) : Option Unit :=
  if assertionsEnabled && !cond then none else some ()

/-- Modelled from the spec: the macro `QOLM_FAIL_OR_LOG_X` of `e2ee_common.h`, which is not
among the sources.  The failure for which the condition holds is logged at warning
level, every other failure is logged as an error; the function goes on in both cases. -/
def QOLM_FAIL_OR_LOG_X (internalCondition : Bool) (message : String) : List Event :=
  [Event.log (if internalCondition then LogLevel.warning else LogLevel.critical) message]

namespace QOlmAccount

/-- The function `QOlmAccount::lastErrorCode`. -/
def lastErrorCode (a : QOlmAccount) : OlmErrorCode := a.olmData.last_error_code

/-- The function `QOlmAccount::unpickle`: the code returned and the account after the
call. -/
def unpickle (olm : OlmLibrary) (a : QOlmAccount) (pickled key : QByteArray) :
    OlmErrorCode × QOlmAccount :=
  let r := olm.olm_unpickle_account a.olmData key pickled
  let a1 : QOlmAccount := { a with olmData := r.2 }
  if r.1 then (a1.lastErrorCode, a1) else (OLM_SUCCESS, a1)

/-- The function `QOlmAccount::signOneTimeKeys`; `none` is the abort
`QOLM_INTERNAL_ERROR` of `sign`. -/
def signOneTimeKeys (a : QOlmAccount) (keys : UnsignedOneTimeKeys) : Option OneTimeKeys :=
  keys.curve25519.foldl
    (fun acc e =>
      match acc with
      | none => none
      | some signedOneTimeKeys =>
        match a.signJson (QJsonObject.ofList [("key", QJsonValue.string e.2)]) with
        | none => none
        | some signature =>
          some (QHash.insert ("signed_curve25519:" ++ e.1)
            (OneTimeKey.signedKey ⟨e.2, a.m_userId, a.m_deviceId, signature⟩)
            signedOneTimeKeys))
    (some [])

/-- The function `QOlmAccount::removeOneTimeKeys`: the code returned, the account after
the call and what the call emits. -/
def removeOneTimeKeys (olm : OlmLibrary) (a : QOlmAccount) (session : QOlmSession) :
    OlmErrorCode × QOlmAccount × List Event :=
  let r := olm.olm_remove_one_time_keys a.olmData session.olmData
  let a1 : QOlmAccount := { a with olmData := r.2 }
  if r.1 then
    (a1.lastErrorCode, a1,
      [Event.log LogLevel.warning "Failed to remove one-time keys for session"])
  else (OLM_SUCCESS, a1, [Event.needsSave])

/-- The function `QOlmAccount::createInbound`: the session or the error code, and the
log lines written. -/
def createInbound (olm : OlmLibrary) (a : QOlmAccount) (preKeyMessage : QOlmMessage)
    (theirIdentityKey : QByteArray) : QOlmExpected QOlmSession × List Event :=
  let log1 :=
    if preKeyMessage.type ≠ MessageType.PreKey then
      [Event.log LogLevel.critical
        "The message is not a pre-key; will try to create the inbound session anyway"]
    else []
  let r :=
    if theirIdentityKey.isEmpty then
      olm.olm_create_inbound_session a.olmData preKeyMessage.bytes
    else olm.olm_create_inbound_session_from a.olmData theirIdentityKey preKeyMessage.bytes
  let session : QOlmSession := ⟨r.2⟩
  if r.1 then
    (Expected.error session.lastErrorCode,
      log1 ++ [Event.log LogLevel.warning "Error when creating inbound session"])
  else (Expected.value session, log1)

/-- The function `QOlmAccount::createInbound` together with the calls of the Olm
functions that it makes. -/
def createInboundTraced (olm : OlmLibrary) (a : QOlmAccount) (preKeyMessage : QOlmMessage)
    (theirIdentityKey : QByteArray) :
    (QOlmExpected QOlmSession × List Event) × List InboundCall :=
  let log1 :=
    if preKeyMessage.type ≠ MessageType.PreKey then
      [Event.log LogLevel.critical
        "The message is not a pre-key; will try to create the inbound session anyway"]
    else []
  let r : (Bool × OlmSession) × List InboundCall :=
    if theirIdentityKey.isEmpty then
      (olm.olm_create_inbound_session a.olmData preKeyMessage.bytes,
        [InboundCall.olm_create_inbound_session preKeyMessage.bytes])
    else
      (olm.olm_create_inbound_session_from a.olmData theirIdentityKey preKeyMessage.bytes,
        [InboundCall.olm_create_inbound_session_from theirIdentityKey preKeyMessage.bytes])
  let session : QOlmSession := ⟨r.1.2⟩
  if r.1.1 then
    ((Expected.error session.lastErrorCode,
      log1 ++ [Event.log LogLevel.warning "Error when creating inbound session"]), r.2)
  else ((Expected.value session, log1), r.2)

/-- The function `QOlmAccount::createInboundSession`; `none` is the abort of a failed
`Q_ASSERT`. -/
def createInboundSession (assertionsEnabled : Bool) (olm : OlmLibrary) (a : QOlmAccount)
    (preKeyMessage : QOlmMessage) : Option (QOlmExpected QOlmSession × List Event) :=
  match Q_ASSERT assertionsEnabled (decide (preKeyMessage.type = MessageType.PreKey)) with
  | none => none
  | some _ => some (a.createInbound olm preKeyMessage [])

/-- The function `QOlmAccount::createInboundSessionFrom`; `none` is the abort of a failed
`Q_ASSERT`. -/
def createInboundSessionFrom (assertionsEnabled : Bool) (olm : OlmLibrary) (a : QOlmAccount)
    (theirIdentityKey : QByteArray) (preKeyMessage : QOlmMessage) :
    Option (QOlmExpected QOlmSession × List Event) :=
  match Q_ASSERT assertionsEnabled (decide (preKeyMessage.type = MessageType.PreKey)) with
  | none => none
  | some _ => some (a.createInbound olm preKeyMessage theirIdentityKey)

/-- The function `QOlmAccount::createOutboundSession`; `getRandom` gives the random bytes
drawn for a length. -/
def createOutboundSession (olm : OlmLibrary) (getRandom : Nat → QByteArray) (a : QOlmAccount)
    (theirIdentityKey theirOneTimeKey : QByteArray) :
    QOlmExpected QOlmSession × List Event :=
  let randomLength := olm.olm_create_outbound_session_random_length
  let r := olm.olm_create_outbound_session a.olmData theirIdentityKey theirOneTimeKey
    (getRandom randomLength)
  let olmOutboundSession : QOlmSession := ⟨r.2⟩
  if r.1 then
    let errorCode := olmOutboundSession.lastErrorCode
    (Expected.error errorCode,
      QOLM_FAIL_OR_LOG_X (decide (errorCode = OLM_NOT_ENOUGH_RANDOM))
        "Failed to create an outbound Olm session")
  else (Expected.value olmOutboundSession, [])

end QOlmAccount

/-! ## Fixed buffers (`e2ee_common.cpp`) -/

/-- Modelled from the spec: the constant `FixedBufferBase::TotalSecureHeapSize` of
`e2ee_common.h`, which is not among the sources; the log line of `allocate` speaks of
65536 bytes of secure heap. -/
def TotalSecureHeapSize : Nat := 65536

/-- The type `FixedBufferBase::InitOptions`. -/
inductive InitOptions where
  | Uninitialized
  | FillWithZeros
  | FillWithRandom
deriving DecidableEq, Repr

/-- What the code meets and does not choose: the content of memory that has just been
allocated and the numbers that the random generator gives. -/
structure Environment where
  /-- The byte found at an offset of a region that `OPENSSL_secure_malloc` returns. -/
  uninitialized : Nat → Byte
  /-- The byte that `QRandomGenerator::fillRange` writes at an offset. -/
  randomWords : Nat → Byte
  /-- The byte that `QRandomGenerator::generate(begin, end)` writes at an offset. -/
  randomBytes : Nat → Byte

/-- The class `FixedBufferBase`: `data_` is `none` for a null pointer and otherwise the
content of the region it points to. -/
structure FixedBufferBase where
  data_ : Option QByteArray
  size_ : Nat
deriving DecidableEq, Repr

/-- The function `allocate` in a build against OpenSSL, where `LIBRESSL_VERSION_NUMBER`
is not defined: the region returned, zero-filled or as the heap left it, and what the
call does.  The allocation succeeds, as the source asserts with
`Q_ASSERT(CRYPTO_secure_allocated(p))`. -/
def allocate (env : Environment) (bytes : Nat) (initWithZeros : Bool) :
    QByteArray × List Event :=
  if initWithZeros then
    (List.replicate bytes 0, [Event.secure_zalloc bytes, Event.log LogLevel.debug "Allocated"])
  else
    ((List.range bytes).map env.uninitialized,
      [Event.secure_malloc bytes, Event.log LogLevel.debug "Allocated"])

namespace FixedBufferBase

/-- The function `FixedBufferBase::size`. -/
def size (b : FixedBufferBase) : Nat := b.size_

/-- Modelled from the spec: `e2ee_common.h` is not among the sources.  The function
`FixedBufferBase::empty`: the buffer holds no data. -/
def empty (b : FixedBufferBase) : Bool := b.data_.isNone

/-- The function `FixedBufferBase::clear` in a build against OpenSSL, where
`LIBRESSL_VERSION_NUMBER` is not defined. -/
def clear (b : FixedBufferBase) : FixedBufferBase × List Event :=
  match b.data_ with
  | none => (b, [])
  | some region =>
    ({ b with data_ := none },
      [Event.secure_clear_free region b.size_, Event.log LogLevel.debug "Deallocated"])

/-- The function `FixedBufferBase::clear` in a build against LibreSSL, where
`LIBRESSL_VERSION_NUMBER` is defined: the region is released with `free`. -/
def clear_LibreSSL (b : FixedBufferBase) : FixedBufferBase × List Event :=
  match b.data_ with
  | none => (b, [])
  | some region => ({ b with data_ := none }, [Event.free region])

/-- The constructor `FixedBufferBase::FixedBufferBase(bufferSize, options)`. -/
def construct (env : Environment) (bufferSize : Nat) (options : InitOptions) :
    FixedBufferBase × List Event :=
  if bufferSize ≥ TotalSecureHeapSize then
    ({ data_ := none, size_ := bufferSize },
      [Event.log LogLevel.critical "Too large buffer size:"])
  else if options = InitOptions.Uninitialized then
    ({ data_ := none, size_ := bufferSize }, [])
  else
    let a := allocate env bufferSize (decide (options = InitOptions.FillWithZeros))
    if options = InitOptions.FillWithRandom then
      let wordsCount := bufferSize / 4
      let region1 := writeAt a.1 0 ((List.range (4 * wordsCount)).map env.randomWords)
      let remainder := bufferSize % 4
      let region2 :=
        if remainder ≠ 0 then
          writeAt region1 (bufferSize - remainder) ((List.range remainder).map env.randomBytes)
        else region1
      ({ data_ := some region2, size_ := bufferSize }, a.2)
    else ({ data_ := some a.1, size_ := bufferSize }, a.2)

/-- The function `FixedBufferBase::fillFrom`: the buffer and the source after the call
and what the call does; `isDetached` tells whether the source is the only owner of
its data; `none` is the abort of the failed `Q_ASSERT`. -/
def fillFrom (assertionsEnabled : Bool) (env : Environment) (b : FixedBufferBase)
    (source : QByteArray) (isDetached : Bool) :
    Option (FixedBufferBase × QByteArray × List Event) :=
  if source.length ≠ b.size_ then
    match Q_ASSERT assertionsEnabled (decide (source.length = b.size_)) with
    | none => none
    | some _ =>
      some (b, source,
        [Event.log LogLevel.critical "Can't load a fixed buffer of length"])
  else
    let c : FixedBufferBase × List Event :=
      if b.data_ ≠ none then
        ((clear b).1,
          Event.log LogLevel.warning "Overwriting the fixed buffer with another string"
            :: (clear b).2)
      else (b, [])
    let a := allocate env c.1.size_ false
    let region := writeAt a.1 0 source
    let s : QByteArray × List Event :=
      if isDetached then ([], [])
      else (source,
        [Event.log LogLevel.warning
          "The fixed buffer source is shared; assuming that the caller is responsible for securely clearing other copies"])
    some ({ c.1 with data_ := some region }, s.1, c.2 ++ a.2 ++ s.2)

end FixedBufferBase

/-- A call made on a fixed buffer after its construction. -/
inductive FixedBufferCall where
  | fillFrom (source : QByteArray) (isDetached : Bool)
  | clear
deriving DecidableEq, Repr

namespace FixedBufferBase

/-- The buffer after one call; `none` is the abort of a failed `Q_ASSERT`. -/
def call (assertionsEnabled : Bool) (env : Environment) (b : FixedBufferBase) :
    FixedBufferCall → Option FixedBufferBase
  | FixedBufferCall.fillFrom source isDetached =>
    (b.fillFrom assertionsEnabled env source isDetached).map fun r => r.1
  | FixedBufferCall.clear => some b.clear.1

/-- The buffer after a sequence of calls, made in the order of the list. -/
def calls (assertionsEnabled : Bool) (env : Environment) :
    FixedBufferBase → List FixedBufferCall → Option FixedBufferBase
  | b, [] => some b
  | b, c :: cs =>
    match b.call assertionsEnabled env c with
    | none => none
    | some b1 => calls assertionsEnabled env b1 cs

end FixedBufferBase

/-! ## The source of a file (`filesourceinfo.cpp`) -/

/-- Modelled from the spec: the type `FileSourceInfo` of `filesourceinfo.h`, which is
not among the sources: a `std::variant` that holds a plain URL or the metadata of an
encrypted file, the two alternatives that `std::visit` handles in `filesourceinfo.cpp`. -/
inductive FileSourceInfo where
  | url (url : QUrl)
  | encrypted (efm : EncryptedFileMetadata)
deriving DecidableEq, Repr

/-- The function `std::variant::index`: which alternative is held. -/
def FileSourceInfo.index : FileSourceInfo → Nat
  | FileSourceInfo.url _ => 0
  | FileSourceInfo.encrypted _ => 1

/-- The function `Quotient::getUrlFromSourceInfo`. -/
def getUrlFromSourceInfo : FileSourceInfo → QUrl
  | FileSourceInfo.url url => url
  | FileSourceInfo.encrypted efm => efm.url

/-- The function `Quotient::setUrlInSourceInfo`: the source info after the call. -/
def setUrlInSourceInfo (fsi : FileSourceInfo) (newUrl : QUrl) : FileSourceInfo :=
  match fsi with
  | FileSourceInfo.url _ => FileSourceInfo.url newUrl
  | FileSourceInfo.encrypted efm => FileSourceInfo.encrypted { efm with url := newUrl }

/-! ## Message types (`roommessageevent.cpp`) -/

/-- Modelled from the spec: the enumeration `RoomMessageEvent::MsgType` of
`roommessageevent.h`, which is not among the sources; the enumerators are those that
`roommessageevent.cpp` names. -/
inductive MsgType where
  | Text
  | Emote
  | Notice
  | Image
  | File
  | Location
  | Video
  | Audio
  | Unknown
deriving DecidableEq, Repr

/-- The content class whose `make` a row of the table points to. -/
inductive ContentMaker where
  | TextContent
  | ImageContent
  | FileContent
  | LocationContent
  | VideoContent
  | AudioContent
deriving DecidableEq, Repr

/-- The structure `MsgTypeDesc`. -/
structure MsgTypeDesc where
  matrixType : QString
  enumType : MsgType
  maker : ContentMaker
deriving DecidableEq, Repr

/-- The table `msgTypes`. -/
def msgTypes : List MsgTypeDesc :=
  [⟨"m.text", MsgType.Text, ContentMaker.TextContent⟩,
   ⟨"m.emote", MsgType.Emote, ContentMaker.TextContent⟩,
   ⟨"m.notice", MsgType.Notice, ContentMaker.TextContent⟩,
   ⟨"m.image", MsgType.Image, ContentMaker.ImageContent⟩,
   ⟨"m.file", MsgType.File, ContentMaker.FileContent⟩,
   ⟨"m.location", MsgType.Location, ContentMaker.LocationContent⟩,
   ⟨"m.video", MsgType.Video, ContentMaker.VideoContent⟩,
   ⟨"m.audio", MsgType.Audio, ContentMaker.AudioContent⟩,
   ⟨"m.key.verification.request", MsgType.Text, ContentMaker.TextContent⟩]

/-- The function `msgTypeToJson`. -/
def msgTypeToJson (enumType : MsgType) : QString :=
  match msgTypes.find? (fun mtd => decide (mtd.enumType = enumType)) with
  | some it => it.matrixType
  | none => ""

/-- The function `jsonToMsgType`. -/
def jsonToMsgType (matrixType : QString) : MsgType :=
  match msgTypes.find? (fun mtd => decide (mtd.matrixType = matrixType)) with
  | some it => it.enumType
  | none => MsgType.Unknown

/-! ## Power levels (`roompowerlevelsevent.cpp`) -/

/-- The function `QJsonValue::toInt(defaultValue)` applied to a value that may be
`Undefined`: the number when the value is one that fits an `int`, the default
otherwise. -/
def jsonToInt (jv : Option QJsonValue) (defaultValue : Int) : Int :=
  match jv with
  | some (QJsonValue.number n) =>
    if -2147483648 ≤ n ∧ n ≤ 2147483647 then n else defaultValue
  | _ => defaultValue

/-- The function `QJsonValue::toObject` applied to a value that may be `Undefined`. -/
def jsonToObject (jv : Option QJsonValue) : QJsonObject :=
  match jv with
  | some v => v.toObject
  | none => []

/-- Modelled from the spec: `converters.h` is not among the sources.  `fromJson` of a
`QHash<QString, int>` applied to a value that may be `Undefined`: every member of the
object, read with `toInt()`, under its key. -/
def fromJsonIntHash (jv : Option QJsonValue) : QHash Int :=
  (jsonToObject jv).foldl (fun h e => QHash.insert e.1 (jsonToInt (some e.2) 0) h) []

/-- The structure `PowerLevelsEventContent::Notifications`. -/
structure Notifications where
  room : Int
deriving DecidableEq, Repr

/-- The structure `PowerLevelsEventContent`. -/
structure PowerLevelsEventContent where
  invite : Int
  kick : Int
  ban : Int
  redact : Int
  events : QHash Int
  eventsDefault : Int
  stateDefault : Int
  users : QHash Int
  usersDefault : Int
  notifications : Notifications
deriving DecidableEq, Repr

/-- The constructor `PowerLevelsEventContent::PowerLevelsEventContent(json)`. -/
def PowerLevelsEventContent.fromJson (json : QJsonObject) : PowerLevelsEventContent where
  invite := jsonToInt (json.value "invite") 50
  kick := jsonToInt (json.value "kick") 50
  ban := jsonToInt (json.value "ban") 50
  redact := jsonToInt (json.value "redact") 50
  events := fromJsonIntHash (json.value "events")
  eventsDefault := jsonToInt (json.value "events_default") 0
  stateDefault := jsonToInt (json.value "state_default") 0
  users := fromJsonIntHash (json.value "users")
  usersDefault := jsonToInt (json.value "users_default") 0
  notifications := ⟨jsonToInt ((jsonToObject (json.value "notifications")).value "room") 50⟩

/-- The defaults of the keys of `m.room.power_levels` that the Matrix specification
v1.3 defines: `invite` 0, `kick` 50, `ban` 50, `redact` 50, `events_default` 0,
`state_default` 50, `users_default` 0, `notifications.room` 50, and no entry in `events`
and `users`. -/
def matrixSpecDefaults : PowerLevelsEventContent where
  invite := 0
  kick := 50
  ban := 50
  redact := 50
  events := []
  eventsDefault := 0
  stateDefault := 50
  users := []
  usersDefault := 0
  notifications := ⟨50⟩

/-- Modelled from the spec: the class `RoomPowerLevelsEvent` of `roompowerlevelsevent.h`,
which is not among the sources: an event whose content is a `PowerLevelsEventContent`,
read by the accessors `events()`, `eventsDefault()`, `stateDefault()`, `users()` and
`usersDefault()`. -/
structure RoomPowerLevelsEvent where
  content : PowerLevelsEventContent
deriving DecidableEq, Repr

namespace RoomPowerLevelsEvent

/-- The function `RoomPowerLevelsEvent::powerLevelForEvent`. -/
def powerLevelForEvent (e : RoomPowerLevelsEvent) (eventTypeId : QString) : Int :=
  (QHash.find e.content.events eventTypeId).getD e.content.eventsDefault

/-- The function `RoomPowerLevelsEvent::powerLevelForState`. -/
def powerLevelForState (e : RoomPowerLevelsEvent) (eventTypeId : QString) : Int :=
  (QHash.find e.content.events eventTypeId).getD e.content.stateDefault

/-- The function `RoomPowerLevelsEvent::powerLevelForUser`. -/
def powerLevelForUser (e : RoomPowerLevelsEvent) (userId : QString) : Int :=
  (QHash.find e.content.users userId).getD e.content.usersDefault

end RoomPowerLevelsEvent

/-! ## Matrix URIs (`uri.cpp`) -/

/-- The structure `ReplacePair`. -/
structure ReplacePair where
  uriString : QString
  sigil : Char
deriving DecidableEq, Repr

/-- The table `replacePairs`. -/
def replacePairs : List ReplacePair :=
  [⟨"u/", '@'⟩, ⟨"user/", '@'⟩, ⟨"roomid/", '!'⟩, ⟨"r/", '#'⟩, ⟨"room/", '#'⟩,
   ⟨"e/", '$'⟩, ⟨"event/", '$'⟩]

/-- Modelled from the spec: the enumeration `Uri::Type` of `uri.h`, which is not among
the sources: the enumerators `Empty`, `Invalid` and `NonMatrix` that `uri.cpp` names
and, for a sigil, the enumerator `Type(sigil)` whose value is the character of the
sigil. -/
inductive UriType where
  | Empty
  | Invalid
  | NonMatrix
  | ofSigil (sigil : Char)
deriving DecidableEq, Repr

/-- The class `Uri`: the scheme, the path and the query given to the setters of `QUrl`,
and the member `primaryType_`. -/
structure Uri where
  scheme : QString := ""
  path : QString := ""
  query : QString := ""
  primaryType_ : UriType := UriType.Empty
deriving DecidableEq, Repr

/-- The call `replace('/', "%2F")` on a `QByteArray`. -/
def replaceSlash : QByteArray → QByteArray
  | [] => []
  | b :: rest => if b.val = 47 then 37 :: 50 :: 70 :: replaceSlash rest else b :: replaceSlash rest

/-- The first prefix of the table `replacePairs` for each of its four sigils. -/
def firstPrefixes : List (Char × QString) :=
  [('@', "u/"), ('!', "roomid/"), ('#', "r/"), ('$', "e/")]

namespace Uri

/-- The function `Uri::type`. -/
def type (u : Uri) : UriType := u.primaryType_

/-- The constructor `Uri::Uri(primaryId, secondaryId, query)`; `fromUtf8` is
`QString::fromUtf8`. -/
def construct (fromUtf8 : QByteArray → QString) (primaryId secondaryId : QByteArray)
    (query : QString) : Uri :=
  let setQuery (u : Uri) : Uri := if query ≠ "" then { u with query := query } else u
  if primaryId.isEmpty then setQuery { primaryType_ := UriType.Empty }
  else
    let u0 : Uri := { scheme := "matrix", primaryType_ := UriType.Invalid }
    if primaryId.length < 2 then u0
    else
      let u1 : Uri :=
        match replacePairs.find? (fun p => decide ((primaryId.headD 0).val = p.sigil.toNat)) with
        | some p =>
          { u0 with
            primaryType_ := UriType.ofSigil p.sigil
            path := p.uriString ++ fromUtf8 (replaceSlash (primaryId.drop 1)) }
        | none => u0
      if !secondaryId.isEmpty then
        if secondaryId.length < 2 then { u1 with primaryType_ := UriType.Invalid, path := "" }
        else
          setQuery { u1 with
            path := u1.path ++ ("/event/" ++ fromUtf8 (replaceSlash (secondaryId.drop 1))) }
      else setQuery u1

end Uri

/-! ## Membership events (`roommemberevent.cpp`) -/

/-- The enumeration `Membership` of `quotient_common.h`; `Undefined` is `Invalid`. -/
inductive Membership where
  | Invalid
  | Join
  | Leave
  | Invite
  | Knock
  | Ban
deriving DecidableEq, Repr

/-- The structure `MemberEventContent`. -/
structure MemberEventContent where
  membership : Membership
  isDirect : Bool
  displayName : Option QString
  avatarUrl : Option QUrl
  reason : QString
deriving DecidableEq, Repr

/-- Modelled from the spec: the class `RoomMemberEvent` of `roommemberevent.h`, which is
not among the sources: the content of the event and the previous content, when there
is one, read by `membership()` and `prevContent()`. -/
structure RoomMemberEvent where
  content : MemberEventContent
  prevContent : Option MemberEventContent
deriving DecidableEq, Repr

namespace RoomMemberEvent

/-- The function `RoomMemberEvent::membership`. -/
def membership (e : RoomMemberEvent) : Membership := e.content.membership

/-- The function `RoomMemberEvent::changesMembership`. -/
def changesMembership (e : RoomMemberEvent) : Bool :=
  match e.prevContent with
  | none => true
  | some prev => decide (prev.membership ≠ e.membership)

/-- The function `RoomMemberEvent::isRejectedInvite`. -/
def isRejectedInvite (e : RoomMemberEvent) : Bool :=
  decide (e.membership = Membership.Leave) &&
    match e.prevContent with
    | none => false
    | some prev => decide (prev.membership = Membership.Invite)

/-- The function `RoomMemberEvent::isLeave`. -/
def isLeave (e : RoomMemberEvent) : Bool :=
  decide (e.membership = Membership.Leave) &&
    match e.prevContent with
    | none => false
    | some prev =>
      decide (prev.membership ≠ e.membership) &&
        decide (prev.membership ≠ Membership.Ban) &&
        decide (prev.membership ≠ Membership.Invite)

/-- The function `RoomMemberEvent::isUnban`. -/
def isUnban (e : RoomMemberEvent) : Bool :=
  decide (e.membership = Membership.Leave) &&
    match e.prevContent with
    | none => false
    | some prev => decide (prev.membership = Membership.Ban)

end RoomMemberEvent

/-! ## Reading back what the JSON writer emits -/

/-- The value of a lower-case hexadecimal digit character. -/
def unhex (b : Nat) : Nat := if b < 58 then b - 48 else b - 87

/-- The inverse of `escapedChar`: the code of the first character written at the
front of a byte string, and the bytes after it. -/
def readEscapedChar : QByteArray → Option (Nat × QByteArray)
  | [] => none
  | b0 :: rest =>
    if b0.val = 92 then
      match rest with
      | [] => none
      | b1 :: rest1 =>
        if b1.val = 117 then
          match rest1 with
          | _ :: _ :: h1 :: h2 :: rest2 => some (16 * unhex h1.val + unhex h2.val, rest2)
          | _ => none
        else
          some (if b1.val = 34 then 34
            else if b1.val = 92 then 92
            else if b1.val = 98 then 8
            else if b1.val = 102 then 12
            else if b1.val = 110 then 10
            else if b1.val = 114 then 13
            else 9, rest1)
    else if b0.val < 128 then some (b0.val, rest)
    else if b0.val < 224 then
      match rest with
      | b1 :: rest1 => some ((b0.val - 192) * 64 + (b1.val - 128), rest1)
      | _ => none
    else if b0.val < 240 then
      match rest with
      | b1 :: b2 :: rest2 =>
        some ((b0.val - 224) * 4096 + (b1.val - 128) * 64 + (b2.val - 128), rest2)
      | _ => none
    else
      match rest with
      | b1 :: b2 :: b3 :: rest3 =>
        some ((b0.val - 240) * 262144 + (b1.val - 128) * 4096 + (b2.val - 128) * 64
          + (b3.val - 128), rest3)
      | _ => none

/-- The inverse of `decimalText`: the number that a string of digit characters denotes. -/
def readDecimal (t : QByteArray) : Nat :=
  Nat.ofDigits 10 ((t.map fun b => b.val - 48).reverse)

/-- A byte is a decimal digit character. -/
def isDigitByte (b : Byte) : Prop := 48 ≤ b.val ∧ b.val ≤ 57

instance (b : Byte) : Decidable (isDigitByte b) :=
  inferInstanceAs (Decidable (48 ≤ b.val ∧ b.val ≤ 57))

/-- What may follow a number in a document: anything but a digit. -/
def noDigitAhead (r : QByteArray) : Prop := ∀ b ∈ r.head?, ¬ isDigitByte b

/-- The kind of JSON value that a byte can start: 0 `null`, 1 a boolean, 2 a number,
3 a string, 4 an array, 5 an object, 6 none. -/
def byteKind (b : Byte) : Nat :=
  if b = 110 then 0
  else if b = 116 ∨ b = 102 then 1
  else if b = 45 ∨ isDigitByte b then 2
  else if b = 34 then 3
  else if b = 91 then 4
  else if b = 123 then 5
  else 6

/-- The kind of a JSON value, numbered as in `byteKind`. -/
def valueKind : QJsonValue → Nat
  | QJsonValue.null => 0
  | QJsonValue.bool _ => 1
  | QJsonValue.number _ => 2
  | QJsonValue.string _ => 3
  | QJsonValue.array _ => 4
  | QJsonValue.object _ => 5

/-- A stand-in for the primitives on which the definitions can be evaluated: the
digest is the length and the byte sum of the data, the keystream mixes the lengths
of key and IV with the position. -/
def sampleLib : CryptoLib where
  sha256 := fun data => [byteOfNat data.length, byteOfNat (data.map Fin.val).sum]
  keystream := fun key iv i => byteOfNat (key.length + 3 * iv.length + 7 * i)

/-- A 32-byte key on which the definitions can be evaluated. -/
def sampleKey : QByteArray :=
  [251, 240, 3, 17, 255, 0, 62, 63, 64, 128, 200, 9, 77, 31, 5, 190,
   1, 2, 3, 4, 250, 251, 252, 253, 100, 101, 102, 103, 47, 43, 45, 95]

/-- A 16-byte IV on which the definitions can be evaluated. -/
def sampleIv : QByteArray :=
  [0, 255, 254, 16, 32, 48, 64, 80, 96, 112, 128, 144, 160, 176, 192, 208]

/-- A metadata value on which the converters can be evaluated. -/
def sampleMetadata : EncryptedFileMetadata where
  url := ⟨"mxc://example.org/abcdef"⟩
  key := { kty := "oct", keyOps := ["encrypt", "decrypt"], alg := "A256CTR",
           k := "-_ADEf8APj9AgMgJTR8FvgECAwT6-_z9ZGVmZy8rLV8", ext := true }
  iv := "AP/+ECAwQFBgcICQoLDA0A"
  hashes := [("md5", "abc"), ("sha256", "EtY")]
  v := "v2"

/-- A stand-in for the Olm account state on which the definitions can be evaluated:
the signature of a message is the Base64 text of the message followed by the
account's Ed25519 key text. -/
def sampleOlmAccount : OlmAccount where
  identity_keys := some [("curve25519", QJsonValue.string "c2FtcGxlLWN1cnZl"),
                         ("ed25519", QJsonValue.string "c2FtcGxlLWVk")]
  sign := fun message => some (toBase64 false true (message ++ toUtf8 "c2FtcGxlLWVk"))

/-- The verification that goes with `sampleOlmAccount`. -/
def sampleUtility : QOlmUtility where
  ed25519Verify := fun key message signature =>
    decide (signature = toBase64 false true (message ++ key))

/-- An account on which the definitions can be evaluated. -/
def sampleAccount : QOlmAccount where
  olmData := sampleOlmAccount
  m_userId := "@alice:example.org"
  m_deviceId := "DEVICEID"

/-- An event object with `signatures` and `unsigned` members, at the top level and
nested, on which the definitions can be evaluated. -/
def sampleEvent : QJsonObject :=
  [("content", QJsonValue.object [("signatures", QJsonValue.null),
                                  ("unsigned", QJsonValue.bool true)]),
   ("signatures", QJsonValue.object [("@alice:example.org", QJsonValue.object [])]),
   ("type", QJsonValue.string "m.test"),
   ("unsigned", QJsonValue.object [("age", QJsonValue.number 1234)])]

/-- The members of `sampleEvent` other than `signatures` and `unsigned`. -/
def sampleEventSigned : QJsonObject :=
  [("content", QJsonValue.object [("signatures", QJsonValue.null),
                                  ("unsigned", QJsonValue.bool true)]),
   ("type", QJsonValue.string "m.test")]

/-- A verification that rejects an empty key and otherwise goes with
`sampleOlmAccount`. -/
def sampleStrictUtility : QOlmUtility where
  ed25519Verify := fun key message signature =>
    !key.isEmpty && decide (signature = toBase64 false true (message ++ key))

/-- A bundle that carries a signature but no Ed25519 key. -/
def sampleBundleNoKey : DeviceKeys where
  userId := "@alice:example.org"
  deviceId := "DEVICEID"
  algorithms := SupportedAlgorithms
  keys := [("curve25519:DEVICEID", "c2FtcGxlLWN1cnZl")]
  signatures := [("@alice:example.org", [("ed25519:DEVICEID", "c2ln")])]

/-- One-time keys on which the definitions can be evaluated. -/
def sampleOneTimeKeys : UnsignedOneTimeKeys where
  keys := [("curve25519", [("AAAAAQ", "b25lLXRpbWUta2V5LTE"), ("AAAAAg", "b25lLXRpbWUta2V5LTI")]),
           ("ed25519", [("AAAAAw", "bm90LWEtY3VydmUta2V5")])]

/-- A stand-in for the Olm functions on which the definitions can be evaluated: a pickle
is a run of the letter `A` as long as the key plus four, unpickling one of that length
restores `sampleOlmAccount`, removing one-time keys empties a pool that is not empty,
an inbound session needs a message that is not empty, an outbound session needs 32
random bytes and an identity key that is not empty. -/
def sampleOlmLibrary : OlmLibrary where
  olm_unpickle_account := fun data key pickled =>
    if pickled = List.replicate (key.length + 4) 65 then (false, sampleOlmAccount)
    else (true, { data with last_error_code := 8 })
  olm_pickle_account_length := fun _ => 20
  olm_pickle_account := fun _ key length =>
    if length = key.length + 4 then some (List.replicate length 65) else none
  olm_remove_one_time_keys := fun data _ =>
    match data.one_time_keys with
    | some (_ :: _) => (false, { data with one_time_keys := some [] })
    | _ => (true, { data with last_error_code := 6 })
  olm_create_inbound_session := fun _ message =>
    if message.isEmpty then (true, ⟨4, []⟩) else (false, ⟨0, message⟩)
  olm_create_inbound_session_from := fun _ theirIdentityKey message =>
    if message.isEmpty then (true, ⟨4, []⟩) else (false, ⟨0, theirIdentityKey ++ message⟩)
  olm_create_outbound_session_random_length := 32
  olm_create_outbound_session := fun _ theirIdentityKey theirOneTimeKey random =>
    if random.length < 32 then (true, ⟨1, []⟩)
    else if theirIdentityKey.isEmpty then (true, ⟨7, []⟩)
    else (false, ⟨0, theirIdentityKey ++ theirOneTimeKey⟩)

/-- A pickling key on which the definitions can be evaluated. -/
def samplePicklingKey : QByteArray := List.replicate 16 7

/-- An account that has not been set up. -/
def sampleFreshAccount : QOlmAccount where
  olmData := { identity_keys := none, sign := fun _ => none, one_time_keys := none }
  m_userId := "@alice:example.org"
  m_deviceId := "DEVICEID"

/-- An account with a one-time key in its pool. -/
def sampleAccountWithKey : QOlmAccount where
  olmData := { sampleOlmAccount with
    one_time_keys := some [("curve25519",
      QJsonValue.object [("AAAAAQ", QJsonValue.string "b25lLXRpbWUta2V5LTE")])] }
  m_userId := "@alice:example.org"
  m_deviceId := "DEVICEID"

/-- A session on which the definitions can be evaluated. -/
def sampleSession : QOlmSession := ⟨⟨0, [115, 49]⟩⟩

/-- Memory content and random numbers on which the definitions can be evaluated. -/
def sampleEnvironment : Environment where
  uninitialized := fun i => byteOfNat (170 + i)
  randomWords := fun i => byteOfNat (3 * i + 1)
  randomBytes := fun i => byteOfNat (5 * i + 2)


/-- A member event for the witnesses: a user who was invited leaves. -/
def sampleMemberEvent : RoomMemberEvent where
  content := ⟨Membership.Leave, false, none, none, ""⟩
  prevContent := some ⟨Membership.Invite, false, some "Alice", none, ""⟩

/-- A buffer of three bytes that holds data, for the witnesses. -/
def sampleBuffer : FixedBufferBase := ⟨some [1, 2, 3], 3⟩
/-! ## Properties of the conversions -/

theorem base64Digit_alphabet (url : Bool) (i : Nat) (h : i < 64) :
    base64Digit url (alphabet url i).val = some i := by
  have key : ∀ j : Fin 64, base64Digit url (alphabet url j.val).val = some j.val := by
    cases url <;> decide
  exact key ⟨i, h⟩

theorem base64Digit_padchar (url : Bool) : base64Digit url padchar.val = none := by
  cases url <;> decide

/-- Decoding undoes encoding, with or without padding, in either alphabet. -/
theorem fromBase64Loop_toBase64 (url omitEquals : Bool) :
    ∀ bs : QByteArray, fromBase64Loop url 0 0 (toBase64 url omitEquals bs) = bs
  | [] => rfl
  | [a] => by
    have ha := a.isLt
    cases omitEquals <;>
      simp [toBase64, fromBase64Loop, base64Digit_alphabet, Nat.mod_lt, base64Digit_padchar,
        byteOfNat] <;>
      (apply Fin.ext; simp; omega)
  | [a, b] => by
    have ha := a.isLt
    have hb := b.isLt
    cases omitEquals <;>
      simp [toBase64, fromBase64Loop, base64Digit_alphabet, Nat.mod_lt, base64Digit_padchar,
        byteOfNat] <;>
      constructor <;> (apply Fin.ext; simp; omega)
  | a :: b :: c :: rest => by
    have ha := a.isLt
    have hb := b.isLt
    have hc := c.isLt
    have ih := fromBase64Loop_toBase64 url omitEquals rest
    simp [toBase64, fromBase64Loop, base64Digit_alphabet, Nat.mod_lt, byteOfNat]
    refine ⟨?_, ?_, ?_, ?_⟩
    · apply Fin.ext; simp; omega
    · apply Fin.ext; simp; omega
    · apply Fin.ext; simp; omega
    · rw [Nat.mod_one]; exact ih

theorem fromBase64_toBase64 (url omitEquals : Bool) (bs : QByteArray) :
    fromBase64 url (toBase64 url omitEquals bs) = bs :=
  fromBase64Loop_toBase64 url omitEquals bs

theorem toNat_ofNat_byte (b : Byte) : (Char.ofNat b.val).toNat = b.val := by
  have hv : b.val.isValidChar := Or.inl (by have := b.isLt; omega)
  simp [Char.ofNat, hv, Char.ofNatAux, Char.toNat]
  rfl

theorem toLatin1_fromLatin1 (ba : QByteArray) : toLatin1 (fromLatin1 ba) = ba := by
  induction ba with
  | nil => rfl
  | cons b rest ih =>
    have hb := b.isLt
    simp only [toLatin1, fromLatin1, List.map_cons, List.map_map] at ih ⊢
    rw [ih]
    simp [toNat_ofNat_byte, hb, byteOfNat]
    apply Fin.ext
    simp [Nat.mod_eq_of_lt hb]

theorem byte_xor_cancel (b k : Byte) : (b ^^^ k) ^^^ k = b := by
  apply Fin.ext
  have hb : b.val < 256 := b.isLt
  have hk : k.val < 256 := k.isLt
  have hx : b.val ^^^ k.val < 256 := Nat.xor_lt_two_pow (n := 8) hb hk
  show ((b.val ^^^ k.val) % 256 ^^^ k.val) % 256 = b.val
  rw [Nat.mod_eq_of_lt hx, Nat.xor_cancel_right, Nat.mod_eq_of_lt hb]

theorem xorStream_xorStream (ks : Nat → Byte) :
    ∀ (l : QByteArray) (i : Nat), xorStream ks i (xorStream ks i l) = l
  | [], _ => rfl
  | b :: rest, i => by
    simp [xorStream, byte_xor_cancel, xorStream_xorStream ks rest (i + 1)]

theorem xorStream_length (ks : Nat → Byte) :
    ∀ (l : QByteArray) (i : Nat), (xorStream ks i l).length = l.length
  | [], _ => rfl
  | b :: rest, i => by simp [xorStream, xorStream_length ks rest (i + 1)]

theorem toInt32_of_lt (n : Nat) (h : n < 2147483648) : toInt32 n = (n : Int) := by
  have h1 : n % 4294967296 = n := Nat.mod_eq_of_lt (by omega)
  simp [toInt32, h1, h]

/-- In counter mode an update over a whole input shorter than `2^31` bytes is the
exclusive-or with the keystream. -/
theorem EVP_CipherUpdate_whole (L : CryptoLib) (key iv input : QByteArray)
    (h : input.length < 2147483648) :
    EVP_CipherUpdate L key iv input (toInt32 input.length)
      = xorStream (L.keystream key iv) 0 input := by
  rw [toInt32_of_lt _ h]
  unfold EVP_CipherUpdate
  split
  · rename_i h0
    have : input.length = 0 := by omega
    have hnil : input = [] := List.length_eq_zero.mp this
    subst hnil
    rfl
  · simp

theorem encryptFile_snd (L : CryptoLib) (k iv p : QByteArray) (h : p.length < 2147483648) :
    (encryptFile L k iv p).2 = xorStream (L.keystream k iv) 0 p := by
  simp [encryptFile, EVP_CipherUpdate_whole L k iv p h, writeAt, EVP_CipherFinal,
    EVP_CIPHER_CTX_block_size, xorStream_length]

theorem ofNat_byte_eq_iff (b : Byte) (c : Char) :
    Char.ofNat b.val = c ↔ b.val = c.toNat := by
  constructor
  · intro h
    rw [← h, toNat_ofNat_byte]
  · intro h
    rw [h, Char.ofNat_toNat]

theorem toLatin1_replaceChar_fromLatin1 (ba : QByteArray) :
    toLatin1 (replaceChar (replaceChar (fromLatin1 ba) '_' '/') '-' '+') = ba.map unUrl := by
  simp only [toLatin1, replaceChar, fromLatin1, List.map_map]
  apply List.map_congr_left
  intro b _
  have hb := b.isLt
  have h1 := ofNat_byte_eq_iff b '_'
  have h2 := ofNat_byte_eq_iff b '-'
  simp only [Function.comp]
  by_cases e1 : b.val = 95
  · have hb95 : b = 95 := Fin.ext e1
    subst hb95
    decide
  · by_cases e2 : b.val = 45
    · have hb45 : b = 45 := Fin.ext e2
      subst hb45
      decide
    · have n1 : ¬ Char.ofNat b.val = '_' := fun h => e1 (h1.mp h)
      have n2 : ¬ Char.ofNat b.val = '-' := fun h => e2 (h2.mp h)
      have u1 : b ≠ 95 := fun h => e1 (by rw [h]; rfl)
      have u2 : b ≠ 45 := fun h => e2 (by rw [h]; rfl)
      simp only [n1, n2, if_false, toNat_ofNat_byte, hb, if_true, unUrl, u1, u2]
      apply Fin.ext
      simp [byteOfNat, Nat.mod_eq_of_lt hb]

theorem unUrl_alphabet (i : Nat) (h : i < 64) : unUrl (alphabet true i) = alphabet false i := by
  have key : ∀ j : Fin 64, unUrl (alphabet true j.val) = alphabet false j.val := by decide
  exact key ⟨i, h⟩

theorem map_unUrl_toBase64 (omitEquals : Bool) :
    ∀ bs : QByteArray, (toBase64 true omitEquals bs).map unUrl = toBase64 false omitEquals bs
  | [] => rfl
  | [a] => by
    have hp : unUrl padchar = padchar := by decide
    cases omitEquals <;> simp [toBase64, unUrl_alphabet, Nat.mod_lt, hp]
  | [a, b] => by
    have hp : unUrl padchar = padchar := by decide
    cases omitEquals <;> simp [toBase64, unUrl_alphabet, Nat.mod_lt, hp]
  | a :: b :: c :: rest => by
    simp [toBase64, unUrl_alphabet, Nat.mod_lt, map_unUrl_toBase64 omitEquals rest]

/-- The key decoding of `decryptFile` undoes the key encoding of `encryptFile`. -/
theorem decode_key_text (k : QByteArray) :
    fromBase64 false
      (toLatin1 (replaceChar (replaceChar (fromLatin1 (toBase64 true true k)) '_' '/') '-' '+'))
      = k := by
  rw [toLatin1_replaceChar_fromLatin1, map_unUrl_toBase64, fromBase64_toBase64]

/-- The IV and hash decoding of `decryptFile` undoes their encoding by `encryptFile`. -/
theorem decode_std_text (b : QByteArray) :
    fromBase64 false (toLatin1 (fromLatin1 (toBase64 false true b))) = b := by
  rw [toLatin1_fromLatin1, fromBase64_toBase64]

theorem toBase64_length (url : Bool) :
    ∀ bs : QByteArray, (toBase64 url true bs).length = (4 * bs.length + 2) / 3
  | [] => rfl
  | [a] => by simp [toBase64]
  | [a, b] => by simp [toBase64]
  | a :: b :: c :: rest => by
    simp only [toBase64, List.length_cons, toBase64_length url rest]
    omega

theorem alphabet_ne (url : Bool) (i : Nat) (h : i < 64) :
    alphabet url i ≠ padchar ∧ (url = true → alphabet url i ≠ 43 ∧ alphabet url i ≠ 47) := by
  have key : ∀ j : Fin 64, alphabet url j.val ≠ padchar ∧
      (url = true → alphabet url j.val ≠ 43 ∧ alphabet url j.val ≠ 47) := by
    cases url <;> decide
  exact key ⟨i, h⟩

/-- Without padding the encoder emits alphabet characters only. -/
theorem mem_toBase64 (url : Bool) :
    ∀ (bs : QByteArray) (c : Byte), c ∈ toBase64 url true bs → ∃ i, i < 64 ∧ c = alphabet url i
  | [], c, h => by simp [toBase64] at h
  | [a], c, h => by
    simp only [toBase64, if_true, List.mem_cons, List.mem_nil_iff, or_false] at h
    rcases h with h | h <;> exact ⟨_, Nat.mod_lt _ (by decide), h⟩
  | [a, b], c, h => by
    simp only [toBase64, if_true, List.mem_cons, List.mem_nil_iff, or_false] at h
    rcases h with h | h | h <;> exact ⟨_, Nat.mod_lt _ (by decide), h⟩
  | a :: b :: d :: rest, c, h => by
    simp only [toBase64, List.mem_cons] at h
    rcases h with h | h | h | h | h
    · exact ⟨_, Nat.mod_lt _ (by decide), h⟩
    · exact ⟨_, Nat.mod_lt _ (by decide), h⟩
    · exact ⟨_, Nat.mod_lt _ (by decide), h⟩
    · exact ⟨_, Nat.mod_lt _ (by decide), h⟩
    · exact mem_toBase64 url rest c h

theorem padchar_not_mem_toBase64 (url : Bool) (bs : QByteArray) :
    padchar ∉ toBase64 url true bs := by
  intro h
  obtain ⟨i, hi, e⟩ := mem_toBase64 url bs _ h
  exact (alphabet_ne url i hi).1 e.symm

theorem not_mem_fromLatin1 (ba : QByteArray) (c : Char)
    (h : ∀ b ∈ ba, b.val ≠ c.toNat) : c ∉ (fromLatin1 ba).data := by
  intro hm
  simp only [fromLatin1, List.mem_map] at hm
  obtain ⟨b, hb, e⟩ := hm
  exact h b hb (by rw [← e, toNat_ofNat_byte])

/-! ## File encryption -/

theorem encryptFile_fst (L : CryptoLib) (k iv p : QByteArray) :
    (encryptFile L k iv p).1 =
      { url := default,
        key := { kty := "oct", keyOps := ["encrypt", "decrypt"], alg := "A256CTR",
                 k := fromLatin1 (toBase64 true true k), ext := true },
        iv := fromLatin1 (toBase64 false true iv),
        hashes := [("sha256", fromLatin1 (toBase64 false true (L.sha256 (encryptFile L k iv p).2)))],
        v := "v2" } := by
  simp [encryptFile, QHash.ofList, QHash.insert]

theorem hashes_value_sha256 (h : QString) :
    QHash.value [(("sha256" : QString), h)] "sha256" = h := by
  simp [QHash.value, QHash.find]

/-- After the hash check has passed, `decryptFile` returns the exclusive-or of the
ciphertext with the keystream of the decoded key and IV. -/
theorem decryptFile_of_hash_eq (L : CryptoLib) (c : QByteArray) (m : EncryptedFileMetadata)
    (hh : fromBase64 false (toLatin1 (m.hashes.value "sha256")) = L.sha256 c)
    (hlen : c.length < 2147483648) :
    decryptFile L c m = xorStream (L.keystream (keyBytes m) (ivBytes m)) 0 c := by
  simp only [decryptFile, decryptFileTraced, hh, ne_eq, not_true_eq_false, if_false,
    EVP_CipherUpdate_whole L _ _ c hlen, writeAt, EVP_CipherFinal, EVP_MAX_BLOCK_LENGTH,
    xorStream_length]
  simp [xorStream_length]

/-- Round trip of `encryptFile` and `decryptFile` for every plaintext shorter than
`2^31` bytes, the range in which `static_cast<int>` keeps the length. -/
theorem decryptFile_encryptFile_of_lt (L : CryptoLib) (k iv p : QByteArray)
    (h : p.length < 2147483648) :
    decryptFile L (encryptFile L k iv p).2 (encryptFile L k iv p).1 = p := by
  have hc := encryptFile_snd L k iv p h
  have hm := encryptFile_fst L k iv p
  rw [decryptFile_of_hash_eq]
  · have hk : keyBytes (encryptFile L k iv p).1 = k := by
      rw [hm]; exact decode_key_text k
    have hi : ivBytes (encryptFile L k iv p).1 = iv := by
      rw [hm]; exact decode_std_text iv
    rw [hk, hi, hc, xorStream_xorStream]
  · rw [hm]
    simp only [hashes_value_sha256]
    exact decode_std_text _
  · rw [hc, xorStream_length]; exact h

/-- When `static_cast<int>` turns the length into zero or less, nothing is encrypted:
the returned ciphertext is the zero-filled buffer. -/
theorem encryptFile_snd_of_toInt32_nonpos (L : CryptoLib) (k iv p : QByteArray)
    (h : toInt32 p.length ≤ 0) :
    (encryptFile L k iv p).2 = List.replicate p.length 0 := by
  simp only [encryptFile, EVP_CipherUpdate, h, if_true, writeAt, EVP_CipherFinal,
    EVP_CIPHER_CTX_block_size, List.take_zero, List.nil_append, List.length_nil, Nat.add_zero,
    List.drop_zero, List.append_nil, Nat.add_sub_cancel, List.take_append_drop]

theorem decryptFile_of_toInt32_nonpos (L : CryptoLib) (c : QByteArray)
    (m : EncryptedFileMetadata)
    (hh : fromBase64 false (toLatin1 (m.hashes.value "sha256")) = L.sha256 c)
    (h : toInt32 c.length ≤ 0) :
    decryptFile L c m = List.replicate c.length 0 := by
  simp only [decryptFile, decryptFileTraced, hh, ne_eq, not_true_eq_false, if_false,
    EVP_CipherUpdate, h, if_true, writeAt, EVP_CipherFinal, List.take_zero, List.nil_append,
    List.length_nil, Nat.add_zero, List.drop_zero, List.append_nil, List.take_append_drop,
    List.take_replicate, EVP_MAX_BLOCK_LENGTH, Nat.zero_min, List.replicate_zero]
  congr 1
  omega

theorem toInt32_4294967296 : toInt32 4294967296 = 0 := by decide

/-- C1, at a plaintext of `2^32` bytes: `static_cast<int>` turns the length passed to
`EVP_EncryptUpdate` and `EVP_DecryptUpdate` into zero, so the ciphertext and the
decrypted result are zero-filled buffers and the plaintext is not recovered. -/
theorem decryptFile_encryptFile_4GiB (L : CryptoLib) (k iv : QByteArray) :
    (encryptFile L k iv (List.replicate 4294967296 1)).2 = List.replicate 4294967296 0 ∧
    decryptFile L (encryptFile L k iv (List.replicate 4294967296 1)).2
        (encryptFile L k iv (List.replicate 4294967296 1)).1
      = List.replicate 4294967296 0 ∧
    decryptFile L (encryptFile L k iv (List.replicate 4294967296 1)).2
        (encryptFile L k iv (List.replicate 4294967296 1)).1
      ≠ List.replicate 4294967296 1 := by
  have hlen : (List.replicate 4294967296 (1 : Byte)).length = 4294967296 :=
    List.length_replicate _ _
  have hc : (encryptFile L k iv (List.replicate 4294967296 1)).2
      = List.replicate 4294967296 0 := by
    rw [encryptFile_snd_of_toInt32_nonpos, hlen]
    rw [hlen, toInt32_4294967296]
  have hd : decryptFile L (encryptFile L k iv (List.replicate 4294967296 1)).2
        (encryptFile L k iv (List.replicate 4294967296 1)).1
      = List.replicate 4294967296 0 := by
    rw [decryptFile_of_toInt32_nonpos, hc, List.length_replicate]
    · rw [encryptFile_fst]
      simp only [hashes_value_sha256]
      exact decode_std_text _
    · rw [hc, List.length_replicate, toInt32_4294967296]
  refine ⟨hc, hd, ?_⟩
  rw [hd]
  intro h
  have h0 := congrArg (fun l => l.head?) h
  simp only [List.head?_replicate] at h0
  revert h0
  decide

/-- C2: when the decoded `hashes["sha256"]` entry of the metadata differs from the
SHA-256 digest of the ciphertext, `decryptFile` returns the empty byte string and the
only thing it does is log the warning: no cipher context is initialised and no byte is
decrypted.  A missing entry decodes to the empty byte string. -/
theorem decryptFile_hash_mismatch (L : CryptoLib) (c : QByteArray) (m : EncryptedFileMetadata)
    (h : fromBase64 false (toLatin1 (m.hashes.value "sha256")) ≠ L.sha256 c) :
    decryptFile L c m = [] ∧
    decryptFileTraced L c m = ([], [CryptoCall.warning "Hash verification failed for file"]) ∧
    (QHash.find m.hashes "sha256" = none →
      fromBase64 false (toLatin1 (m.hashes.value "sha256")) = []) := by
  refine ⟨?_, ?_, ?_⟩
  · simp [decryptFile, decryptFileTraced, h]
  · simp [decryptFileTraced, h]
  · intro hn
    simp [QHash.value, hn, toLatin1, fromBase64, fromBase64Loop]

theorem decryptFile_hash_mismatch_witness :
    fromBase64 false (toLatin1 ((default : EncryptedFileMetadata).hashes.value "sha256"))
        ≠ sampleLib.sha256 [1, 2, 3] ∧
    decryptFile sampleLib [1, 2, 3] default = [] ∧
    decryptFileTraced sampleLib [1, 2, 3] default
      = ([], [CryptoCall.warning "Hash verification failed for file"]) ∧
    (QHash.find (default : EncryptedFileMetadata).hashes "sha256" = none →
      fromBase64 false (toLatin1 ((default : EncryptedFileMetadata).hashes.value "sha256")) = []) :=
  ⟨by decide, decryptFile_hash_mismatch sampleLib [1, 2, 3] default (by decide)⟩

/-- C3: the metadata returned by `encryptFile` has `kty = "oct"`,
`key_ops = ["encrypt", "decrypt"]`, `alg = "A256CTR"`, `ext = true`, `v = "v2"`, and its
`hashes` map has the single entry `sha256`, the unpadded standard Base64 text (free of
`=`) of the SHA-256 digest of exactly the returned ciphertext. -/
theorem encryptFile_metadata (L : CryptoLib) (k iv p : QByteArray) :
    (encryptFile L k iv p).1.key.kty = "oct" ∧
    (encryptFile L k iv p).1.key.keyOps = ["encrypt", "decrypt"] ∧
    (encryptFile L k iv p).1.key.alg = "A256CTR" ∧
    (encryptFile L k iv p).1.key.ext = true ∧
    (encryptFile L k iv p).1.v = "v2" ∧
    (encryptFile L k iv p).1.hashes
      = [("sha256", fromLatin1 (toBase64 false true (L.sha256 (encryptFile L k iv p).2)))] ∧
    '=' ∉ (fromLatin1 (toBase64 false true (L.sha256 (encryptFile L k iv p).2))).data := by
  rw [encryptFile_fst]
  refine ⟨rfl, rfl, rfl, rfl, rfl, rfl, ?_⟩
  apply not_mem_fromLatin1
  intro b hb e
  exact padchar_not_mem_toBase64 false _ (by
    have : b = padchar := Fin.ext e
    rw [← this]; exact hb)

/-- C4: for a 32-byte key and a 16-byte IV, `key.k` is the unpadded URL-safe Base64
text of the key, 43 characters with none of `+`, `/`, `=`; `iv` is the unpadded standard
Base64 text of the IV, 22 characters without `=`; and the decoding done by `decryptFile`
recovers the key bytes and the IV bytes. -/
theorem encryptFile_key_iv (L : CryptoLib) (k iv p : QByteArray)
    (hk : k.length = 32) (hiv : iv.length = 16) :
    (encryptFile L k iv p).1.key.k = fromLatin1 (toBase64 true true k) ∧
    (encryptFile L k iv p).1.key.k.length = 43 ∧
    '+' ∉ (encryptFile L k iv p).1.key.k.data ∧
    '/' ∉ (encryptFile L k iv p).1.key.k.data ∧
    '=' ∉ (encryptFile L k iv p).1.key.k.data ∧
    (encryptFile L k iv p).1.iv = fromLatin1 (toBase64 false true iv) ∧
    (encryptFile L k iv p).1.iv.length = 22 ∧
    '=' ∉ (encryptFile L k iv p).1.iv.data ∧
    keyBytes (encryptFile L k iv p).1 = k ∧
    ivBytes (encryptFile L k iv p).1 = iv := by
  rw [encryptFile_fst]
  have hne : ∀ b ∈ toBase64 true true k, b ≠ 43 ∧ b ≠ 47 ∧ b ≠ padchar := by
    intro b hb
    obtain ⟨i, hi, e⟩ := mem_toBase64 true k b hb
    have := alphabet_ne true i hi
    rw [← e] at this
    exact ⟨(this.2 rfl).1, (this.2 rfl).2, this.1⟩
  refine ⟨rfl, ?_, ?_, ?_, ?_, rfl, ?_, ?_, decode_key_text k, decode_std_text iv⟩
  · simp [fromLatin1, String.length, toBase64_length, hk]
  · apply not_mem_fromLatin1
    intro b hb e
    exact (hne b hb).1 (Fin.ext e)
  · apply not_mem_fromLatin1
    intro b hb e
    exact (hne b hb).2.1 (Fin.ext e)
  · apply not_mem_fromLatin1
    intro b hb e
    exact (hne b hb).2.2 (Fin.ext e)
  · simp [fromLatin1, String.length, toBase64_length, hiv]
  · apply not_mem_fromLatin1
    intro b hb e
    exact padchar_not_mem_toBase64 false iv (by
      have : b = padchar := Fin.ext e
      rw [← this]; exact hb)

theorem encryptFile_key_iv_witness :
    sampleKey.length = 32 ∧ sampleIv.length = 16 ∧
    (encryptFile sampleLib sampleKey sampleIv [1, 2, 3]).1.key.k
      = fromLatin1 (toBase64 true true sampleKey) ∧
    (encryptFile sampleLib sampleKey sampleIv [1, 2, 3]).1.key.k.length = 43 ∧
    '+' ∉ (encryptFile sampleLib sampleKey sampleIv [1, 2, 3]).1.key.k.data ∧
    '/' ∉ (encryptFile sampleLib sampleKey sampleIv [1, 2, 3]).1.key.k.data ∧
    '=' ∉ (encryptFile sampleLib sampleKey sampleIv [1, 2, 3]).1.key.k.data ∧
    (encryptFile sampleLib sampleKey sampleIv [1, 2, 3]).1.iv
      = fromLatin1 (toBase64 false true sampleIv) ∧
    (encryptFile sampleLib sampleKey sampleIv [1, 2, 3]).1.iv.length = 22 ∧
    '=' ∉ (encryptFile sampleLib sampleKey sampleIv [1, 2, 3]).1.iv.data ∧
    keyBytes (encryptFile sampleLib sampleKey sampleIv [1, 2, 3]).1 = sampleKey ∧
    ivBytes (encryptFile sampleLib sampleKey sampleIv [1, 2, 3]).1 = sampleIv :=
  ⟨by decide, by decide,
    encryptFile_key_iv sampleLib sampleKey sampleIv [1, 2, 3] (by decide) (by decide)⟩

/-! ## The order of keys -/

theorem ltChars_irrefl : ∀ a : List Char, ltChars a a = false
  | [] => rfl
  | c :: cs => by simp [ltChars, ltChars_irrefl cs]

theorem ltChars_asymm : ∀ a b : List Char, ltChars a b = true → ltChars b a = false
  | _, [], h => by simp [ltChars] at h
  | [], _ :: _, _ => rfl
  | a :: as, b :: bs, h => by
    simp only [ltChars, Bool.or_eq_true, decide_eq_true_eq, Bool.and_eq_true] at h
    simp only [ltChars, Bool.or_eq_false_iff, decide_eq_false_iff_not, Bool.and_eq_false_imp,
      decide_eq_true_eq]
    rcases h with h | ⟨h1, h2⟩
    · exact ⟨by omega, fun e => by omega⟩
    · exact ⟨by omega, fun _ => ltChars_asymm as bs h2⟩

theorem keyLt_irrefl (a : QString) : keyLt a a = false := ltChars_irrefl a.data

theorem keyLt_asymm (a b : QString) (h : keyLt a b = true) : keyLt b a = false :=
  ltChars_asymm a.data b.data h

theorem keyLt_ne (a b : QString) (h : keyLt a b = true) : a ≠ b := by
  intro e
  rw [e, keyLt_irrefl] at h
  exact Bool.false_ne_true h

/-! ## Sorted maps -/

theorem QHash_insert_append {V : Type} (key : QString) (value : V) :
    ∀ acc : QHash V, (∀ a ∈ acc, keyLt a.1 key = true) →
      QHash.insert key value acc = acc ++ [(key, value)]
  | [], _ => rfl
  | (k, v) :: rest, h => by
    have hk : keyLt k key = true := h (k, v) (List.mem_cons_self _ _)
    have h1 : keyLt key k = false := keyLt_asymm _ _ hk
    have h2 : key ≠ k := fun e => keyLt_ne _ _ hk e.symm
    have ih := QHash_insert_append key value rest
      (fun a ha => h a (List.mem_cons_of_mem _ ha))
    simp [QHash.insert, h1, h2, ih]

/-- Inserting the entries of a sorted map one by one rebuilds the map. -/
theorem QHash_foldl_insert {V W : Type} (f : V → W) :
    ∀ (h : QHash V) (acc : QHash W), QHash.WF h →
      (∀ a ∈ acc, ∀ b ∈ h, keyLt a.1 b.1 = true) →
      h.foldl (fun o e => QHash.insert e.1 (f e.2) o) acc = acc ++ h.map fun e => (e.1, f e.2)
  | [], acc, _, _ => by simp
  | (k, v) :: rest, acc, hwf, hacc => by
    have hwf' := List.pairwise_cons.mp hwf
    have hins : QHash.insert k (f v) acc = acc ++ [(k, f v)] :=
      QHash_insert_append k (f v) acc (fun a ha => hacc a ha (k, v) (List.mem_cons_self _ _))
    simp only [List.foldl_cons, hins, List.map_cons]
    rw [QHash_foldl_insert f rest (acc ++ [(k, f v)]) hwf'.2]
    · simp
    · intro a ha b hb
      rcases List.mem_append.mp ha with ha | ha
      · exact hacc a ha b (List.mem_cons_of_mem _ hb)
      · simp only [List.mem_singleton] at ha
        subst ha
        exact hwf'.1 b hb

theorem toJsonHash_string (h : QHash QString) (hwf : QHash.WF h) :
    toJsonHash QJsonValue.string h = h.map fun e => (e.1, QJsonValue.string e.2) := by
  have := QHash_foldl_insert QJsonValue.string h [] hwf (by simp)
  simpa [toJsonHash, QJsonObject.insert] using this

theorem QHash_WF_map {V W : Type} (f : V → W) (h : QHash V) (hwf : QHash.WF h) :
    QHash.WF (h.map fun e => (e.1, f e.2)) := by
  unfold QHash.WF at *
  rw [List.pairwise_map]
  exact hwf

theorem fromJsonHash_toJsonHash (h : QHash QString) (hwf : QHash.WF h) :
    fromJsonHash QJsonValue.toQString (QJsonValue.object (toJsonHash QJsonValue.string h)) = h := by
  rw [toJsonHash_string h hwf]
  have := QHash_foldl_insert QJsonValue.toQString
    (h.map fun e => (e.1, QJsonValue.string e.2)) [] (QHash_WF_map _ h hwf) (by simp)
  simp only [fromJsonHash, QJsonValue.toObject, this, List.nil_append, List.map_map]
  conv => rhs; rw [← List.map_id h]
  apply List.map_congr_left
  intro e _
  rfl

theorem fromJsonStringList_toJsonStringList (l : List QString) :
    fromJsonStringList (toJsonStringList l) = l := by
  simp only [fromJsonStringList, toJsonStringList, QJsonValue.toArray, List.map_map]
  conv => rhs; rw [← List.map_id l]
  apply List.map_congr_left
  intro e _
  rfl

theorem JWK_dumpTo_eq (pod : JWK) :
    JWK.dumpTo [] pod =
      [("alg", QJsonValue.string pod.alg), ("ext", QJsonValue.bool pod.ext),
       ("k", QJsonValue.string pod.k), ("key_ops", toJsonStringList pod.keyOps),
       ("kty", QJsonValue.string pod.kty)] := rfl

theorem EncryptedFileMetadata_dumpTo_eq (pod : EncryptedFileMetadata) :
    EncryptedFileMetadata.dumpTo [] pod =
      [("hashes", QJsonValue.object (toJsonHash QJsonValue.string pod.hashes)),
       ("iv", QJsonValue.string pod.iv), ("key", JWK.toJson pod.key),
       ("url", toJsonUrl pod.url), ("v", QJsonValue.string pod.v)] := rfl

theorem JWK_fromJson_toJson (pod : JWK) : JWK.fromJson (JWK.toJson pod) = pod := by
  have h : fromJsonStringList (toJsonStringList pod.keyOps) = pod.keyOps :=
    fromJsonStringList_toJsonStringList _
  cases pod
  simp only [JWK.fromJson, JWK.toJson, JWK_dumpTo_eq, QJsonValue.toObject] at h ⊢
  simp [JWK.fillFrom, QJsonObject.value, QHash.find, fromJsonInto,
    toJsonStringList, QJsonValue.toQString, QJsonValue.toBool, h]
  exact h

/-- C5: the object written by `JsonObjectConverter<EncryptedFileMetadata>::dumpTo` has
exactly the members `hashes`, `iv`, `key`, `url` and `v`; its `key` member, written by
`JsonObjectConverter<JWK>::dumpTo`, has exactly the members `alg`, `ext`, `k`, `key_ops`
and `kty`; and `fillFrom` reads back from it a value equal to the one written, whatever
value it starts from. -/
theorem EncryptedFileMetadata_fillFrom_dumpTo (m pod : EncryptedFileMetadata)
    (hwf : QHash.WF m.hashes) :
    (EncryptedFileMetadata.dumpTo [] m).keys = ["hashes", "iv", "key", "url", "v"] ∧
    (EncryptedFileMetadata.dumpTo [] m).value "key"
      = some (QJsonValue.object (JWK.dumpTo [] m.key)) ∧
    (JWK.dumpTo [] m.key).keys = ["alg", "ext", "k", "key_ops", "kty"] ∧
    EncryptedFileMetadata.fillFrom (EncryptedFileMetadata.dumpTo [] m) pod = m := by
  refine ⟨rfl, rfl, rfl, ?_⟩
  have hh := fromJsonHash_toJsonHash m.hashes hwf
  have hk := JWK_fromJson_toJson m.key
  have hstep : EncryptedFileMetadata.fillFrom (EncryptedFileMetadata.dumpTo [] m) pod =
      { url := fromJsonUrl (toJsonUrl m.url), key := JWK.fromJson (JWK.toJson m.key),
        iv := m.iv,
        hashes := fromJsonHash QJsonValue.toQString
          (QJsonValue.object (toJsonHash QJsonValue.string m.hashes)),
        v := m.v } := rfl
  rw [hstep, hh, hk]
  rfl

theorem EncryptedFileMetadata_fillFrom_dumpTo_witness :
    QHash.WF sampleMetadata.hashes ∧
    (EncryptedFileMetadata.dumpTo [] sampleMetadata).keys = ["hashes", "iv", "key", "url", "v"] ∧
    (EncryptedFileMetadata.dumpTo [] sampleMetadata).value "key"
      = some (QJsonValue.object (JWK.dumpTo [] sampleMetadata.key)) ∧
    (JWK.dumpTo [] sampleMetadata.key).keys = ["alg", "ext", "k", "key_ops", "kty"] ∧
    EncryptedFileMetadata.fillFrom (EncryptedFileMetadata.dumpTo [] sampleMetadata) default
      = sampleMetadata :=
  ⟨by decide, EncryptedFileMetadata_fillFrom_dumpTo sampleMetadata default (by decide)⟩

/-! ## Signature verification -/

theorem QHash_find_remove {V : Type} (key k : QString) :
    ∀ h : QHash V, QHash.find (QHash.remove key h) k = if k = key then none else QHash.find h k
  | [] => by simp [QHash.remove, QHash.find]
  | (k0, v0) :: rest => by
    have ih := QHash_find_remove key k rest
    simp only [QHash.remove, ne_eq, decide_not] at ih
    by_cases h0 : k0 = key
    · subst h0
      by_cases h1 : k = k0
      · subst h1
        simp [QHash.remove, ih]
      · have h1' : ¬ k0 = k := fun e => h1 e.symm
        simp [QHash.remove, QHash.find, ih, h1, h1']
    · by_cases h1 : k0 = k
      · subst h1
        simp [QHash.remove, QHash.find, h0]
      · simp [QHash.remove, QHash.find, ih, h0, h1]

theorem QHash_WF_remove {V : Type} (key : QString) (h : QHash V) (hwf : QHash.WF h) :
    QHash.WF (QHash.remove key h) :=
  List.Pairwise.filter _ hwf

theorem QHash_find_eq_none {V : Type} (k : QString) :
    ∀ rest : QHash V, (∀ e ∈ rest, keyLt k e.1 = true) → QHash.find rest k = none
  | [], _ => rfl
  | (k0, v0) :: rest, h => by
    have h0 : k0 ≠ k := fun e => keyLt_ne _ _ (h (k0, v0) (List.mem_cons_self _ _)) e.symm
    simp only [QHash.find, h0, if_false]
    exact QHash_find_eq_none k rest (fun e he => h e (List.mem_cons_of_mem _ he))

theorem QHash_mem_of_find {V : Type} (k : QString) (v : V) :
    ∀ h : QHash V, QHash.find h k = some v → (k, v) ∈ h
  | [], hf => by simp [QHash.find] at hf
  | (k0, v0) :: rest, hf => by
    by_cases h0 : k0 = k
    · subst h0
      simp only [QHash.find, if_true, Option.some.injEq] at hf
      subst hf
      exact List.mem_cons_self _ _
    · simp only [QHash.find, h0, if_false] at hf
      exact List.mem_cons_of_mem _ (QHash_mem_of_find k v rest hf)

/-- Two sorted maps with the same entry under every key are the same list. -/
theorem QHash_ext {V : Type} :
    ∀ a b : QHash V, QHash.WF a → QHash.WF b →
      (∀ key, QHash.find a key = QHash.find b key) → a = b
  | [], [], _, _, _ => rfl
  | [], (k, v) :: rb, _, _, h => by
    have := h k
    simp [QHash.find] at this
  | (k, v) :: ra, [], _, _, h => by
    have := h k
    simp [QHash.find] at this
  | (k, v) :: ra, (k', v') :: rb, ha, hb, h => by
    have ha' := List.pairwise_cons.mp ha
    have hb' := List.pairwise_cons.mp hb
    have hkk : k = k' := by
      by_contra hne
      have h1 := h k
      have h2 := h k'
      have hne' : ¬ k' = k := fun e => hne e.symm
      simp only [QHash.find, if_true, hne', if_false] at h1
      simp only [QHash.find, if_true, hne, if_false] at h2
      have m1 := QHash_mem_of_find k v rb h1.symm
      have m2 := QHash_mem_of_find k' v' ra h2
      have l1 := hb'.1 _ m1
      have l2 := ha'.1 _ m2
      have := keyLt_asymm _ _ l1
      simp only at l2 this
      rw [l2] at this
      exact Bool.noConfusion this
    subst hkk
    have hv : v = v' := by
      have h1 := h k
      simp only [QHash.find, if_true, Option.some.injEq] at h1
      exact h1
    subst hv
    have htail : ra = rb := by
      apply QHash_ext ra rb ha'.2 hb'.2
      intro key
      by_cases hk : k = key
      · subst hk
        rw [QHash_find_eq_none k ra ha'.1, QHash_find_eq_none k rb hb'.1]
      · have := h key
        simp only [QHash.find, hk, if_false] at this
        exact this
    rw [htail]

theorem signedPart_value (obj : QJsonObject) (key : QString) :
    (signedPart obj).value key
      = if key = "signatures" then none else if key = "unsigned" then none else obj.value key := by
  simp only [signedPart, QJsonObject.value, QJsonObject.remove, QHash_find_remove]

theorem signedPart_eq_filter (obj : QJsonObject) :
    signedPart obj = obj.filter fun e => decide (e.1 ≠ "unsigned" ∧ e.1 ≠ "signatures") := by
  simp only [signedPart, QJsonObject.remove, QHash.remove, List.filter_filter]
  congr 1
  funext e
  simp [and_comm]

theorem signedPart_congr (obj obj' : QJsonObject) (hwf : QHash.WF obj) (hwf' : QHash.WF obj')
    (h : ∀ key, key ≠ "unsigned" → key ≠ "signatures" → obj'.value key = obj.value key) :
    signedPart obj' = signedPart obj := by
  apply QHash_ext
  · exact QHash_WF_remove _ _ (QHash_WF_remove _ _ hwf')
  · exact QHash_WF_remove _ _ (QHash_WF_remove _ _ hwf)
  · intro key
    have h1 := signedPart_value obj key
    have h2 := signedPart_value obj' key
    simp only [QJsonObject.value] at h1 h2 h
    rw [h1, h2]
    by_cases e1 : key = "signatures"
    · simp [e1]
    · by_cases e2 : key = "unsigned"
      · simp [e2]
      · simp only [e1, e2, if_false]
        exact h key e2 e1

/-- For a non-empty signature the result is the primitive's verdict on the compact
JSON of the signed part. -/
theorem ed25519VerifySignature_of_ne (utility : QOlmUtility) (signingKey : QString)
    (obj : QJsonObject) (signature : QString) (hs : signature ≠ "") :
    ed25519VerifySignature utility signingKey obj signature
      = utility.ed25519Verify (toUtf8 signingKey) (toJsonCompact (signedPart obj))
          (toUtf8 signature) := by
  simp [ed25519VerifySignature, ed25519VerifySignatureTraced, hs]

/-- C6: with an empty signature string `ed25519VerifySignature` returns false, and it
returns before making any call: the object is not serialized and the verification
primitive is not called. -/
theorem ed25519VerifySignature_empty (utility : QOlmUtility) (signingKey : QString)
    (obj : QJsonObject) :
    ed25519VerifySignature utility signingKey obj "" = false ∧
    ed25519VerifySignatureTraced utility signingKey obj "" = (false, []) := by
  constructor <;> simp [ed25519VerifySignature, ed25519VerifySignatureTraced]

/-- C7: for a non-empty signature, `ed25519VerifySignature` is the primitive's
verification of the signature under the key over the compact JSON of `signedPart obj`.
That object is `obj` without its top-level members `unsigned` and `signatures`: every
other member is kept with its value (nested members of those names included), and the
function works on a copy of `obj`.  Two objects with the same members apart from
`unsigned` and `signatures` give the same result. -/
theorem ed25519VerifySignature_nonempty (utility : QOlmUtility) (signingKey : QString)
    (obj : QJsonObject) (signature : QString) (hs : signature ≠ "") :
    ed25519VerifySignature utility signingKey obj signature
      = utility.ed25519Verify (toUtf8 signingKey) (toJsonCompact (signedPart obj))
          (toUtf8 signature) ∧
    signedPart obj = obj.filter (fun e => decide (e.1 ≠ "unsigned" ∧ e.1 ≠ "signatures")) ∧
    (∀ key, key ≠ "unsigned" → key ≠ "signatures" →
      (signedPart obj).value key = obj.value key) ∧
    (signedPart obj).value "unsigned" = none ∧
    (signedPart obj).value "signatures" = none ∧
    (∀ obj' : QJsonObject, QHash.WF obj → QHash.WF obj' →
      (∀ key, key ≠ "unsigned" → key ≠ "signatures" → obj'.value key = obj.value key) →
      ed25519VerifySignature utility signingKey obj' signature
        = ed25519VerifySignature utility signingKey obj signature) := by
  have hv := fun o : QJsonObject =>
    ed25519VerifySignature_of_ne utility signingKey o signature hs
  refine ⟨hv obj, signedPart_eq_filter obj, ?_, ?_, ?_, ?_⟩
  · intro key h1 h2
    rw [signedPart_value]
    simp [h1, h2]
  · rw [signedPart_value]; simp
  · rw [signedPart_value]; simp
  · intro obj' hwf hwf' h
    rw [hv obj', hv obj, signedPart_congr obj obj' hwf hwf' h]

theorem ed25519VerifySignature_nonempty_witness :
    ("c2ln" : QString) ≠ "" ∧
    ed25519VerifySignature sampleUtility "c2FtcGxlLWVk" sampleEvent "c2ln"
      = sampleUtility.ed25519Verify (toUtf8 "c2FtcGxlLWVk")
          (toJsonCompact (signedPart sampleEvent)) (toUtf8 "c2ln") ∧
    signedPart sampleEvent
      = sampleEvent.filter (fun e => decide (e.1 ≠ "unsigned" ∧ e.1 ≠ "signatures")) ∧
    signedPart sampleEvent = sampleEventSigned :=
  ⟨by decide,
    (ed25519VerifySignature_nonempty sampleUtility "c2FtcGxlLWVk" sampleEvent "c2ln"
      (by decide)).1,
    (ed25519VerifySignature_nonempty sampleUtility "c2FtcGxlLWVk" sampleEvent "c2ln"
      (by decide)).2.1,
    rfl⟩

/-! ## Signing -/

theorem utf8Chars_fromLatin1 :
    ∀ sig : QByteArray, (∀ b ∈ sig, b.val < 128) →
      utf8Chars (sig.map fun b => Char.ofNat b.val) = sig
  | [], _ => rfl
  | b :: rest, h => by
    have hb : b.val < 128 := h b (List.mem_cons_self _ _)
    have ih := utf8Chars_fromLatin1 rest (fun x hx => h x (List.mem_cons_of_mem _ hx))
    simp only [List.map_cons, utf8Chars, ih, utf8Char, toNat_ofNat_byte, hb, if_true,
      List.singleton_append, List.cons.injEq, and_true]
    apply Fin.ext
    simp only [byteOfNat]
    omega

/-- An ASCII byte string survives `QString::fromLatin1` followed by `toUtf8`. -/
theorem toUtf8_fromLatin1 (sig : QByteArray) (h : ∀ b ∈ sig, b.val < 128) :
    toUtf8 (fromLatin1 sig) = sig :=
  utf8Chars_fromLatin1 sig h

theorem fromLatin1_ne_empty (sig : QByteArray) (h : sig ≠ []) : fromLatin1 sig ≠ "" := by
  intro e
  have := congrArg String.data e
  simp only [fromLatin1] at this
  cases sig with
  | nil => exact h rfl
  | cons b rest => simp at this

theorem QHash_ne_of_find_eq_none {V : Type} (k : QString) :
    ∀ h : QHash V, QHash.find h k = none → ∀ e ∈ h, e.1 ≠ k
  | [], _, e, he => by simp at he
  | (k0, v0) :: rest, hf, e, he => by
    by_cases h0 : k0 = k
    · simp [QHash.find, h0] at hf
    · simp only [QHash.find, h0, if_false] at hf
      rcases List.mem_cons.mp he with he | he
      · rw [he]; exact h0
      · exact QHash_ne_of_find_eq_none k rest hf e he

/-- An object without `signatures` and `unsigned` members is verified as it is. -/
theorem signedPart_of_absent (obj : QJsonObject) (h1 : obj.value "signatures" = none)
    (h2 : obj.value "unsigned" = none) : signedPart obj = obj := by
  rw [signedPart_eq_filter]
  apply List.filter_eq_self.mpr
  intro e he
  have n1 := QHash_ne_of_find_eq_none "signatures" obj h1 e he
  have n2 := QHash_ne_of_find_eq_none "unsigned" obj h2 e he
  simp [n1, n2]

/-- C8, as amended: for an object without top-level `signatures` and `unsigned`
members, the bytes that `sign` signs are the bytes that `ed25519VerifySignature`
verifies, so the signature verifies under the account's Ed25519 key, given a primitive
whose signatures are non-empty ASCII text and verify over the bytes they were made
for. -/
theorem sign_then_verify (utility : QOlmUtility) (account : QOlmAccount) (ik : IdentityKeys)
    (obj : QJsonObject) (sig : QByteArray)
    (hs : obj.value "signatures" = none) (hu : obj.value "unsigned" = none)
    (_hk : account.identityKeys = some ik)
    (hsig : account.olmData.sign (toJsonCompact obj) = some sig)
    (htext : ∀ m s, account.olmData.sign m = some s → s ≠ [] ∧ ∀ b ∈ s, b.val < 128)
    (hlaw : ∀ m s, account.olmData.sign m = some s →
      utility.ed25519Verify (toUtf8 ik.ed25519) m s = true) :
    account.signJson obj = some sig ∧
    toJsonCompact (signedPart obj) = toJsonCompact obj ∧
    ed25519VerifySignature utility ik.ed25519 obj (fromLatin1 sig) = true := by
  have ht := htext _ _ hsig
  refine ⟨?_, ?_, ?_⟩
  · simp [QOlmAccount.signJson, QOlmAccount.sign, hsig]
  · rw [signedPart_of_absent obj hs hu]
  · have hne := fromLatin1_ne_empty sig ht.1
    rw [ed25519VerifySignature_of_ne utility ik.ed25519 obj (fromLatin1 sig) hne,
      signedPart_of_absent obj hs hu, toUtf8_fromLatin1 sig ht.2]
    exact hlaw _ _ hsig

theorem alphabet_lt_128 (url : Bool) (i : Nat) (h : i < 64) : (alphabet url i).val < 128 := by
  have key : ∀ j : Fin 64, (alphabet url j.val).val < 128 := by
    cases url <;> decide
  exact key ⟨i, h⟩

theorem toBase64_ne_nil (url : Bool) :
    ∀ bs : QByteArray, bs ≠ [] → toBase64 url true bs ≠ []
  | [], h => absurd rfl h
  | [_], _ => by simp [toBase64]
  | [_, _], _ => by simp [toBase64]
  | _ :: _ :: _ :: _, _ => by simp [toBase64]

theorem toBase64_injective (url omitEquals : Bool) (a b : QByteArray)
    (h : toBase64 url omitEquals a = toBase64 url omitEquals b) : a = b := by
  rw [← fromBase64_toBase64 url omitEquals a, ← fromBase64_toBase64 url omitEquals b, h]

/-- The signatures of the stand-in account are non-empty ASCII text. -/
theorem sampleAccount_text (m s : QByteArray) (h : sampleAccount.olmData.sign m = some s) :
    s ≠ [] ∧ ∀ b ∈ s, b.val < 128 := by
  simp only [sampleAccount, sampleOlmAccount, Option.some.injEq] at h
  subst h
  constructor
  · apply toBase64_ne_nil
    intro e
    have := congrArg List.length e
    simp [toUtf8, utf8Chars, utf8Char] at this
  · intro b hb
    obtain ⟨i, hi, e⟩ := mem_toBase64 false _ b hb
    rw [e]
    exact alphabet_lt_128 false i hi

/-- The signatures of the stand-in account verify over the bytes they were made for. -/
theorem sampleAccount_law (m s : QByteArray) (h : sampleAccount.olmData.sign m = some s) :
    sampleUtility.ed25519Verify (toUtf8 "c2FtcGxlLWVk") m s = true := by
  simp only [sampleAccount, sampleOlmAccount, Option.some.injEq] at h
  subst h
  simp [sampleUtility]

/-- The signatures of the stand-in account verify over no other bytes. -/
theorem sampleAccount_sound (m m' s : QByteArray) (h : sampleAccount.olmData.sign m = some s)
    (hv : sampleUtility.ed25519Verify (toUtf8 "c2FtcGxlLWVk") m' s = true) : m' = m := by
  simp only [sampleAccount, sampleOlmAccount, Option.some.injEq] at h
  subst h
  simp only [sampleUtility, decide_eq_true_eq] at hv
  have := toBase64_injective _ _ _ _ hv
  exact (List.append_cancel_right this).symm

theorem sign_then_verify_witness :
    QJsonObject.value sampleEventSigned "signatures" = none ∧
    QJsonObject.value sampleEventSigned "unsigned" = none ∧
    toJsonCompact (signedPart sampleEventSigned) = toJsonCompact sampleEventSigned ∧
    ed25519VerifySignature sampleUtility "c2FtcGxlLWVk" sampleEventSigned
      (fromLatin1 (toBase64 false true
        (toJsonCompact sampleEventSigned ++ toUtf8 "c2FtcGxlLWVk"))) = true :=
  ⟨rfl, rfl,
    (sign_then_verify sampleUtility sampleAccount ⟨"c2FtcGxlLWN1cnZl", "c2FtcGxlLWVk"⟩
      sampleEventSigned _ rfl rfl rfl rfl sampleAccount_text sampleAccount_law).2⟩

/-- C8, as stated, at `sampleEvent`: the primitive verifies every signature over the
bytes it was made for, `sign` signs the compact JSON of the whole object, which differs
from the compact JSON without `signatures` and `unsigned` that is verified, and the
signature of the object does not verify for the object. -/
theorem sign_then_verify_counterexample :
    (∀ m s, sampleAccount.olmData.sign m = some s →
      sampleUtility.ed25519Verify (toUtf8 "c2FtcGxlLWVk") m s = true) ∧
    sampleAccount.signJson sampleEvent = sampleAccount.sign (toJsonCompact sampleEvent) ∧
    toJsonCompact sampleEvent ≠ toJsonCompact (signedPart sampleEvent) ∧
    sampleAccount.signJson sampleEvent
      = some (toBase64 false true (toJsonCompact sampleEvent ++ toUtf8 "c2FtcGxlLWVk")) ∧
    ed25519VerifySignature sampleUtility "c2FtcGxlLWVk" sampleEvent
      (fromLatin1 (toBase64 false true
        (toJsonCompact sampleEvent ++ toUtf8 "c2FtcGxlLWVk"))) = false := by
  refine ⟨sampleAccount_law, rfl, by decide, rfl, by decide⟩

/-! ## The device-keys bundle -/

theorem keyLt_curve_ed (deviceId : QString) :
    keyLt ("curve25519:" ++ deviceId) ("ed25519:" ++ deviceId) = true := by
  have h1 : ("curve25519:" ++ deviceId).data = 'c' :: ("urve25519:" ++ deviceId).data := by
    simp [String.data_append]
  have h2 : ("ed25519:" ++ deviceId).data = 'e' :: ("d25519:" ++ deviceId).data := by
    simp [String.data_append]
  unfold keyLt
  rw [h1, h2, ltChars, Bool.or_eq_true]
  exact Or.inl (by decide)

theorem QHash_ofList_pair {V : Type} (k1 k2 : QString) (v1 v2 : V) (h : keyLt k1 k2 = true) :
    QHash.ofList [(k1, v1), (k2, v2)] = [(k1, v1), (k2, v2)] := by
  have h1 : keyLt k2 k1 = false := keyLt_asymm _ _ h
  have h2 : k2 ≠ k1 := fun e => keyLt_ne _ _ h e.symm
  simp [QHash.ofList, QHash.insert, h1, h2]

theorem QJsonObject_ofList_pair (k1 k2 : QString) (v1 v2 : QJsonValue)
    (h : keyLt k1 k2 = true) :
    QJsonObject.ofList [(k1, v1), (k2, v2)] = [(k1, v1), (k2, v2)] :=
  QHash_ofList_pair k1 k2 v1 v2 h

theorem toJsonHash_pair (k1 k2 : QString) (v1 v2 : QString) (h : keyLt k1 k2 = true) :
    toJsonHash QJsonValue.string [(k1, v1), (k2, v2)]
      = [(k1, QJsonValue.string v1), (k2, QJsonValue.string v2)] := by
  rw [toJsonHash_string]
  · rfl
  · simp [QHash.WF, h]

theorem identityKeysJson_eq (account : QOlmAccount) (ik : IdentityKeys) :
    account.identityKeysJson ik =
      [("algorithms", toJsonStringList SupportedAlgorithms),
       ("device_id", QJsonValue.string account.m_deviceId),
       ("keys", QJsonValue.object
          [("curve25519:" ++ account.m_deviceId, QJsonValue.string ik.curve25519),
           ("ed25519:" ++ account.m_deviceId, QJsonValue.string ik.ed25519)]),
       ("user_id", QJsonValue.string account.m_userId)] := by
  have h : account.identityKeysJson ik =
      [("algorithms", toJsonStringList SupportedAlgorithms),
       ("device_id", QJsonValue.string account.m_deviceId),
       ("keys", QJsonValue.object (QJsonObject.ofList
          [("curve25519:" ++ account.m_deviceId, QJsonValue.string ik.curve25519),
           ("ed25519:" ++ account.m_deviceId, QJsonValue.string ik.ed25519)])),
       ("user_id", QJsonValue.string account.m_userId)] := rfl
  rw [h, QJsonObject_ofList_pair _ _ _ _ (keyLt_curve_ed _)]

theorem signedPart_toJson (dk : DeviceKeys) :
    signedPart (DeviceKeys.toJson dk) =
      [("algorithms", toJsonStringList dk.algorithms),
       ("device_id", QJsonValue.string dk.deviceId),
       ("keys", QJsonValue.object (toJsonHash QJsonValue.string dk.keys)),
       ("user_id", QJsonValue.string dk.userId)] := rfl

/-- The bundle that `deviceKeys` returns when the primitive yields the identity keys
`ik` and the signature `sig`. -/
theorem deviceKeys_eq (account : QOlmAccount) (ik : IdentityKeys) (sig : QByteArray)
    (hik : account.identityKeys = some ik)
    (hsig : account.olmData.sign (toJsonCompact (account.identityKeysJson ik)) = some sig) :
    account.deviceKeys = some
      { userId := account.m_userId, deviceId := account.m_deviceId,
        algorithms := SupportedAlgorithms,
        keys := [("curve25519:" ++ account.m_deviceId, ik.curve25519),
                 ("ed25519:" ++ account.m_deviceId, ik.ed25519)],
        signatures := [(account.m_userId,
                        [("ed25519:" ++ account.m_deviceId, fromLatin1 sig)])] } := by
  simp only [QOlmAccount.deviceKeys, hik, QOlmAccount.signIdentityKeys, QOlmAccount.signJson,
    QOlmAccount.sign, hsig, QHash_ofList_pair _ _ _ _ (keyLt_curve_ed _)]
  rfl

theorem find_pair_snd {V : Type} (k1 k2 : QString) (v1 v2 : V) (h : keyLt k1 k2 = true) :
    QHash.find [(k1, v1), (k2, v2)] k2 = some v2 := by
  have h2 : k1 ≠ k2 := keyLt_ne _ _ h
  simp [QHash.find, h2]

/-- C9: for an account whose primitive yields identity keys and a signature of the
identity-keys object, `verifyIdentitySignature(deviceKeys(), deviceId, userId)` is true:
the compact JSON of the serialized bundle without `signatures` is the compact JSON of
the object with the members `algorithms`, `device_id`, `keys` and `user_id` that
`signIdentityKeys` signed, and the signing key and the signature are found under
`"ed25519:" + deviceId`.  The primitive's signatures are non-empty ASCII text and
verify over the bytes they were made for. -/
theorem verifyIdentitySignature_deviceKeys (utility : QOlmUtility) (account : QOlmAccount)
    (ik : IdentityKeys) (sig : QByteArray)
    (hik : account.identityKeys = some ik)
    (hsig : account.olmData.sign (toJsonCompact (account.identityKeysJson ik)) = some sig)
    (htext : ∀ m s, account.olmData.sign m = some s → s ≠ [] ∧ ∀ b ∈ s, b.val < 128)
    (hlaw : ∀ m s, account.olmData.sign m = some s →
      utility.ed25519Verify (toUtf8 ik.ed25519) m s = true) :
    ∃ dk, account.deviceKeys = some dk ∧
      account.signIdentityKeys = some sig ∧
      toJsonCompact (signedPart (DeviceKeys.toJson dk))
        = toJsonCompact (account.identityKeysJson ik) ∧
      (account.identityKeysJson ik).keys = ["algorithms", "device_id", "keys", "user_id"] ∧
      dk.keys.value ("ed25519:" ++ account.m_deviceId) = ik.ed25519 ∧
      (dk.signatures.value account.m_userId).value ("ed25519:" ++ account.m_deviceId)
        = fromLatin1 sig ∧
      verifyIdentitySignature utility dk account.m_deviceId account.m_userId = true := by
  have hlt := keyLt_curve_ed account.m_deviceId
  have ht := htext _ _ hsig
  have hne := fromLatin1_ne_empty sig ht.1
  have hobj : signedPart (DeviceKeys.toJson
      { userId := account.m_userId, deviceId := account.m_deviceId,
        algorithms := SupportedAlgorithms,
        keys := [("curve25519:" ++ account.m_deviceId, ik.curve25519),
                 ("ed25519:" ++ account.m_deviceId, ik.ed25519)],
        signatures := [(account.m_userId,
                        [("ed25519:" ++ account.m_deviceId, fromLatin1 sig)])] })
      = account.identityKeysJson ik := by
    rw [signedPart_toJson, identityKeysJson_eq, toJsonHash_pair _ _ _ _ hlt]
  have hkey : QHash.value [("curve25519:" ++ account.m_deviceId, ik.curve25519),
      ("ed25519:" ++ account.m_deviceId, ik.ed25519)] ("ed25519:" ++ account.m_deviceId)
      = ik.ed25519 := by
    simp [QHash.value, find_pair_snd _ _ _ _ hlt]
  have hsg : QHash.value (QHash.value [(account.m_userId,
      [("ed25519:" ++ account.m_deviceId, fromLatin1 sig)])] account.m_userId)
      ("ed25519:" ++ account.m_deviceId) = fromLatin1 sig := by
    simp [QHash.value, QHash.find]
  refine ⟨_, deviceKeys_eq account ik sig hik hsig, ?_, ?_, ?_, hkey, hsg, ?_⟩
  · simp [QOlmAccount.signIdentityKeys, hik, QOlmAccount.signJson, QOlmAccount.sign, hsig]
  · rw [hobj]
  · rw [identityKeysJson_eq]; rfl
  · simp only [verifyIdentitySignature, hkey, hsg]
    rw [ed25519VerifySignature_of_ne _ _ _ _ hne, hobj, toUtf8_fromLatin1 sig ht.2]
    exact hlaw _ _ hsig

theorem verifyIdentitySignature_deviceKeys_witness :
    sampleAccount.identityKeys = some ⟨"c2FtcGxlLWN1cnZl", "c2FtcGxlLWVk"⟩ ∧
    ∃ dk, sampleAccount.deviceKeys = some dk ∧
      toJsonCompact (signedPart (DeviceKeys.toJson dk))
        = toJsonCompact (sampleAccount.identityKeysJson ⟨"c2FtcGxlLWN1cnZl", "c2FtcGxlLWVk"⟩) ∧
      verifyIdentitySignature sampleUtility dk "DEVICEID" "@alice:example.org" = true :=
  ⟨rfl,
    match verifyIdentitySignature_deviceKeys sampleUtility sampleAccount
        ⟨"c2FtcGxlLWN1cnZl", "c2FtcGxlLWVk"⟩ _ rfl rfl sampleAccount_text sampleAccount_law with
    | ⟨dk, h1, _, h3, _, _, _, h7⟩ => ⟨dk, h1, h3, h7⟩⟩

/-! ## The JSON writer is injective -/

theorem char_toNat_lt (c : Char) : c.toNat < 1114112 := by
  have h := c.valid
  simp only [Char.toNat]
  rcases h with h | h
  · have : c.val.toNat < 55296 := h
    omega
  · have : c.val.toNat < 1114112 := h.2
    omega

theorem byteOfNat_val (n : Nat) (h : n < 256) : (byteOfNat n).val = n := by
  simp [byteOfNat, Nat.mod_eq_of_lt h]

theorem hexdig_val (u : Nat) (h : u < 16) :
    (hexdig u).val = if u < 10 then 48 + u else 87 + u := by
  unfold hexdig
  split
  · rw [byteOfNat_val _ (by omega)]
  · rw [byteOfNat_val _ (by omega)]; omega

theorem unhex_hexdig (u : Nat) (h : u < 16) : unhex (hexdig u).val = u := by
  rw [hexdig_val u h]
  unfold unhex
  split <;> split <;> omega

/-- Reading undoes the writing of one character. -/
theorem readEscapedChar_escapedChar (c : Char) (r : QByteArray) :
    readEscapedChar (escapedChar c ++ r) = some (c.toNat, r) := by
  have hlt := char_toNat_lt c
  unfold escapedChar
  simp only
  by_cases h128 : c.toNat < 128
  · simp only [h128, if_true]
    by_cases hesc : c.toNat < 32 ∨ c.toNat = 34 ∨ c.toNat = 92
    · simp only [hesc, if_true]
      by_cases e34 : c.toNat = 34
      · simp [e34, readEscapedChar, Fin.coe_ofNat_eq_mod]
      by_cases e92 : c.toNat = 92
      · simp [e92, readEscapedChar, Fin.coe_ofNat_eq_mod]
      by_cases e8 : c.toNat = 8
      · simp [e8, readEscapedChar, Fin.coe_ofNat_eq_mod]
      by_cases e12 : c.toNat = 12
      · simp [e12, readEscapedChar, Fin.coe_ofNat_eq_mod]
      by_cases e10 : c.toNat = 10
      · simp [e10, readEscapedChar, Fin.coe_ofNat_eq_mod]
      by_cases e13 : c.toNat = 13
      · simp [e13, readEscapedChar, Fin.coe_ofNat_eq_mod]
      by_cases e9 : c.toNat = 9
      · simp [e9, readEscapedChar, Fin.coe_ofNat_eq_mod]
      have hlt32 : c.toNat < 32 := by omega
      simp only [e34, e92, e8, e12, e10, e13, e9, if_false, List.cons_append, List.nil_append,
        readEscapedChar, Fin.coe_ofNat_eq_mod]
      simp only [unhex_hexdig (c.toNat / 16) (by omega), unhex_hexdig (c.toNat % 16) (by omega)]
      simp
      omega
    · simp only [hesc, if_false, List.cons_append, List.nil_append, readEscapedChar,
        byteOfNat_val _ (by omega : c.toNat < 256)]
      have : c.toNat ≠ 92 := by omega
      simp [this, h128]
  · simp only [h128, if_false]
    unfold utf8Char
    simp only [h128, if_false]
    by_cases h2 : c.toNat < 2048
    · simp only [h2, if_true, List.cons_append, List.nil_append, readEscapedChar,
        byteOfNat_val _ (by omega : 192 + c.toNat / 64 < 256),
        byteOfNat_val _ (by omega : 128 + c.toNat % 64 < 256)]
      have a1 : ¬ (192 + c.toNat / 64 = 92) := by omega
      have a2 : ¬ (192 + c.toNat / 64 < 128) := by omega
      have a3 : 192 + c.toNat / 64 < 224 := by omega
      simp only [a1, a2, a3, if_false, if_true, Option.some.injEq, Prod.mk.injEq, and_true]
      omega
    · simp only [h2, if_false]
      by_cases h3 : c.toNat < 65536
      · simp only [h3, if_true, List.cons_append, List.nil_append, readEscapedChar,
          byteOfNat_val _ (by omega : 224 + c.toNat / 4096 < 256),
          byteOfNat_val _ (by omega : 128 + c.toNat / 64 % 64 < 256),
          byteOfNat_val _ (by omega : 128 + c.toNat % 64 < 256)]
        have a1 : ¬ (224 + c.toNat / 4096 = 92) := by omega
        have a2 : ¬ (224 + c.toNat / 4096 < 128) := by omega
        have a3 : ¬ (224 + c.toNat / 4096 < 224) := by omega
        have a4 : 224 + c.toNat / 4096 < 240 := by omega
        simp only [a1, a2, a3, a4, if_false, if_true, Option.some.injEq, Prod.mk.injEq,
          and_true]
        omega
      · simp only [h3, if_false, List.cons_append, List.nil_append, readEscapedChar,
          byteOfNat_val _ (by omega : 240 + c.toNat / 262144 < 256),
          byteOfNat_val _ (by omega : 128 + c.toNat / 4096 % 64 < 256),
          byteOfNat_val _ (by omega : 128 + c.toNat / 64 % 64 < 256),
          byteOfNat_val _ (by omega : 128 + c.toNat % 64 < 256)]
        have a1 : ¬ (240 + c.toNat / 262144 = 92) := by omega
        have a2 : ¬ (240 + c.toNat / 262144 < 128) := by omega
        have a3 : ¬ (240 + c.toNat / 262144 < 224) := by omega
        have a4 : ¬ (240 + c.toNat / 262144 < 240) := by omega
        simp only [a1, a2, a3, a4, if_false, Option.some.injEq, Prod.mk.injEq, and_true]
        omega

theorem escapedChar_inj (c c' : Char) (r r' : QByteArray)
    (h : escapedChar c ++ r = escapedChar c' ++ r') : c = c' ∧ r = r' := by
  have h1 := readEscapedChar_escapedChar c r
  rw [h, readEscapedChar_escapedChar c' r'] at h1
  simp only [Option.some.injEq, Prod.mk.injEq] at h1
  refine ⟨?_, h1.2.symm⟩
  rw [← Char.ofNat_toNat c, ← Char.ofNat_toNat c', h1.1]

theorem escapedChar_ne_quote (c : Char) (r r' : QByteArray) :
    escapedChar c ++ r ≠ 34 :: r' := by
  intro h
  have h1 := readEscapedChar_escapedChar c r
  rw [h] at h1
  simp only [readEscapedChar, Fin.coe_ofNat_eq_mod] at h1
  simp only [Nat.reduceMod, Nat.reduceEqDiff, if_false, Nat.reduceLT, if_true, Option.some.injEq,
    Prod.mk.injEq] at h1
  have hc : c.toNat = 34 := h1.1.symm
  unfold escapedChar at h
  simp [hc] at h

/-- The escaped text of a string, closed by its quotation mark, determines the string
and what follows. -/
theorem escapedChars_inj :
    ∀ (cs cs' : List Char) (r r' : QByteArray),
      escapedChars cs ++ 34 :: r = escapedChars cs' ++ 34 :: r' → cs = cs' ∧ r = r'
  | [], [], r, r', h => by
    simp only [escapedChars, List.nil_append, List.cons.injEq, true_and] at h
    exact ⟨rfl, h⟩
  | [], c' :: cs', r, r', h => by
    simp only [escapedChars, List.nil_append, List.append_assoc] at h
    exact absurd h.symm (escapedChar_ne_quote c' _ _)
  | c :: cs, [], r, r', h => by
    simp only [escapedChars, List.nil_append, List.append_assoc] at h
    exact absurd h (escapedChar_ne_quote c _ _)
  | c :: cs, c' :: cs', r, r', h => by
    simp only [escapedChars, List.append_assoc] at h
    obtain ⟨hc, ht⟩ := escapedChar_inj c c' _ _ h
    obtain ⟨hcs, hr⟩ := escapedChars_inj cs cs' r r' ht
    exact ⟨by rw [hc, hcs], hr⟩

theorem escapedString_inj (s s' : QString) (r r' : QByteArray)
    (h : escapedString s ++ 34 :: r = escapedString s' ++ 34 :: r') : s = s' ∧ r = r' := by
  obtain ⟨h1, h2⟩ := escapedChars_inj s.data s'.data r r' h
  exact ⟨String.ext h1, h2⟩

theorem readDecimal_decimalText (m : Nat) : readDecimal (decimalText m) = m := by
  unfold decimalText readDecimal
  split
  · rename_i h0
    subst h0
    simp [Fin.coe_ofNat_eq_mod]
  · have hmap : ((Nat.digits 10 m).reverse.map fun d => byteOfNat (48 + d)).map
        (fun b => b.val - 48) = (Nat.digits 10 m).reverse := by
      rw [List.map_map]
      conv => rhs; rw [← List.map_id (Nat.digits 10 m).reverse]
      apply List.map_congr_left
      intro d hd
      have hd' : d < 10 := Nat.digits_lt_base (by decide) (List.mem_reverse.mp hd)
      simp only [Function.comp, byteOfNat, id]
      omega
    rw [hmap, List.reverse_reverse, Nat.ofDigits_digits]

theorem decimalText_inj (m m' : Nat) (h : decimalText m = decimalText m') : m = m' := by
  rw [← readDecimal_decimalText m, ← readDecimal_decimalText m', h]

theorem decimalText_isDigit (m : Nat) : ∀ b ∈ decimalText m, isDigitByte b := by
  intro b hb
  unfold decimalText at hb
  split at hb
  · simp only [List.mem_singleton] at hb
    subst hb
    decide
  · simp only [List.mem_map, List.mem_reverse] at hb
    obtain ⟨d, hd, e⟩ := hb
    have hd' : d < 10 := Nat.digits_lt_base (by decide) hd
    subst e
    simp only [isDigitByte, byteOfNat]
    omega

theorem decimalText_ne_nil (m : Nat) : decimalText m ≠ [] := by
  unfold decimalText
  split
  · simp
  · rename_i h0
    simp only [ne_eq, List.map_eq_nil_iff, List.reverse_eq_nil_iff]
    exact fun e => h0 (Nat.digits_eq_nil_iff_eq_zero.mp e)

/-- Two runs of digits, each followed by something that is not a digit, agree when
the byte strings they start agree. -/
theorem digits_prefix_inj :
    ∀ (l l' r r' : QByteArray), (∀ b ∈ l, isDigitByte b) → (∀ b ∈ l', isDigitByte b) →
      noDigitAhead r → noDigitAhead r' → l ++ r = l' ++ r' → l = l' ∧ r = r'
  | [], [], _, _, _, _, _, _, h => ⟨rfl, h⟩
  | [], d :: l', r, r', _, hl', hr, _, h => by
    simp only [List.nil_append] at h
    subst h
    exact absurd (hl' d (List.mem_cons_self _ _)) (hr d (by simp))
  | d :: l, [], r, r', hl, _, _, hr', h => by
    simp only [List.nil_append] at h
    subst h
    exact absurd (hl d (List.mem_cons_self _ _)) (hr' d (by simp))
  | d :: l, d' :: l', r, r', hl, hl', hr, hr', h => by
    simp only [List.cons_append, List.cons.injEq] at h
    obtain ⟨h1, h2⟩ := digits_prefix_inj l l' r r'
      (fun b hb => hl b (List.mem_cons_of_mem _ hb))
      (fun b hb => hl' b (List.mem_cons_of_mem _ hb)) hr hr' h.2
    exact ⟨by rw [h.1, h1], h2⟩

theorem decimalText_head (m : Nat) : ∃ b t, decimalText m = b :: t ∧ isDigitByte b := by
  cases hd : decimalText m with
  | nil => exact absurd hd (decimalText_ne_nil m)
  | cons b t =>
    exact ⟨b, t, rfl, decimalText_isDigit m b (by rw [hd]; exact List.mem_cons_self _ _)⟩

theorem numberText_inj (n n' : Int) (r r' : QByteArray) (hr : noDigitAhead r)
    (hr' : noDigitAhead r') (h : numberText n ++ r = numberText n' ++ r') :
    n = n' ∧ r = r' := by
  unfold numberText at h
  by_cases hn : n < 0 <;> by_cases hn' : n' < 0
  · simp only [hn, hn', if_true, List.cons_append, List.cons.injEq, true_and] at h
    obtain ⟨h1, h2⟩ := digits_prefix_inj _ _ r r' (decimalText_isDigit _)
      (decimalText_isDigit _) hr hr' h
    have := decimalText_inj _ _ h1
    exact ⟨by omega, h2⟩
  · simp only [hn, hn', if_true, if_false, List.cons_append] at h
    obtain ⟨b, t, e, hb⟩ := decimalText_head n'.natAbs
    rw [e] at h
    simp only [List.cons_append, List.cons.injEq] at h
    rw [← h.1] at hb
    exact absurd hb (by decide)
  · simp only [hn, hn', if_true, if_false, List.cons_append] at h
    obtain ⟨b, t, e, hb⟩ := decimalText_head n.natAbs
    rw [e] at h
    simp only [List.cons_append, List.cons.injEq] at h
    rw [h.1] at hb
    exact absurd hb (by decide)
  · simp only [hn, hn', if_false] at h
    obtain ⟨h1, h2⟩ := digits_prefix_inj _ _ r r' (decimalText_isDigit _)
      (decimalText_isDigit _) hr hr' h
    have := decimalText_inj _ _ h1
    exact ⟨by omega, h2⟩

/-- The first byte of a written value tells its kind. -/
theorem valueToJson_head (v : QJsonValue) :
    ∃ b t, valueToJson v = b :: t ∧ byteKind b = valueKind v := by
  cases v with
  | null => exact ⟨110, [117, 108, 108], by rw [valueToJson], rfl⟩
  | bool b =>
    cases b
    · exact ⟨102, [97, 108, 115, 101], by rw [valueToJson], rfl⟩
    · exact ⟨116, [114, 117, 101], by rw [valueToJson], rfl⟩
  | number n =>
    simp only [valueToJson, numberText]
    split
    · exact ⟨45, _, rfl, rfl⟩
    · obtain ⟨b, t, e, hb⟩ := decimalText_head n.natAbs
      refine ⟨b, t, e, ?_⟩
      have h1 : b ≠ 110 := by intro h; subst h; revert hb; decide
      have h2 : ¬ (b = 116 ∨ b = 102) := by
        rintro (h | h) <;> (subst h; revert hb; decide)
      simp [byteKind, h1, h2, hb, valueKind]
  | string s => exact ⟨34, escapedString s ++ [34], by rw [valueToJson], rfl⟩
  | array a => exact ⟨91, arrayContentToJson a ++ [93], by rw [valueToJson], rfl⟩
  | object o => exact ⟨123, objectContentToJson o ++ [125], by rw [valueToJson], rfl⟩

theorem valueToJson_kind_eq (v v' : QJsonValue) (r r' : QByteArray)
    (h : valueToJson v ++ r = valueToJson v' ++ r') : valueKind v = valueKind v' := by
  obtain ⟨b, t, e, hb⟩ := valueToJson_head v
  obtain ⟨b', t', e', hb'⟩ := valueToJson_head v'
  rw [e, e'] at h
  simp only [List.cons_append, List.cons.injEq] at h
  rw [← hb, ← hb', h.1]

theorem valueToJson_ne_cons (v : QJsonValue) (r r' : QByteArray) (b : Byte)
    (hb : byteKind b = 6) : valueToJson v ++ r ≠ b :: r' := by
  intro h
  obtain ⟨b0, t, e, hb0⟩ := valueToJson_head v
  rw [e] at h
  simp only [List.cons_append, List.cons.injEq] at h
  rw [h.1, hb] at hb0
  cases v <;> simp [valueKind] at hb0

theorem noDigitAhead_cons (b : Byte) (r : QByteArray) (hb : ¬ isDigitByte b) :
    noDigitAhead (b :: r) := by
  intro x hx
  simp only [List.head?_cons, Option.mem_def, Option.some.injEq] at hx
  subst hx
  exact hb

mutual

/-- A written value determines the value and what follows it. -/
theorem valueToJson_inj (v v' : QJsonValue) (r r' : QByteArray) (hr : noDigitAhead r)
    (hr' : noDigitAhead r') (h : valueToJson v ++ r = valueToJson v' ++ r') :
    v = v' ∧ r = r' := by
  have hk := valueToJson_kind_eq v v' r r' h
  cases v with
  | null =>
    cases v' <;> simp only [valueKind] at hk <;> try omega
    simp only [valueToJson, List.cons_append, List.cons.injEq, true_and, List.nil_append] at h
    exact ⟨rfl, h⟩
  | bool b =>
    cases v' <;> simp only [valueKind] at hk <;> try omega
    rename_i b'
    cases b <;> cases b' <;>
      simp only [valueToJson, List.cons_append, List.cons.injEq, true_and, List.nil_append] at h
    · exact ⟨rfl, h⟩
    · exact absurd h.1 (by decide)
    · exact absurd h.1 (by decide)
    · exact ⟨rfl, h⟩
  | number n =>
    cases v' <;> simp only [valueKind] at hk <;> try omega
    rename_i n'
    simp only [valueToJson] at h
    obtain ⟨h1, h2⟩ := numberText_inj n n' r r' hr hr' h
    exact ⟨by rw [h1], h2⟩
  | string s =>
    cases v' <;> simp only [valueKind] at hk <;> try omega
    rename_i s'
    simp only [valueToJson, List.cons_append, List.cons.injEq, true_and, List.append_assoc,
      List.nil_append] at h
    obtain ⟨h1, h2⟩ := escapedString_inj s s' r r' h
    exact ⟨by rw [h1], h2⟩
  | array a =>
    cases v' <;> simp only [valueKind] at hk <;> try omega
    rename_i a'
    simp only [valueToJson, List.cons_append, List.cons.injEq, true_and, List.append_assoc,
      List.nil_append] at h
    obtain ⟨h1, h2⟩ := arrayContentToJson_inj a a' r r' h
    exact ⟨by rw [h1], h2⟩
  | object o =>
    cases v' <;> simp only [valueKind] at hk <;> try omega
    rename_i o'
    simp only [valueToJson, List.cons_append, List.cons.injEq, true_and, List.append_assoc,
      List.nil_append] at h
    obtain ⟨h1, h2⟩ := objectContentToJson_inj o o' r r' h
    exact ⟨by rw [h1], h2⟩
termination_by sizeOf v

/-- The written elements of an array, closed by its bracket, determine the elements
and what follows. -/
theorem arrayContentToJson_inj (a a' : List QJsonValue) (r r' : QByteArray)
    (h : arrayContentToJson a ++ 93 :: r = arrayContentToJson a' ++ 93 :: r') :
    a = a' ∧ r = r' := by
  match a, a', h with
  | [], [], h =>
    simp only [arrayContentToJson, List.nil_append, List.cons.injEq, true_and] at h
    exact ⟨rfl, h⟩
  | [], [v'], h =>
    simp only [arrayContentToJson, List.nil_append] at h
    exact absurd h.symm (valueToJson_ne_cons v' _ _ 93 (by decide))
  | [], v' :: w' :: rest', h =>
    simp only [arrayContentToJson, List.nil_append, List.append_assoc] at h
    exact absurd h.symm (valueToJson_ne_cons v' _ _ 93 (by decide))
  | [v], [], h =>
    simp only [arrayContentToJson, List.nil_append] at h
    exact absurd h (valueToJson_ne_cons v _ _ 93 (by decide))
  | v :: w :: rest, [], h =>
    simp only [arrayContentToJson, List.nil_append, List.append_assoc] at h
    exact absurd h (valueToJson_ne_cons v _ _ 93 (by decide))
  | [v], [v'], h =>
    simp only [arrayContentToJson] at h
    obtain ⟨h1, h2⟩ := valueToJson_inj v v' _ _ (noDigitAhead_cons _ _ (by decide))
      (noDigitAhead_cons _ _ (by decide)) h
    simp only [List.cons.injEq, true_and] at h2
    exact ⟨by rw [h1], h2⟩
  | [v], v' :: w' :: rest', h =>
    simp only [arrayContentToJson, List.append_assoc, List.cons_append] at h
    obtain ⟨_, h2⟩ := valueToJson_inj v v' _ _ (noDigitAhead_cons _ _ (by decide))
      (noDigitAhead_cons _ _ (by decide)) h
    simp only [List.cons.injEq] at h2
    exact absurd h2.1 (by decide)
  | v :: w :: rest, [v'], h =>
    simp only [arrayContentToJson, List.append_assoc, List.cons_append] at h
    obtain ⟨_, h2⟩ := valueToJson_inj v v' _ _ (noDigitAhead_cons _ _ (by decide))
      (noDigitAhead_cons _ _ (by decide)) h
    simp only [List.cons.injEq] at h2
    exact absurd h2.1 (by decide)
  | v :: w :: rest, v' :: w' :: rest', h =>
    simp only [arrayContentToJson, List.append_assoc, List.cons_append] at h
    obtain ⟨h1, h2⟩ := valueToJson_inj v v' _ _ (noDigitAhead_cons _ _ (by decide))
      (noDigitAhead_cons _ _ (by decide)) h
    simp only [List.cons.injEq, true_and] at h2
    obtain ⟨h3, h4⟩ := arrayContentToJson_inj (w :: rest) (w' :: rest') r r' h2
    exact ⟨by rw [h1, h3], h4⟩
termination_by sizeOf a

/-- The written members of an object, closed by its brace, determine the members and
what follows. -/
theorem objectContentToJson_inj (o o' : List (QString × QJsonValue)) (r r' : QByteArray)
    (h : objectContentToJson o ++ 125 :: r = objectContentToJson o' ++ 125 :: r') :
    o = o' ∧ r = r' := by
  match o, o', h with
  | [], [], h =>
    simp only [objectContentToJson, List.nil_append, List.cons.injEq, true_and] at h
    exact ⟨rfl, h⟩
  | [], [(k', v')], h =>
    simp only [objectContentToJson, List.nil_append, List.cons_append, List.cons.injEq] at h
    exact absurd h.1 (by decide)
  | [], (k', v') :: e' :: rest', h =>
    simp only [objectContentToJson, List.nil_append, List.cons_append, List.cons.injEq] at h
    exact absurd h.1 (by decide)
  | [(k, v)], [], h =>
    simp only [objectContentToJson, List.nil_append, List.cons_append, List.cons.injEq] at h
    exact absurd h.1 (by decide)
  | (k, v) :: e :: rest, [], h =>
    simp only [objectContentToJson, List.nil_append, List.cons_append, List.cons.injEq] at h
    exact absurd h.1 (by decide)
  | [(k, v)], [(k', v')], h =>
    simp only [objectContentToJson, List.cons_append, List.cons.injEq, true_and,
      List.append_assoc] at h
    obtain ⟨hk, h1⟩ := escapedString_inj k k' _ _ h
    simp only [List.cons.injEq, true_and] at h1
    obtain ⟨hv, h2⟩ := valueToJson_inj v v' _ _ (noDigitAhead_cons _ _ (by decide))
      (noDigitAhead_cons _ _ (by decide)) h1
    simp only [List.cons.injEq, true_and] at h2
    exact ⟨by rw [hk, hv], h2⟩
  | [(k, v)], (k', v') :: e' :: rest', h =>
    simp only [objectContentToJson, List.cons_append, List.cons.injEq, true_and,
      List.append_assoc] at h
    obtain ⟨_, h1⟩ := escapedString_inj k k' _ _ h
    simp only [List.cons.injEq, true_and] at h1
    obtain ⟨_, h2⟩ := valueToJson_inj v v' _ _ (noDigitAhead_cons _ _ (by decide))
      (noDigitAhead_cons _ _ (by decide)) h1
    simp only [List.cons.injEq] at h2
    exact absurd h2.1 (by decide)
  | (k, v) :: e :: rest, [(k', v')], h =>
    simp only [objectContentToJson, List.cons_append, List.cons.injEq, true_and,
      List.append_assoc] at h
    obtain ⟨_, h1⟩ := escapedString_inj k k' _ _ h
    simp only [List.cons.injEq, true_and] at h1
    obtain ⟨_, h2⟩ := valueToJson_inj v v' _ _ (noDigitAhead_cons _ _ (by decide))
      (noDigitAhead_cons _ _ (by decide)) h1
    simp only [List.cons.injEq] at h2
    exact absurd h2.1 (by decide)
  | (k, v) :: e :: rest, (k', v') :: e' :: rest', h =>
    simp only [objectContentToJson, List.cons_append, List.cons.injEq, true_and,
      List.append_assoc] at h
    obtain ⟨hk, h1⟩ := escapedString_inj k k' _ _ h
    simp only [List.cons.injEq, true_and] at h1
    obtain ⟨hv, h2⟩ := valueToJson_inj v v' _ _ (noDigitAhead_cons _ _ (by decide))
      (noDigitAhead_cons _ _ (by decide)) h1
    simp only [List.cons.injEq, true_and] at h2
    obtain ⟨h3, h4⟩ := objectContentToJson_inj (e :: rest) (e' :: rest') r r' h2
    exact ⟨by rw [hk, hv, h3], h4⟩
termination_by sizeOf o

end

/-- The compact serialization of an object determines the object. -/
theorem toJsonCompact_injective (a b : QJsonObject) (h : toJsonCompact a = toJsonCompact b) :
    a = b := by
  simp only [toJsonCompact, List.cons.injEq, true_and] at h
  exact (objectContentToJson_inj a b [] [] (by simpa using h)).1

/-! ## Tampering -/

/-- When the primitive accepts the signature over no bytes but `m`, and the bytes
verified for `obj` are not `m`, verification fails. -/
theorem ed25519VerifySignature_false (utility : QOlmUtility) (signingKey : QString)
    (obj : QJsonObject) (signature : QString) (m : QByteArray)
    (hsound : ∀ m', utility.ed25519Verify (toUtf8 signingKey) m' (toUtf8 signature) = true →
      m' = m)
    (hne : toJsonCompact (signedPart obj) ≠ m) :
    ed25519VerifySignature utility signingKey obj signature = false := by
  by_cases hs : signature = ""
  · subst hs
    simp [ed25519VerifySignature, ed25519VerifySignatureTraced]
  · rw [ed25519VerifySignature_of_ne _ _ _ _ hs]
    cases hv : utility.ed25519Verify (toUtf8 signingKey) (toJsonCompact (signedPart obj))
        (toUtf8 signature) with
    | false => rfl
    | true => exact absurd (hsound _ hv) hne

theorem QHash_insert_pair_fst {V : Type} (k1 k2 : QString) (v1 v2 w : V) :
    QHash.insert k1 w [(k1, v1), (k2, v2)] = [(k1, w), (k2, v2)] := by
  simp [QHash.insert, keyLt_irrefl]

/-- C10: when `obj'` differs from `obj` in a member other than `unsigned` and
`signatures`, the bytes verified for `obj'` differ from the bytes signed for `obj`, and
the signature of `obj` does not verify for `obj'`; and replacing the value of
`keys["curve25519:" + deviceId]` in the bundle returned by `deviceKeys` by a different
one makes `verifyIdentitySignature` false.  The primitive's signatures are ASCII text
and verify over no other bytes than those they were made for. -/
theorem tampered_not_verified (utility : QOlmUtility) (account : QOlmAccount)
    (ik : IdentityKeys) (obj obj' : QJsonObject) (key : QString) (sig idSig : QByteArray)
    (curve : QString)
    (hk1 : key ≠ "unsigned") (hk2 : key ≠ "signatures")
    (hdiff : obj'.value key ≠ obj.value key)
    (hsig : account.olmData.sign (toJsonCompact obj) = some sig)
    (hik : account.identityKeys = some ik)
    (hid : account.olmData.sign (toJsonCompact (account.identityKeysJson ik)) = some idSig)
    (hcurve : curve ≠ ik.curve25519)
    (htext : ∀ m s, account.olmData.sign m = some s → s ≠ [] ∧ ∀ b ∈ s, b.val < 128)
    (hsound : ∀ m m' s, account.olmData.sign m = some s →
      utility.ed25519Verify (toUtf8 ik.ed25519) m' s = true → m' = m) :
    toJsonCompact (signedPart obj') ≠ toJsonCompact obj ∧
    ed25519VerifySignature utility ik.ed25519 obj' (fromLatin1 sig) = false ∧
    ∃ dk, account.deviceKeys = some dk ∧
      verifyIdentitySignature utility
        { dk with keys := QHash.insert ("curve25519:" ++ account.m_deviceId) curve dk.keys }
        account.m_deviceId account.m_userId = false := by
  have hlt := keyLt_curve_ed account.m_deviceId
  have hbytes : toJsonCompact (signedPart obj') ≠ toJsonCompact obj := by
    intro e
    have e' := toJsonCompact_injective _ _ e
    apply hdiff
    rw [← e', signedPart_value]
    simp [hk1, hk2]
  refine ⟨hbytes, ?_, _, deviceKeys_eq account ik idSig hik hid, ?_⟩
  · apply ed25519VerifySignature_false _ _ _ _ (toJsonCompact obj) _ hbytes
    intro m' hv
    rw [toUtf8_fromLatin1 sig (htext _ _ hsig).2] at hv
    exact hsound _ _ _ hsig hv
  · have hkey : QHash.value [("curve25519:" ++ account.m_deviceId, curve),
        ("ed25519:" ++ account.m_deviceId, ik.ed25519)] ("ed25519:" ++ account.m_deviceId)
        = ik.ed25519 := by
      simp [QHash.value, find_pair_snd _ _ _ _ hlt]
    have hsg : QHash.value (QHash.value [(account.m_userId,
        [("ed25519:" ++ account.m_deviceId, fromLatin1 idSig)])] account.m_userId)
        ("ed25519:" ++ account.m_deviceId) = fromLatin1 idSig := by
      simp [QHash.value, QHash.find]
    simp only [verifyIdentitySignature, QHash_insert_pair_fst, hkey, hsg]
    apply ed25519VerifySignature_false _ _ _ _ (toJsonCompact (account.identityKeysJson ik))
    · intro m' hv
      rw [toUtf8_fromLatin1 idSig (htext _ _ hid).2] at hv
      exact hsound _ _ _ hid hv
    · intro e
      have e' := toJsonCompact_injective _ _ e
      rw [signedPart_toJson, identityKeysJson_eq, toJsonHash_pair _ _ _ _ hlt] at e'
      simp only [List.cons.injEq, Prod.mk.injEq, QJsonValue.object.injEq,
        QJsonValue.string.injEq, true_and, and_true] at e'
      exact hcurve e'

theorem tampered_not_verified_witness :
    QJsonObject.value [("content", QJsonValue.string "m.test")] "content"
      ≠ QJsonObject.value sampleEventSigned "content" ∧
    toJsonCompact (signedPart [("content", QJsonValue.string "m.test")])
      ≠ toJsonCompact sampleEventSigned ∧
    ed25519VerifySignature sampleUtility "c2FtcGxlLWVk" [("content", QJsonValue.string "m.test")]
      (fromLatin1 (toBase64 false true
        (toJsonCompact sampleEventSigned ++ toUtf8 "c2FtcGxlLWVk"))) = false ∧
    ∃ dk, sampleAccount.deviceKeys = some dk ∧
      verifyIdentitySignature sampleUtility
        { dk with keys := QHash.insert "curve25519:DEVICEID" "c2FtcGxlLWN1cnZm" dk.keys }
        "DEVICEID" "@alice:example.org" = false :=
  ⟨by simp [QJsonObject.value, QHash.find, sampleEventSigned],
    tampered_not_verified sampleUtility sampleAccount ⟨"c2FtcGxlLWN1cnZl", "c2FtcGxlLWVk"⟩
      sampleEventSigned [("content", QJsonValue.string "m.test")] "content" _ _
      "c2FtcGxlLWN1cnZm" (by decide) (by decide)
      (by simp [QJsonObject.value, QHash.find, sampleEventSigned]) rfl rfl rfl (by decide)
      sampleAccount_text sampleAccount_sound⟩

/-! ## Missing signatures and keys -/

theorem verifyIdentitySignature_eq_traced (utility : QOlmUtility) (dk : DeviceKeys)
    (deviceId userId : QString) :
    verifyIdentitySignature utility dk deviceId userId
      = (verifyIdentitySignatureTraced utility dk deviceId userId).1 := rfl

theorem QHash_value_of_find_none {V : Type} [Inhabited V] (h : QHash V) (key : QString)
    (hf : QHash.find h key = none) : h.value key = default := by
  simp [QHash.value, hf]

theorem verifyIdentitySignatureTraced_no_signature (utility : QOlmUtility) (dk : DeviceKeys)
    (deviceId userId : QString)
    (h : (dk.signatures.value userId).value ("ed25519:" ++ deviceId) = "") :
    verifyIdentitySignatureTraced utility dk deviceId userId = (false, []) := by
  simp [verifyIdentitySignatureTraced, ed25519VerifySignatureTraced, h]

/-- C11: `verifyIdentitySignature` returns false when the signatures map of the bundle
has no entry for the user id, or that entry has no signature under
`"ed25519:" + deviceId`, in both cases without calling the primitive; and when the keys
map has no key under `"ed25519:" + deviceId`, for a primitive that rejects an empty
key.  The function is total: it does not abort. -/
theorem verifyIdentitySignature_missing (utility : QOlmUtility) (dk : DeviceKeys)
    (deviceId userId : QString)
    (h : QHash.find dk.signatures userId = none ∨
      QHash.find (dk.signatures.value userId) ("ed25519:" ++ deviceId) = none ∨
      (QHash.find dk.keys ("ed25519:" ++ deviceId) = none ∧
        ∀ m s, utility.ed25519Verify [] m s = false)) :
    verifyIdentitySignature utility dk deviceId userId = false ∧
    ((QHash.find dk.signatures userId = none ∨
        QHash.find (dk.signatures.value userId) ("ed25519:" ++ deviceId) = none) →
      verifyIdentitySignatureTraced utility dk deviceId userId = (false, [])) := by
  have hsig : (QHash.find dk.signatures userId = none ∨
      QHash.find (dk.signatures.value userId) ("ed25519:" ++ deviceId) = none) →
      (dk.signatures.value userId).value ("ed25519:" ++ deviceId) = "" := by
    rintro (h1 | h2)
    · rw [QHash_value_of_find_none _ _ h1]
      rfl
    · exact QHash_value_of_find_none _ _ h2
  refine ⟨?_, fun h12 => verifyIdentitySignatureTraced_no_signature _ _ _ _ (hsig h12)⟩
  rw [verifyIdentitySignature_eq_traced]
  rcases h with h1 | h2 | ⟨h3, hrej⟩
  · rw [verifyIdentitySignatureTraced_no_signature _ _ _ _ (hsig (Or.inl h1))]
  · rw [verifyIdentitySignatureTraced_no_signature _ _ _ _ (hsig (Or.inr h2))]
  · have hkey : dk.keys.value ("ed25519:" ++ deviceId) = "" :=
      QHash_value_of_find_none _ _ h3
    simp only [verifyIdentitySignatureTraced, ed25519VerifySignatureTraced, hkey]
    split
    · rfl
    · exact hrej _ _

theorem verifyIdentitySignature_missing_witness :
    (QHash.find sampleBundleNoKey.keys ("ed25519:" ++ "DEVICEID") = none ∧
      ∀ m s, sampleStrictUtility.ed25519Verify [] m s = false) ∧
    verifyIdentitySignature sampleStrictUtility sampleBundleNoKey "DEVICEID"
      "@alice:example.org" = false :=
  ⟨⟨by decide, fun _ _ => rfl⟩,
    (verifyIdentitySignature_missing sampleStrictUtility sampleBundleNoKey "DEVICEID"
      "@alice:example.org" (Or.inr (Or.inr ⟨by decide, fun _ _ => rfl⟩))).1⟩

/-! ## The bundle returned by `deviceKeys` -/

/-- C12: `deviceKeys` returns the bundle with the account's user id and device id, the
supported algorithms, a keys map with exactly the two entries
`"curve25519:" + deviceId` and `"ed25519:" + deviceId` holding the identity keys, and a
signatures map with the single entry of the user id, itself the single entry
`"ed25519:" + deviceId` holding the text of `signIdentityKeys()`. -/
theorem deviceKeys_bundle (account : QOlmAccount) (ik : IdentityKeys) (sig : QByteArray)
    (hik : account.identityKeys = some ik) (hsig : account.signIdentityKeys = some sig) :
    ∃ dk, account.deviceKeys = some dk ∧
      dk.userId = account.m_userId ∧
      dk.deviceId = account.m_deviceId ∧
      dk.algorithms = SupportedAlgorithms ∧
      dk.keys = [("curve25519:" ++ account.m_deviceId, ik.curve25519),
                 ("ed25519:" ++ account.m_deviceId, ik.ed25519)] ∧
      QHash.find dk.keys ("curve25519:" ++ account.m_deviceId) = some ik.curve25519 ∧
      QHash.find dk.keys ("ed25519:" ++ account.m_deviceId) = some ik.ed25519 ∧
      dk.signatures
        = [(account.m_userId, [("ed25519:" ++ account.m_deviceId, fromLatin1 sig)])] := by
  have hs : account.olmData.sign (toJsonCompact (account.identityKeysJson ik)) = some sig := by
    simp only [QOlmAccount.signIdentityKeys, hik, QOlmAccount.signJson, QOlmAccount.sign] at hsig
    split at hsig
    · exact absurd hsig (by simp)
    · rename_i s hs
      rw [hs]
      exact hsig
  refine ⟨_, deviceKeys_eq account ik sig hik hs, rfl, rfl, rfl, rfl, ?_, ?_, rfl⟩
  · simp [QHash.find]
  · exact find_pair_snd _ _ _ _ (keyLt_curve_ed _)

theorem deviceKeys_bundle_witness :
    sampleAccount.identityKeys = some ⟨"c2FtcGxlLWN1cnZl", "c2FtcGxlLWVk"⟩ ∧
    ∃ dk, sampleAccount.deviceKeys = some dk ∧
      dk.userId = "@alice:example.org" ∧
      dk.deviceId = "DEVICEID" ∧
      dk.algorithms = SupportedAlgorithms ∧
      dk.keys = [("curve25519:DEVICEID", "c2FtcGxlLWN1cnZl"),
                 ("ed25519:DEVICEID", "c2FtcGxlLWVk")] :=
  ⟨rfl,
    match deviceKeys_bundle sampleAccount ⟨"c2FtcGxlLWN1cnZl", "c2FtcGxlLWVk"⟩ _ rfl rfl with
    | ⟨dk, h1, h2, h3, h4, h5, _⟩ => ⟨dk, h1, h2, h3, h4, h5⟩⟩

/-! ## Signed one-time keys -/

theorem ltChars_append_left : ∀ (p a b : List Char), ltChars (p ++ a) (p ++ b) = ltChars a b
  | [], _, _ => rfl
  | c :: p, a, b => by
    simp only [List.cons_append]
    cases a with
    | nil =>
      cases b with
      | nil => rw [ltChars_irrefl, ltChars_irrefl]
      | cons b0 bs =>
        have ih := ltChars_append_left p [] (b0 :: bs)
        simp only [List.append_nil] at ih
        simp [ltChars, ih]
    | cons a0 as => simp [ltChars, ltChars_append_left p (a0 :: as) b]

theorem keyLt_append_left (p a b : QString) : keyLt (p ++ a) (p ++ b) = keyLt a b := by
  simp only [keyLt, String.data_append]
  exact ltChars_append_left _ _ _

/-- One step of the loop of `signOneTimeKeys`, for a key whose signing succeeds. -/
theorem signOneTimeKeys_fold (account : QOlmAccount) (sigOf : QString → QByteArray) :
    ∀ (l : QHash QString) (acc : OneTimeKeys), QHash.WF l →
      (∀ e ∈ l, account.olmData.sign (toJsonCompact [("key", QJsonValue.string e.2)])
        = some (sigOf e.2)) →
      (∀ a ∈ acc, ∀ e ∈ l, keyLt a.1 ("signed_curve25519:" ++ e.1) = true) →
      l.foldl
        (fun acc e =>
          match acc with
          | none => none
          | some signedOneTimeKeys =>
            match account.signJson (QJsonObject.ofList [("key", QJsonValue.string e.2)]) with
            | none => none
            | some signature =>
              some (QHash.insert ("signed_curve25519:" ++ e.1)
                (OneTimeKey.signedKey ⟨e.2, account.m_userId, account.m_deviceId, signature⟩)
                signedOneTimeKeys))
        (some acc)
      = some (acc ++ l.map fun e => ("signed_curve25519:" ++ e.1,
          OneTimeKey.signedKey ⟨e.2, account.m_userId, account.m_deviceId, sigOf e.2⟩))
  | [], acc, _, _, _ => by simp
  | (k, v) :: rest, acc, hwf, hsign, hacc => by
    have hwf' := List.pairwise_cons.mp hwf
    have hs : account.signJson (QJsonObject.ofList [("key", QJsonValue.string v)])
        = some (sigOf v) := by
      have := hsign (k, v) (List.mem_cons_self _ _)
      simp only [QOlmAccount.signJson, QOlmAccount.sign]
      have hobj : QJsonObject.ofList [("key", QJsonValue.string v)]
          = [("key", QJsonValue.string v)] := rfl
      rw [hobj, this]
    have hins := QHash_insert_append ("signed_curve25519:" ++ k)
      (OneTimeKey.signedKey ⟨v, account.m_userId, account.m_deviceId, sigOf v⟩) acc
      (fun a ha => hacc a ha (k, v) (List.mem_cons_self _ _))
    simp only [List.foldl_cons, hs, hins, List.map_cons]
    rw [signOneTimeKeys_fold account sigOf rest _ hwf'.2
      (fun e he => hsign e (List.mem_cons_of_mem _ he))]
    · simp
    · intro a ha e he
      rcases List.mem_append.mp ha with ha | ha
      · exact hacc a ha e (List.mem_cons_of_mem _ he)
      · simp only [List.mem_singleton] at ha
        subst ha
        simp only
        rw [keyLt_append_left]
        exact hwf'.1 e he

/-- C13: `signOneTimeKeys` returns the map with one entry for every `curve25519` key of
the input and no other: the entry for key id `K` is stored under
`"signed_curve25519:" + K` and carries the input public key, the account's user id and
device id, and the signature that `sign` gives for the JSON object with the single
member `key` holding the public key. -/
theorem signOneTimeKeys_entries (account : QOlmAccount) (keys : UnsignedOneTimeKeys)
    (sigOf : QString → QByteArray) (hwf : QHash.WF keys.curve25519)
    (hsign : ∀ e ∈ keys.curve25519,
      account.olmData.sign (toJsonCompact [("key", QJsonValue.string e.2)])
        = some (sigOf e.2)) :
    account.signOneTimeKeys keys
      = some (keys.curve25519.map fun e => ("signed_curve25519:" ++ e.1,
          OneTimeKey.signedKey ⟨e.2, account.m_userId, account.m_deviceId, sigOf e.2⟩)) ∧
    (∀ e ∈ keys.curve25519,
      account.signJson (QJsonObject.ofList [("key", QJsonValue.string e.2)])
        = some (sigOf e.2)) ∧
    toJsonCompact (QJsonObject.ofList [("key", QJsonValue.string "k")])
      = [123, 34, 107, 101, 121, 34, 58, 34, 107, 34, 125] := by
  refine ⟨?_, ?_, by decide⟩
  · have := signOneTimeKeys_fold account sigOf keys.curve25519 [] hwf hsign (by simp)
    simpa [QOlmAccount.signOneTimeKeys] using this
  · intro e he
    have := hsign e he
    simp only [QOlmAccount.signJson, QOlmAccount.sign]
    have hobj : QJsonObject.ofList [("key", QJsonValue.string e.2)]
        = [("key", QJsonValue.string e.2)] := rfl
    rw [hobj, this]

theorem signOneTimeKeys_entries_witness :
    QHash.WF sampleOneTimeKeys.curve25519 ∧
    (sampleAccount.signOneTimeKeys sampleOneTimeKeys).map (fun r => r.map Prod.fst)
      = some ["signed_curve25519:AAAAAQ", "signed_curve25519:AAAAAg"] :=
  ⟨by decide, by
    rw [(signOneTimeKeys_entries sampleAccount sampleOneTimeKeys
      (fun pk => toBase64 false true
        (toJsonCompact [("key", QJsonValue.string pk)] ++ toUtf8 "c2FtcGxlLWVk"))
      (by decide) (fun _ _ => rfl)).1]
    rfl⟩

/-! ## Persistence of the account -/

/-- C14: `unpickle` returns `OLM_SUCCESS` exactly when the primitive reports no error;
when the primitive reports an error it returns the last error code of the account,
which is not `OLM_SUCCESS` for a primitive that records a code with every error.  The
function is total: it does not abort. -/
theorem unpickle_result (olm : OlmLibrary) (a : QOlmAccount) (pickled key : QByteArray)
    (hlaw : ∀ data k p, (olm.olm_unpickle_account data k p).1 = true →
      (olm.olm_unpickle_account data k p).2.last_error_code ≠ OLM_SUCCESS) :
    ((a.unpickle olm pickled key).1 = OLM_SUCCESS ↔
      (olm.olm_unpickle_account a.olmData key pickled).1 = false) ∧
    ((olm.olm_unpickle_account a.olmData key pickled).1 = true →
      (a.unpickle olm pickled key).1 = (a.unpickle olm pickled key).2.lastErrorCode ∧
      (a.unpickle olm pickled key).1 ≠ OLM_SUCCESS) ∧
    (a.unpickle olm pickled key).2.olmData
      = (olm.olm_unpickle_account a.olmData key pickled).2 := by
  have h := hlaw a.olmData key pickled
  cases hr : (olm.olm_unpickle_account a.olmData key pickled).1 with
  | false =>
    simp [QOlmAccount.unpickle, hr]
  | true =>
    have h' := h hr
    simp only [QOlmAccount.unpickle, hr, if_true, QOlmAccount.lastErrorCode]
    refine ⟨?_, fun _ => ⟨trivial, h'⟩, trivial⟩
    constructor
    · intro e; exact absurd e h'
    · intro e; exact absurd e (by simp)

theorem unpickle_result_witness :
    (∀ data k p, (sampleOlmLibrary.olm_unpickle_account data k p).1 = true →
      (sampleOlmLibrary.olm_unpickle_account data k p).2.last_error_code ≠ OLM_SUCCESS) ∧
    (sampleFreshAccount.unpickle sampleOlmLibrary [1, 2, 3] samplePicklingKey).1 = 8 ∧
    ((sampleFreshAccount.unpickle sampleOlmLibrary [1, 2, 3] samplePicklingKey).1 = OLM_SUCCESS ↔
      (sampleOlmLibrary.olm_unpickle_account sampleFreshAccount.olmData samplePicklingKey
        [1, 2, 3]).1 = false) :=
  have hlaw : ∀ data k p, (sampleOlmLibrary.olm_unpickle_account data k p).1 = true →
      (sampleOlmLibrary.olm_unpickle_account data k p).2.last_error_code ≠ OLM_SUCCESS := by
    intro data k p h
    simp only [sampleOlmLibrary] at h ⊢
    split at h
    · simp at h
    · rename_i hne
      simp [hne, OLM_SUCCESS]
  ⟨hlaw, by decide,
    (unpickle_result sampleOlmLibrary sampleFreshAccount [1, 2, 3] samplePicklingKey hlaw).1⟩

theorem writeAt_zero_of_length (buf out : QByteArray) (h : out.length = buf.length) :
    writeAt buf 0 out = out := by
  simp [writeAt, h]

/-- C16: `removeOneTimeKeys` returns `OLM_SUCCESS` and emits `needsSave` exactly when the
primitive removed the key; when the primitive reports an error it returns the last
error code of the account, which is not `OLM_SUCCESS` for a primitive that records a
code with every error, and emits no `needsSave`; so does a second call on the account
that a first call leaves, when the primitive no longer finds the key. -/
theorem removeOneTimeKeys_result (olm : OlmLibrary) (a : QOlmAccount) (session : QOlmSession)
    (hlaw : ∀ data s, (olm.olm_remove_one_time_keys data s).1 = true →
      (olm.olm_remove_one_time_keys data s).2.last_error_code ≠ OLM_SUCCESS) :
    ((olm.olm_remove_one_time_keys a.olmData session.olmData).1 = false →
      (a.removeOneTimeKeys olm session).1 = OLM_SUCCESS ∧
      (a.removeOneTimeKeys olm session).2.2 = [Event.needsSave]) ∧
    ((olm.olm_remove_one_time_keys a.olmData session.olmData).1 = true →
      (a.removeOneTimeKeys olm session).1 = (a.removeOneTimeKeys olm session).2.1.lastErrorCode ∧
      (a.removeOneTimeKeys olm session).1 ≠ OLM_SUCCESS ∧
      Event.needsSave ∉ (a.removeOneTimeKeys olm session).2.2) ∧
    ((a.removeOneTimeKeys olm session).1 = OLM_SUCCESS ↔
      (olm.olm_remove_one_time_keys a.olmData session.olmData).1 = false) ∧
    (Event.needsSave ∈ (a.removeOneTimeKeys olm session).2.2 ↔
      (olm.olm_remove_one_time_keys a.olmData session.olmData).1 = false) ∧
    ((olm.olm_remove_one_time_keys (a.removeOneTimeKeys olm session).2.1.olmData
        session.olmData).1 = true →
      ((a.removeOneTimeKeys olm session).2.1.removeOneTimeKeys olm session).1 ≠ OLM_SUCCESS ∧
      Event.needsSave ∉
        ((a.removeOneTimeKeys olm session).2.1.removeOneTimeKeys olm session).2.2) := by
  have key : ∀ b : QOlmAccount,
      ((olm.olm_remove_one_time_keys b.olmData session.olmData).1 = false →
        (b.removeOneTimeKeys olm session).1 = OLM_SUCCESS ∧
        (b.removeOneTimeKeys olm session).2.2 = [Event.needsSave]) ∧
      ((olm.olm_remove_one_time_keys b.olmData session.olmData).1 = true →
        (b.removeOneTimeKeys olm session).1
          = (b.removeOneTimeKeys olm session).2.1.lastErrorCode ∧
        (b.removeOneTimeKeys olm session).1 ≠ OLM_SUCCESS ∧
        Event.needsSave ∉ (b.removeOneTimeKeys olm session).2.2) := by
    intro b
    have h := hlaw b.olmData session.olmData
    constructor
    · intro hr
      simp [QOlmAccount.removeOneTimeKeys, hr]
    · intro hr
      have h' := h hr
      simp only [QOlmAccount.removeOneTimeKeys, hr, if_true, QOlmAccount.lastErrorCode]
      exact ⟨trivial, h', by simp⟩
  obtain ⟨k1, k2⟩ := key a
  refine ⟨k1, k2, ?_, ?_, fun h2 => ⟨((key _).2 h2).2.1, ((key _).2 h2).2.2⟩⟩
  · cases hr : (olm.olm_remove_one_time_keys a.olmData session.olmData).1 with
    | false => simp [(k1 hr).1]
    | true => simp [(k2 hr).2.1]
  · cases hr : (olm.olm_remove_one_time_keys a.olmData session.olmData).1 with
    | false => simp [(k1 hr).2]
    | true => simp [(k2 hr).2.2]

theorem removeOneTimeKeys_result_witness :
    (∀ data s, (sampleOlmLibrary.olm_remove_one_time_keys data s).1 = true →
      (sampleOlmLibrary.olm_remove_one_time_keys data s).2.last_error_code ≠ OLM_SUCCESS) ∧
    (sampleAccountWithKey.removeOneTimeKeys sampleOlmLibrary sampleSession).1 = OLM_SUCCESS ∧
    (sampleAccountWithKey.removeOneTimeKeys sampleOlmLibrary sampleSession).2.2
      = [Event.needsSave] ∧
    ((sampleAccountWithKey.removeOneTimeKeys sampleOlmLibrary
      sampleSession).2.1.removeOneTimeKeys sampleOlmLibrary sampleSession).1 ≠ OLM_SUCCESS ∧
    Event.needsSave ∉ ((sampleAccountWithKey.removeOneTimeKeys sampleOlmLibrary
      sampleSession).2.1.removeOneTimeKeys sampleOlmLibrary sampleSession).2.2 :=
  have hlaw : ∀ data s, (sampleOlmLibrary.olm_remove_one_time_keys data s).1 = true →
      (sampleOlmLibrary.olm_remove_one_time_keys data s).2.last_error_code ≠ OLM_SUCCESS := by
    intro data s h
    simp only [sampleOlmLibrary] at h ⊢
    split at h
    · simp at h
    · simp [OLM_SUCCESS]
  ⟨hlaw,
    ((removeOneTimeKeys_result sampleOlmLibrary sampleAccountWithKey sampleSession hlaw).1
      rfl).1,
    ((removeOneTimeKeys_result sampleOlmLibrary sampleAccountWithKey sampleSession hlaw).1
      rfl).2,
    (removeOneTimeKeys_result sampleOlmLibrary sampleAccountWithKey sampleSession
      hlaw).2.2.2.2 rfl⟩

/-! ## Creation of sessions -/

/-- C18: when the primitive fails, `createOutboundSession` returns the last error code
of the failed session as the error alternative and does not abort; the failure
`OLM_NOT_ENOUGH_RANDOM` is logged at warning level and every other failure is logged as
an error. -/
theorem createOutboundSession_failure (olm : OlmLibrary) (getRandom : Nat → QByteArray)
    (a : QOlmAccount) (theirIdentityKey theirOneTimeKey : QByteArray)
    (hfail : (olm.olm_create_outbound_session a.olmData theirIdentityKey theirOneTimeKey
      (getRandom olm.olm_create_outbound_session_random_length)).1 = true) :
    (a.createOutboundSession olm getRandom theirIdentityKey theirOneTimeKey).1
      = Expected.error (olm.olm_create_outbound_session a.olmData theirIdentityKey
          theirOneTimeKey (getRandom olm.olm_create_outbound_session_random_length)).2.last_error_code ∧
    ((olm.olm_create_outbound_session a.olmData theirIdentityKey theirOneTimeKey
        (getRandom olm.olm_create_outbound_session_random_length)).2.last_error_code
        = OLM_NOT_ENOUGH_RANDOM →
      (a.createOutboundSession olm getRandom theirIdentityKey theirOneTimeKey).2
        = [Event.log LogLevel.warning "Failed to create an outbound Olm session"]) ∧
    ((olm.olm_create_outbound_session a.olmData theirIdentityKey theirOneTimeKey
        (getRandom olm.olm_create_outbound_session_random_length)).2.last_error_code
        ≠ OLM_NOT_ENOUGH_RANDOM →
      (a.createOutboundSession olm getRandom theirIdentityKey theirOneTimeKey).2
        = [Event.log LogLevel.critical "Failed to create an outbound Olm session"]) := by
  refine ⟨?_, ?_, ?_⟩
  · simp [QOlmAccount.createOutboundSession, hfail, QOlmSession.lastErrorCode]
  · intro he
    simp [QOlmAccount.createOutboundSession, hfail, QOlmSession.lastErrorCode, he,
      QOLM_FAIL_OR_LOG_X]
  · intro he
    simp [QOlmAccount.createOutboundSession, hfail, QOlmSession.lastErrorCode, he,
      QOLM_FAIL_OR_LOG_X]

theorem createOutboundSession_failure_witness :
    (sampleOlmLibrary.olm_create_outbound_session sampleAccount.olmData [] [1]
      ((fun n => List.replicate n 5) sampleOlmLibrary.olm_create_outbound_session_random_length)).1
      = true ∧
    (sampleAccount.createOutboundSession sampleOlmLibrary (fun n => List.replicate n 5) [] [1]).1
      = Expected.error 7 ∧
    (sampleAccount.createOutboundSession sampleOlmLibrary (fun _ => []) [2] [1])
      = (Expected.error OLM_NOT_ENOUGH_RANDOM,
          [Event.log LogLevel.warning "Failed to create an outbound Olm session"]) :=
  ⟨rfl,
    (createOutboundSession_failure sampleOlmLibrary (fun n => List.replicate n 5) sampleAccount
      [] [1] rfl).1,
    rfl⟩

/-! ## Fixed buffers -/

theorem writeAt_length (buf out : QByteArray) (pos : Nat) (h : pos + out.length ≤ buf.length) :
    (writeAt buf pos out).length = buf.length := by
  simp only [writeAt, List.length_append, List.length_take, List.length_drop]
  omega

theorem allocate_length (env : Environment) (bytes : Nat) (initWithZeros : Bool) :
    (allocate env bytes initWithZeros).1.length = bytes := by
  cases initWithZeros <;> simp [allocate]

/-- Filling a region of `n` bytes with random words and random bytes keeps its length. -/
theorem fillRandom_length (env : Environment) (region : QByteArray) (n : Nat)
    (h : region.length = n) :
    (if n % 4 ≠ 0 then
      writeAt (writeAt region 0 ((List.range (4 * (n / 4))).map env.randomWords))
        (n - n % 4) ((List.range (n % 4)).map env.randomBytes)
    else writeAt region 0 ((List.range (4 * (n / 4))).map env.randomWords)).length = n := by
  have h1 : (writeAt region 0 ((List.range (4 * (n / 4))).map env.randomWords)).length = n := by
    rw [writeAt_length, h]
    simp only [List.length_map, List.length_range, h]
    omega
  split
  · rw [writeAt_length, h1]
    simp only [List.length_map, List.length_range, h1]
    have := Nat.mod_le n 4
    omega
  · exact h1

/-- The region that the constructor allocates has the size of the buffer. -/
theorem construct_region (env : Environment) (bufferSize : Nat) (options : InitOptions)
    (hopt : options ≠ InitOptions.Uninitialized) (hlt : bufferSize < TotalSecureHeapSize) :
    ∃ region, (FixedBufferBase.construct env bufferSize options).1.data_ = some region ∧
      region.length = bufferSize ∧
      (options = InitOptions.FillWithZeros → region = List.replicate bufferSize 0) := by
  have hge : ¬ bufferSize ≥ TotalSecureHeapSize := by omega
  cases options with
  | Uninitialized => exact absurd rfl hopt
  | FillWithZeros =>
    refine ⟨List.replicate bufferSize 0, ?_, by simp, fun _ => rfl⟩
    simp [FixedBufferBase.construct, hge, allocate]
  | FillWithRandom =>
    refine ⟨_, ?_, fillRandom_length env (allocate env bufferSize false).1 bufferSize
      (allocate_length env bufferSize false), fun h => absurd h (by simp)⟩
    simp [FixedBufferBase.construct, hge]

/-- C19, as amended: for every fill mode other than `Uninitialized`, the constructor
yields an empty buffer exactly when the size is at least `TotalSecureHeapSize`; for
every size below it the buffer holds a region of that many bytes, all zero in the mode
`FillWithZeros`. -/
theorem construct_empty_iff (env : Environment) (bufferSize : Nat) (options : InitOptions)
    (hopt : options ≠ InitOptions.Uninitialized) :
    ((FixedBufferBase.construct env bufferSize options).1.empty = true ↔
      bufferSize ≥ TotalSecureHeapSize) ∧
    (FixedBufferBase.construct env bufferSize options).1.size = bufferSize ∧
    (bufferSize < TotalSecureHeapSize →
      ∃ region, (FixedBufferBase.construct env bufferSize options).1.data_ = some region ∧
        region.length = bufferSize ∧
        (options = InitOptions.FillWithZeros → region = List.replicate bufferSize 0)) := by
  refine ⟨?_, ?_, construct_region env bufferSize options hopt⟩
  · by_cases hge : bufferSize ≥ TotalSecureHeapSize
    · simp [FixedBufferBase.construct, hge, FixedBufferBase.empty]
    · obtain ⟨region, hr, _⟩ := construct_region env bufferSize options hopt (by omega)
      simp [FixedBufferBase.empty, hr, hge]
  · simp only [FixedBufferBase.size, FixedBufferBase.construct]
    split_ifs <;> rfl

theorem construct_empty_iff_witness :
    InitOptions.FillWithRandom ≠ InitOptions.Uninitialized ∧
    ((FixedBufferBase.construct sampleEnvironment 7 InitOptions.FillWithRandom).1.empty = true ↔
      7 ≥ TotalSecureHeapSize) ∧
    (FixedBufferBase.construct sampleEnvironment 7 InitOptions.FillWithRandom).1.size = 7 :=
  ⟨by decide,
    (construct_empty_iff sampleEnvironment 7 InitOptions.FillWithRandom (by decide)).1,
    (construct_empty_iff sampleEnvironment 7 InitOptions.FillWithRandom (by decide)).2.1⟩

/-- C19, as stated, at the size `TotalSecureHeapSize`, which does not exceed the budget:
the constructor yields an empty buffer, with no data, in the modes `FillWithZeros` and
`FillWithRandom`. -/
theorem construct_counterexample :
    ¬ (TotalSecureHeapSize > TotalSecureHeapSize) ∧
    (FixedBufferBase.construct sampleEnvironment TotalSecureHeapSize
      InitOptions.FillWithZeros).1.empty = true ∧
    (FixedBufferBase.construct sampleEnvironment TotalSecureHeapSize
      InitOptions.FillWithRandom).1.empty = true ∧
    (FixedBufferBase.construct sampleEnvironment TotalSecureHeapSize
      InitOptions.FillWithZeros).1.data_ = none := by
  refine ⟨by decide, ?_, ?_, ?_⟩ <;> simp [FixedBufferBase.construct, FixedBufferBase.empty]

/-- What `fillFrom` returns for a source of the size of the buffer. -/
theorem fillFrom_eq (assertionsEnabled : Bool) (env : Environment) (b : FixedBufferBase)
    (source : QByteArray) (isDetached : Bool) (h : source.length = b.size_) :
    b.fillFrom assertionsEnabled env source isDetached
      = some ({ data_ := some source, size_ := b.size_ },
          (if isDetached then [] else source),
          (match b.data_ with
            | none => []
            | some region =>
              [Event.log LogLevel.warning "Overwriting the fixed buffer with another string",
                Event.secure_clear_free region b.size_,
                Event.log LogLevel.debug "Deallocated"])
          ++ [Event.secure_malloc b.size_, Event.log LogLevel.debug "Allocated"]
          ++ (if isDetached then []
              else [Event.log LogLevel.warning
                "The fixed buffer source is shared; assuming that the caller is responsible for securely clearing other copies"])) := by
  have hcopy : writeAt ((List.range b.size_).map env.uninitialized) 0 source = source := by
    apply writeAt_zero_of_length
    simp [h]
  cases b with
  | mk data size =>
    simp only at h hcopy
    cases data with
    | none =>
      cases isDetached <;>
        simp [FixedBufferBase.fillFrom, h, hcopy, allocate]
    | some region0 =>
      cases isDetached <;>
        simp [FixedBufferBase.fillFrom, h, hcopy, allocate, FixedBufferBase.clear]

/-- C21: for a source whose length differs from the size of the buffer, `fillFrom`
aborts in a build with assertions, and otherwise returns with the buffer and the source
as they were and the log line as its only effect: nothing is allocated, nothing is
released and nothing is copied. -/
theorem fillFrom_mismatch (assertionsEnabled : Bool) (env : Environment) (b : FixedBufferBase)
    (source : QByteArray) (isDetached : Bool) (h : source.length ≠ b.size_) :
    b.fillFrom assertionsEnabled env source isDetached
      = (if assertionsEnabled then none
          else some (b, source,
            [Event.log LogLevel.critical "Can't load a fixed buffer of length"])) ∧
    (∀ b1 source1 events,
      b.fillFrom assertionsEnabled env source isDetached = some (b1, source1, events) →
      b1 = b ∧ b1.data_ = b.data_ ∧ b1.empty = b.empty ∧ source1 = source ∧
      (∀ n, Event.secure_malloc n ∉ events ∧ Event.secure_zalloc n ∉ events) ∧
      (∀ region n, Event.secure_clear_free region n ∉ events)) := by
  have heq : b.fillFrom assertionsEnabled env source isDetached
      = (if assertionsEnabled then none
          else some (b, source,
            [Event.log LogLevel.critical "Can't load a fixed buffer of length"])) := by
    cases assertionsEnabled <;> simp [FixedBufferBase.fillFrom, h, Q_ASSERT]
  refine ⟨heq, ?_⟩
  intro b1 source1 events hres
  rw [heq] at hres
  cases assertionsEnabled with
  | true => simp at hres
  | false =>
    simp only [Bool.false_eq_true, if_false, Option.some.injEq, Prod.mk.injEq] at hres
    obtain ⟨hb, hs, he⟩ := hres
    subst hb hs he
    simp

theorem fillFrom_mismatch_witness :
    ([1, 2] : QByteArray).length
      ≠ (FixedBufferBase.construct sampleEnvironment 3 InitOptions.FillWithZeros).1.size_ ∧
    (FixedBufferBase.construct sampleEnvironment 3 InitOptions.FillWithZeros).1.fillFrom false
        sampleEnvironment [1, 2] true
      = some ((FixedBufferBase.construct sampleEnvironment 3 InitOptions.FillWithZeros).1,
          [1, 2], [Event.log LogLevel.critical "Can't load a fixed buffer of length"]) :=
  ⟨by decide,
    (fillFrom_mismatch false sampleEnvironment
      (FixedBufferBase.construct sampleEnvironment 3 InitOptions.FillWithZeros).1 [1, 2] true
      (by decide)).1⟩

/-! ## Clearing a buffer -/

/-- In a build against OpenSSL, `clear` leaves an empty buffer as it is and does nothing;
on a buffer that holds a region it passes the region and the size of the buffer, which
is the length of a region allocated with that size, to `OPENSSL_secure_clear_free`, and
leaves the buffer empty; a second `clear` changes nothing and does nothing. -/
theorem clear_clear (b : FixedBufferBase) :
    (b.empty = true → b.clear = (b, [])) ∧
    (∀ region, b.data_ = some region →
      b.clear = ({ data_ := none, size_ := b.size_ },
        [Event.secure_clear_free region b.size_, Event.log LogLevel.debug "Deallocated"]) ∧
      (region.length = b.size_ →
        b.clear.2 = [Event.secure_clear_free region region.length,
          Event.log LogLevel.debug "Deallocated"])) ∧
    b.clear.1.empty = true ∧
    b.clear.1.data_ = none ∧
    b.clear.1.size = b.size ∧
    b.clear.1.clear = (b.clear.1, []) := by
  cases b with
  | mk data size =>
    cases data with
    | none => simp [FixedBufferBase.clear, FixedBufferBase.empty, FixedBufferBase.size]
    | some region0 =>
      refine ⟨by simp [FixedBufferBase.empty], ?_, rfl, rfl, rfl, rfl⟩
      intro region hreg
      simp only [Option.some.injEq] at hreg
      subst hreg
      refine ⟨rfl, fun hlen => ?_⟩
      simp only at hlen
      simp only [FixedBufferBase.clear, hlen]

theorem clear_clear_witness :
    (FixedBufferBase.construct sampleEnvironment 3 InitOptions.FillWithZeros).1.data_
      = some [0, 0, 0] ∧
    (FixedBufferBase.construct sampleEnvironment 3 InitOptions.FillWithZeros).1.clear
      = ({ data_ := none, size_ := 3 },
        [Event.secure_clear_free [0, 0, 0] 3, Event.log LogLevel.debug "Deallocated"]) :=
  ⟨rfl,
    ((clear_clear (FixedBufferBase.construct sampleEnvironment 3
      InitOptions.FillWithZeros).1).2.1 [0, 0, 0] rfl).1⟩

/-- C22, in a build against LibreSSL, at every buffer that holds a region: `clear`
releases the region with `free` and wipes nothing, where the build against OpenSSL
passes the same region to `OPENSSL_secure_clear_free`; in both builds the buffer is left
empty with its size, and a second `clear` changes nothing and does nothing. -/
theorem clear_LibreSSL_no_wipe (region : QByteArray) (size : Nat) :
    FixedBufferBase.clear_LibreSSL ⟨some region, size⟩
      = (⟨none, size⟩, [Event.free region]) ∧
    (∀ r n, Event.secure_clear_free r n ∉
      (FixedBufferBase.clear_LibreSSL ⟨some region, size⟩).2) ∧
    FixedBufferBase.clear ⟨some region, size⟩
      = (⟨none, size⟩,
        [Event.secure_clear_free region size, Event.log LogLevel.debug "Deallocated"]) ∧
    (FixedBufferBase.clear_LibreSSL ⟨some region, size⟩).1.empty = true ∧
    (FixedBufferBase.clear_LibreSSL ⟨some region, size⟩).1.size = size ∧
    (FixedBufferBase.clear_LibreSSL ⟨some region, size⟩).1.clear_LibreSSL
      = (⟨none, size⟩, []) ∧
    FixedBufferBase.clear_LibreSSL ⟨none, size⟩ = (⟨none, size⟩, []) ∧
    sampleBuffer.clear_LibreSSL = (⟨none, 3⟩, [Event.free [1, 2, 3]]) := by
  refine ⟨rfl, ?_, rfl, rfl, rfl, rfl, rfl, rfl⟩
  intro r n h
  have he : (FixedBufferBase.clear_LibreSSL ⟨some region, size⟩).2 = [Event.free region] := rfl
  rw [he] at h
  simp at h

/-! ## The invariant of a fixed buffer -/

/-- The invariant: the buffer holds nothing or a region of exactly `size()` bytes. -/
theorem construct_invariant (env : Environment) (bufferSize : Nat) (options : InitOptions) :
    (FixedBufferBase.construct env bufferSize options).1.size_ = bufferSize ∧
    ∀ region, (FixedBufferBase.construct env bufferSize options).1.data_ = some region →
      region.length = bufferSize := by
  by_cases hge : bufferSize ≥ TotalSecureHeapSize
  · simp [FixedBufferBase.construct, hge]
  · by_cases hopt : options = InitOptions.Uninitialized
    · simp [FixedBufferBase.construct, hge, hopt]
    · obtain ⟨region, hr, hlen, _⟩ := construct_region env bufferSize options hopt (by omega)
      refine ⟨?_, ?_⟩
      · simp only [FixedBufferBase.construct]
        split_ifs <;> rfl
      · intro region1 h1
        rw [hr, Option.some.injEq] at h1
        rw [← h1, hlen]

/-- One call keeps the size and the invariant. -/
theorem call_invariant (assertionsEnabled : Bool) (env : Environment) (b b1 : FixedBufferBase)
    (c : FixedBufferCall) (hinv : ∀ region, b.data_ = some region → region.length = b.size_)
    (h : b.call assertionsEnabled env c = some b1) :
    b1.size_ = b.size_ ∧ ∀ region, b1.data_ = some region → region.length = b1.size_ := by
  cases c with
  | clear =>
    simp only [FixedBufferBase.call, Option.some.injEq] at h
    subst h
    cases hd : b.data_ <;> simp [FixedBufferBase.clear, hd]
  | fillFrom source isDetached =>
    by_cases hlen : source.length = b.size_
    · simp only [FixedBufferBase.call, fillFrom_eq assertionsEnabled env b source isDetached hlen,
        Option.map_some', Option.some.injEq] at h
      subst h
      simp [hlen]
    · cases assertionsEnabled with
      | true => simp [FixedBufferBase.call, FixedBufferBase.fillFrom, hlen, Q_ASSERT] at h
      | false =>
        simp only [FixedBufferBase.call, FixedBufferBase.fillFrom, hlen, Q_ASSERT, ne_eq,
          not_false_eq_true, if_true, Bool.false_and, Bool.false_eq_true, if_false,
          Option.map_some', Option.some.injEq] at h
        subst h
        exact ⟨rfl, hinv⟩

/-- A sequence of calls keeps the size and the invariant. -/
theorem calls_invariant (assertionsEnabled : Bool) (env : Environment)
    (cs : List FixedBufferCall) : ∀ (b b1 : FixedBufferBase),
    (∀ region, b.data_ = some region → region.length = b.size_) →
    FixedBufferBase.calls assertionsEnabled env b cs = some b1 →
    b1.size_ = b.size_ ∧ ∀ region, b1.data_ = some region → region.length = b1.size_ := by
  induction cs with
  | nil =>
    intro b b1 hinv h
    simp only [FixedBufferBase.calls, Option.some.injEq] at h
    subst h
    exact ⟨rfl, hinv⟩
  | cons c cs ih =>
    intro b b1 hinv h
    simp only [FixedBufferBase.calls] at h
    cases hc : b.call assertionsEnabled env c with
    | none => simp [hc] at h
    | some b2 =>
      simp only [hc] at h
      obtain ⟨hs2, hinv2⟩ := call_invariant assertionsEnabled env b b2 c hinv hc
      obtain ⟨hs1, hinv1⟩ := ih b2 b1 hinv2 h
      exact ⟨hs1.trans hs2, hinv1⟩

/-- In a build without assertions every call returns. -/
theorem calls_total (env : Environment) (cs : List FixedBufferCall) :
    ∀ b : FixedBufferBase, ∃ b1, FixedBufferBase.calls false env b cs = some b1 := by
  induction cs with
  | nil => exact fun b => ⟨b, rfl⟩
  | cons c cs ih =>
    intro b
    have hc : ∃ b2, b.call false env c = some b2 := by
      cases c with
      | clear => exact ⟨_, rfl⟩
      | fillFrom source isDetached =>
        by_cases hlen : source.length = b.size_
        · exact ⟨{ data_ := some source, size_ := b.size_ },
            by simp [FixedBufferBase.call, fillFrom_eq false env b source isDetached hlen]⟩
        · exact ⟨b, by simp [FixedBufferBase.call, FixedBufferBase.fillFrom, hlen, Q_ASSERT]⟩
    obtain ⟨b2, h2⟩ := hc
    obtain ⟨b1, h1⟩ := ih b2
    exact ⟨b1, by simp [FixedBufferBase.calls, h2, h1]⟩

/-- C23: after the construction with a size and any sequence of `fillFrom` and `clear`
calls, `size()` is the size given at construction and the buffer holds nothing or a
region of exactly `size()` bytes; in a build without assertions every such sequence
runs to its end. -/
theorem FixedBufferBase_invariant (assertionsEnabled : Bool) (env : Environment)
    (bufferSize : Nat) (options : InitOptions) (cs : List FixedBufferCall)
    (b : FixedBufferBase)
    (h : FixedBufferBase.calls assertionsEnabled env
      (FixedBufferBase.construct env bufferSize options).1 cs = some b) :
    b.size = bufferSize ∧
    (b.data_ = none ∨ ∃ region, b.data_ = some region ∧ region.length = b.size) ∧
    ∃ b1, FixedBufferBase.calls false env
      (FixedBufferBase.construct env bufferSize options).1 cs = some b1 := by
  obtain ⟨hs0, hinv0⟩ := construct_invariant env bufferSize options
  obtain ⟨hs, hinv⟩ := calls_invariant assertionsEnabled env cs _ b
    (fun region hr => (hinv0 region hr).trans hs0.symm) h
  refine ⟨hs.trans hs0, ?_, calls_total env cs _⟩
  cases hd : b.data_ with
  | none => exact Or.inl rfl
  | some region => exact Or.inr ⟨region, rfl, hinv region hd⟩

theorem FixedBufferBase_invariant_witness :
    FixedBufferBase.calls true sampleEnvironment
      (FixedBufferBase.construct sampleEnvironment 3 InitOptions.FillWithRandom).1
      [FixedBufferCall.clear, FixedBufferCall.fillFrom [1, 2, 3] true,
        FixedBufferCall.fillFrom [4, 5, 6] false]
      = some { data_ := some [4, 5, 6], size_ := 3 } ∧
    FixedBufferBase.size { data_ := some [4, 5, 6], size_ := 3 } = 3 :=
  ⟨rfl,
    (FixedBufferBase_invariant true sampleEnvironment 3 InitOptions.FillWithRandom
      [FixedBufferCall.clear, FixedBufferCall.fillFrom [1, 2, 3] true,
        FixedBufferCall.fillFrom [4, 5, 6] false]
      { data_ := some [4, 5, 6], size_ := 3 } rfl).1⟩

/-! ## The random fill -/

/-- The random fill of a region of `n` bytes leaves the random words followed by the
random bytes. -/
theorem fillRandom_eq (env : Environment) (region : QByteArray) (n : Nat)
    (h : region.length = n) :
    (if n % 4 ≠ 0 then
      writeAt (writeAt region 0 ((List.range (4 * (n / 4))).map env.randomWords))
        (n - n % 4) ((List.range (n % 4)).map env.randomBytes)
    else writeAt region 0 ((List.range (4 * (n / 4))).map env.randomWords))
      = (List.range (4 * (n / 4))).map env.randomWords
        ++ (List.range (n % 4)).map env.randomBytes := by
  have h4 : 4 * (n / 4) + n % 4 = n := Nat.div_add_mod n 4
  have hW : ((List.range (4 * (n / 4))).map env.randomWords).length = 4 * (n / 4) := by simp
  have h1 : writeAt region 0 ((List.range (4 * (n / 4))).map env.randomWords)
      = (List.range (4 * (n / 4))).map env.randomWords ++ region.drop (4 * (n / 4)) := by
    simp [writeAt]
  split
  · have hpos : n - n % 4 = ((List.range (4 * (n / 4))).map env.randomWords).length := by
      rw [hW]
      omega
    rw [h1, writeAt, hpos, List.take_left, List.drop_append]
    have hd : List.drop ((List.map env.randomBytes (List.range (n % 4))).length)
        (List.drop (4 * (n / 4)) region) = [] := by
      apply List.drop_eq_nil_of_le
      simp only [List.length_drop, List.length_map, List.length_range]
      omega
    rw [hd, List.append_nil]
  · rename_i hz
    have hz0 : n % 4 = 0 := by omega
    have hd : List.drop (4 * (n / 4)) region = [] := by
      apply List.drop_eq_nil_of_le
      omega
    rw [h1, hd, hz0]
    simp

/-- C28: for every size `n` below the budget, the region of a buffer constructed with
`FillWithRandom` consists of the `4 * (n / 4)` bytes of the word fill followed by the
`n % 4` bytes of the remainder fill: the word fill covers the bytes from `0` up to
`4 * (n / 4)`, the remainder fill starts at `n - n % 4`, which is where the word fill
ends, and ends at `n`, and no byte is left as it was allocated. -/
theorem construct_random (env : Environment) (n : Nat) (hlt : n < TotalSecureHeapSize) :
    (FixedBufferBase.construct env n InitOptions.FillWithRandom).1.data_
      = some ((List.range (4 * (n / 4))).map env.randomWords
        ++ (List.range (n % 4)).map env.randomBytes) ∧
    4 * (n / 4) = n - n % 4 ∧
    4 * (n / 4) + n % 4 = n ∧
    (n % 4 = 0 → 4 * (n / 4) = n) ∧
    (∀ i, i < 4 * (n / 4) → ¬ (n - n % 4 ≤ i ∧ i < n)) ∧
    (∀ i, i < n → i < 4 * (n / 4) ∨ (n - n % 4 ≤ i ∧ i < n)) ∧
    (∀ i, i < 4 * (n / 4) →
      ∀ region, (FixedBufferBase.construct env n InitOptions.FillWithRandom).1.data_
        = some region → region[i]? = some (env.randomWords i)) ∧
    (∀ i, n - n % 4 ≤ i → i < n →
      ∀ region, (FixedBufferBase.construct env n InitOptions.FillWithRandom).1.data_
        = some region → region[i]? = some (env.randomBytes (i - (n - n % 4)))) := by
  have hge : ¬ n ≥ TotalSecureHeapSize := by omega
  have h4 : 4 * (n / 4) + n % 4 = n := Nat.div_add_mod n 4
  have hdata : (FixedBufferBase.construct env n InitOptions.FillWithRandom).1.data_
      = some ((List.range (4 * (n / 4))).map env.randomWords
        ++ (List.range (n % 4)).map env.randomBytes) := by
    rw [← fillRandom_eq env (allocate env n false).1 n (allocate_length env n false)]
    simp [FixedBufferBase.construct, hge]
  refine ⟨hdata, by omega, h4, fun h => by omega, fun i hi => by omega,
    fun i hi => by omega, ?_, ?_⟩
  · intro i hi region hreg
    rw [hdata, Option.some.injEq] at hreg
    subst hreg
    rw [List.getElem?_append_left (by simpa using hi)]
    simp [hi]
  · intro i hlo hhi region hreg
    rw [hdata, Option.some.injEq] at hreg
    subst hreg
    rw [List.getElem?_append_right (by simp; omega)]
    have hi : i - 4 * (n / 4) < n % 4 := by omega
    have he : n - n % 4 = 4 * (n / 4) := by omega
    simp [hi, he]

theorem construct_random_witness :
    7 < TotalSecureHeapSize ∧
    (FixedBufferBase.construct sampleEnvironment 7 InitOptions.FillWithRandom).1.data_
      = some ((List.range (4 * (7 / 4))).map sampleEnvironment.randomWords
        ++ (List.range (7 % 4)).map sampleEnvironment.randomBytes) :=
  ⟨by decide, (construct_random sampleEnvironment 7 (by decide)).1⟩

/-! ## Pinning of the sender key -/

theorem createInbound_eq_traced (olm : OlmLibrary) (a : QOlmAccount) (msg : QOlmMessage)
    (key : QByteArray) :
    a.createInbound olm msg key = (a.createInboundTraced olm msg key).1 := by
  simp only [QOlmAccount.createInbound, QOlmAccount.createInboundTraced]
  cases hk : key.isEmpty <;> simp only [hk, Bool.false_eq_true, if_false, if_true] <;>
    split <;> rfl

theorem createInboundTraced_calls (olm : OlmLibrary) (a : QOlmAccount) (msg : QOlmMessage)
    (key : QByteArray) :
    (a.createInboundTraced olm msg key).2
      = if key.isEmpty then [InboundCall.olm_create_inbound_session msg.bytes]
        else [InboundCall.olm_create_inbound_session_from key msg.bytes] := by
  simp only [QOlmAccount.createInboundTraced]
  cases hk : key.isEmpty <;> simp only [hk, Bool.false_eq_true, if_false, if_true] <;>
    split <;> rfl

/-- C29: for a pre-key message, `createInboundSessionFrom` returns what `createInbound`
returns, whose only call of the primitive is `olm_create_inbound_session_from` with the
key exactly when the key is not empty and `olm_create_inbound_session` otherwise; with
an empty key it makes the same call and returns the same result as
`createInboundSession`. -/
theorem createInboundSessionFrom_pinning (assertionsEnabled : Bool) (olm : OlmLibrary)
    (a : QOlmAccount) (key : QByteArray) (msg : QOlmMessage)
    (hpre : msg.type = MessageType.PreKey) :
    a.createInboundSessionFrom assertionsEnabled olm key msg
      = some (a.createInboundTraced olm msg key).1 ∧
    a.createInboundSession assertionsEnabled olm msg
      = some (a.createInboundTraced olm msg []).1 ∧
    ((a.createInboundTraced olm msg key).2
        = [InboundCall.olm_create_inbound_session_from key msg.bytes] ↔ key ≠ []) ∧
    ((a.createInboundTraced olm msg key).2
        = [InboundCall.olm_create_inbound_session msg.bytes] ↔ key = []) ∧
    (a.createInboundTraced olm msg []).2 = [InboundCall.olm_create_inbound_session msg.bytes] ∧
    a.createInboundSessionFrom assertionsEnabled olm [] msg
      = a.createInboundSession assertionsEnabled olm msg ∧
    (key ≠ [] →
      (a.createInboundTraced olm msg key).1.1
        = if (olm.olm_create_inbound_session_from a.olmData key msg.bytes).1 then
            Expected.error
              (olm.olm_create_inbound_session_from a.olmData key msg.bytes).2.last_error_code
          else Expected.value ⟨(olm.olm_create_inbound_session_from a.olmData key msg.bytes).2⟩) := by
  have hq : Q_ASSERT assertionsEnabled (decide (msg.type = MessageType.PreKey)) = some () := by
    simp [Q_ASSERT, hpre]
  refine ⟨?_, ?_, ?_, ?_, ?_, ?_, ?_⟩
  · simp only [QOlmAccount.createInboundSessionFrom, hq, createInbound_eq_traced]
  · simp only [QOlmAccount.createInboundSession, hq, createInbound_eq_traced]
  · rw [createInboundTraced_calls]
    cases key <;> simp
  · rw [createInboundTraced_calls]
    cases key <;> simp
  · rw [createInboundTraced_calls]
    rfl
  · simp only [QOlmAccount.createInboundSessionFrom, QOlmAccount.createInboundSession]
  · intro hk
    have hne : key.isEmpty = false := by cases key <;> simp at hk ⊢
    simp only [QOlmAccount.createInboundTraced, hne, Bool.false_eq_true, if_false,
      QOlmSession.lastErrorCode]
    split <;> rfl

theorem createInboundSessionFrom_pinning_witness :
    (⟨[1, 2, 3], MessageType.PreKey⟩ : QOlmMessage).type = MessageType.PreKey ∧
    ((sampleAccount.createInboundTraced sampleOlmLibrary ⟨[1, 2, 3], MessageType.PreKey⟩ [9]).2
        = [InboundCall.olm_create_inbound_session_from [9] [1, 2, 3]] ↔ ([9] : QByteArray) ≠ []) :=
  ⟨rfl,
    (createInboundSessionFrom_pinning true sampleOlmLibrary sampleAccount [9]
      ⟨[1, 2, 3], MessageType.PreKey⟩ rfl).2.2.1⟩

/-! ## The URL of a file source -/

/-- C24: after `setUrlInSourceInfo(fsi, newUrl)` the URL read by `getUrlFromSourceInfo`
is `newUrl` and the alternative held is the one held before: a plain URL becomes
`newUrl`, and the metadata of an encrypted file keeps its `key`, `iv`, `hashes` and
`v`. -/
theorem setUrlInSourceInfo_frame (fsi : FileSourceInfo) (efm : EncryptedFileMetadata)
    (url newUrl : QUrl) :
    getUrlFromSourceInfo (setUrlInSourceInfo fsi newUrl) = newUrl ∧
    (setUrlInSourceInfo fsi newUrl).index = fsi.index ∧
    setUrlInSourceInfo (FileSourceInfo.url url) newUrl = FileSourceInfo.url newUrl ∧
    setUrlInSourceInfo (FileSourceInfo.encrypted efm) newUrl
      = FileSourceInfo.encrypted ⟨newUrl, efm.key, efm.iv, efm.hashes, efm.v⟩ := by
  refine ⟨?_, ?_, rfl, rfl⟩
  · cases fsi <;> rfl
  · cases fsi <;> rfl

/-! ## The table of message types -/

/-- C25: `jsonToMsgType` returns the type of the first row of the table whose string is
the argument and `Unknown` for every other string; `msgTypeToJson` returns the empty
string for `Unknown` and `"m.text"` for `Text`; `jsonToMsgType` of `msgTypeToJson` of a
type is that type. -/
theorem jsonToMsgType_msgTypeToJson (s : QString) (t : MsgType) :
    jsonToMsgType s
      = (if s = "m.text" then MsgType.Text
        else if s = "m.emote" then MsgType.Emote
        else if s = "m.notice" then MsgType.Notice
        else if s = "m.image" then MsgType.Image
        else if s = "m.file" then MsgType.File
        else if s = "m.location" then MsgType.Location
        else if s = "m.video" then MsgType.Video
        else if s = "m.audio" then MsgType.Audio
        else if s = "m.key.verification.request" then MsgType.Text
        else MsgType.Unknown) ∧
    msgTypeToJson MsgType.Unknown = "" ∧
    msgTypeToJson MsgType.Text = "m.text" ∧
    msgTypeToJson MsgType.Text ≠ "m.key.verification.request" ∧
    jsonToMsgType (msgTypeToJson t) = t ∧
    jsonToMsgType "m.key.verification.request" = MsgType.Text := by
  refine ⟨?_, by decide, by decide, by decide, by cases t <;> decide, by decide⟩
  simp only [jsonToMsgType, msgTypes, List.find?_cons, List.find?_nil]
  by_cases h1 : s = "m.text"
  · subst h1; decide
  by_cases h2 : s = "m.emote"
  · subst h2; decide
  by_cases h3 : s = "m.notice"
  · subst h3; decide
  by_cases h4 : s = "m.image"
  · subst h4; decide
  by_cases h5 : s = "m.file"
  · subst h5; decide
  by_cases h6 : s = "m.location"
  · subst h6; decide
  by_cases h7 : s = "m.video"
  · subst h7; decide
  by_cases h8 : s = "m.audio"
  · subst h8; decide
  by_cases h9 : s = "m.key.verification.request"
  · subst h9; decide
  simp [h1, h2, h3, h4, h5, h6, h7, h8, h9, Ne.symm h1, Ne.symm h2, Ne.symm h3, Ne.symm h4,
    Ne.symm h5, Ne.symm h6, Ne.symm h7, Ne.symm h8, Ne.symm h9]

/-! ## Kinds of a change to the membership -/

/-- C30: at most one of `isLeave`, `isRejectedInvite` and `isUnban` is true; when the
new membership is `Leave` and the previous content has another membership, exactly one
is true: `isUnban` after `Ban`, `isRejectedInvite` after `Invite`, `isLeave` after any
other; with no previous content all three are false. -/
theorem isLeave_isRejectedInvite_isUnban (e : RoomMemberEvent) :
    ¬ (e.isLeave = true ∧ e.isRejectedInvite = true) ∧
    ¬ (e.isLeave = true ∧ e.isUnban = true) ∧
    ¬ (e.isRejectedInvite = true ∧ e.isUnban = true) ∧
    (∀ prev, e.prevContent = some prev → e.membership = Membership.Leave →
      prev.membership ≠ Membership.Leave →
      e.isUnban = decide (prev.membership = Membership.Ban) ∧
      e.isRejectedInvite = decide (prev.membership = Membership.Invite) ∧
      e.isLeave = decide (prev.membership ≠ Membership.Ban ∧
        prev.membership ≠ Membership.Invite) ∧
      (e.isLeave || e.isRejectedInvite || e.isUnban) = true) ∧
    (e.prevContent = none →
      e.isLeave = false ∧ e.isRejectedInvite = false ∧ e.isUnban = false) := by
  rcases e with ⟨⟨m, d, dn, au, r⟩, prev⟩
  cases prev with
  | none =>
    simp [RoomMemberEvent.isLeave, RoomMemberEvent.isRejectedInvite, RoomMemberEvent.isUnban]
  | some p =>
    rcases p with ⟨pm, pd, pdn, pau, pr⟩
    cases m <;> cases pm <;>
      simp [RoomMemberEvent.isLeave, RoomMemberEvent.isRejectedInvite,
        RoomMemberEvent.isUnban, RoomMemberEvent.membership]

theorem isLeave_isRejectedInvite_isUnban_witness :
    sampleMemberEvent.prevContent = some ⟨Membership.Invite, false, some "Alice", none, ""⟩ ∧
    sampleMemberEvent.membership = Membership.Leave ∧
    sampleMemberEvent.isRejectedInvite = true ∧
    sampleMemberEvent.isLeave = false ∧
    sampleMemberEvent.isUnban = false :=
  ⟨rfl, rfl,
    ((isLeave_isRejectedInvite_isUnban sampleMemberEvent).2.2.2.1 _ rfl rfl (by decide)).2.1,
    ((isLeave_isRejectedInvite_isUnban sampleMemberEvent).2.2.2.1 _ rfl rfl (by decide)).2.2.1,
    ((isLeave_isRejectedInvite_isUnban sampleMemberEvent).2.2.2.1 _ rfl rfl (by decide)).1⟩

/-! ## The defaults of the power levels -/

/-- A content object without the key `state_default` gives the state default 0, and one
without the key `invite` gives the invite level 50. -/
theorem fromJson_missing_key (json : QJsonObject) :
    (json.value "state_default" = none →
      (PowerLevelsEventContent.fromJson json).stateDefault = 0) ∧
    (json.value "invite" = none → (PowerLevelsEventContent.fromJson json).invite = 50) := by
  refine ⟨fun h => ?_, fun h => ?_⟩ <;> simp [PowerLevelsEventContent.fromJson, h, jsonToInt]

/-- C26, at the empty content object: the constructor gives `ban`, `kick` and `redact`
50, `events_default` and `users_default` 0 and `notifications.room` 50, as the Matrix
specification v1.3 defines them, but `invite` 50 where that document defines 0, and
`state_default` 0 where it defines 50; so `powerLevelForState` of every event type is
0 and not 50. -/
theorem powerLevelForState_empty_content (eventTypeId : QString) :
    (PowerLevelsEventContent.fromJson []).ban = matrixSpecDefaults.ban ∧
    (PowerLevelsEventContent.fromJson []).kick = matrixSpecDefaults.kick ∧
    (PowerLevelsEventContent.fromJson []).redact = matrixSpecDefaults.redact ∧
    (PowerLevelsEventContent.fromJson []).eventsDefault = matrixSpecDefaults.eventsDefault ∧
    (PowerLevelsEventContent.fromJson []).usersDefault = matrixSpecDefaults.usersDefault ∧
    (PowerLevelsEventContent.fromJson []).notifications = matrixSpecDefaults.notifications ∧
    (PowerLevelsEventContent.fromJson []).invite = 50 ∧
    matrixSpecDefaults.invite = 0 ∧
    (PowerLevelsEventContent.fromJson []).stateDefault = 0 ∧
    matrixSpecDefaults.stateDefault = 50 ∧
    RoomPowerLevelsEvent.powerLevelForState ⟨PowerLevelsEventContent.fromJson []⟩ eventTypeId
      = 0 ∧
    RoomPowerLevelsEvent.powerLevelForState ⟨PowerLevelsEventContent.fromJson []⟩ eventTypeId
      ≠ 50 ∧
    RoomPowerLevelsEvent.powerLevelForState ⟨matrixSpecDefaults⟩ eventTypeId = 50 := by
  refine ⟨rfl, rfl, rfl, rfl, rfl, rfl, rfl, rfl, rfl, rfl, ?_, ?_, ?_⟩
  · rfl
  · have h : RoomPowerLevelsEvent.powerLevelForState ⟨PowerLevelsEventContent.fromJson []⟩
        eventTypeId = 0 := rfl
    rw [h]
    decide
  · rfl

/-! ## The Matrix URI of an identifier -/

theorem replaceSlash_no_slash (ba : QByteArray) : ∀ b ∈ replaceSlash ba, b.val ≠ 47 := by
  induction ba with
  | nil => simp [replaceSlash]
  | cons a rest ih =>
    intro b hb
    simp only [replaceSlash] at hb
    split at hb
    · simp only [List.mem_cons] at hb
      rcases hb with h | h | h | h
      · subst h; decide
      · subst h; decide
      · subst h; decide
      · exact ih b h
    · simp only [List.mem_cons] at hb
      rcases hb with h | h
      · subst h; assumption
      · exact ih b h

/-- The row of `replacePairs` found for a first byte that is one of the four sigils. -/
theorem replacePairs_find (b : Byte) (p : Char × QString) (hp : p ∈ firstPrefixes)
    (hb : b.val = p.1.toNat) :
    replacePairs.find? (fun q => decide (b.val = q.sigil.toNat)) = some ⟨p.2, p.1⟩ := by
  simp only [firstPrefixes, List.mem_cons, List.mem_singleton, List.not_mem_nil,
    or_false] at hp
  rcases hp with h | h | h | h <;> subst h <;> simp only at hb <;>
    simp [replacePairs, List.find?_cons, hb]

/-- No row of `replacePairs` is found for a first byte that is none of the four sigils. -/
theorem replacePairs_find_none (b : Byte)
    (hb : ∀ p ∈ firstPrefixes, b.val ≠ p.1.toNat) :
    replacePairs.find? (fun q => decide (b.val = q.sigil.toNat)) = none := by
  have h1 : b.val ≠ 64 := hb ('@', "u/") (by simp [firstPrefixes])
  have h2 : b.val ≠ 33 := hb ('!', "roomid/") (by simp [firstPrefixes])
  have h3 : b.val ≠ 35 := hb ('#', "r/") (by simp [firstPrefixes])
  have h4 : b.val ≠ 36 := hb ('$', "e/") (by simp [firstPrefixes])
  simp [replacePairs, List.find?_cons, h1, h2, h3, h4]

/-- The type that the constructor gives for a primary id that is not empty. -/
theorem Uri_construct_cons (fromUtf8 : QByteArray → QString) (b : Byte)
    (rest secondaryId : QByteArray) (query : QString) :
    (Uri.construct fromUtf8 (b :: rest) secondaryId query).type
      = if rest = [] then UriType.Invalid
        else if secondaryId.length = 1 then UriType.Invalid
        else
          match replacePairs.find? (fun q => decide (b.val = q.sigil.toNat)) with
          | some p => UriType.ofSigil p.sigil
          | none => UriType.Invalid := by
  simp only [Uri.construct, List.isEmpty_cons, Bool.false_eq_true, if_false, Uri.type,
    List.headD_cons]
  generalize replacePairs.find? (fun q => decide (b.val = q.sigil.toNat)) = r
  have h2 : ∀ n : Nat, ¬ (n + 1 + 1 < 2) := fun n => by omega
  cases rest with
  | nil => simp
  | cons c rest1 =>
    cases secondaryId with
    | nil => cases r <;> by_cases hq : query = "" <;> simp [hq, h2]
    | cons d s2 =>
      cases s2 with
      | nil => simp [h2]
      | cons d2 s3 => cases r <;> by_cases hq : query = "" <;> simp [hq, h2]

/-- C27: `type()` is `Empty` exactly when the primary id is empty; it is `Invalid` for a
primary id of one byte, for one whose first byte is none of the sigils `@`, `!`, `#`,
`$`, and for a secondary id of one byte; otherwise it is the type of the sigil, and the
path is the first prefix of the table for the sigil, then the primary id without its
first byte with every `/` replaced by `%2F`, then, for a secondary id, `/event/` and the
secondary id without its first byte with every `/` replaced by `%2F`. -/
theorem Uri_construct_type_path (fromUtf8 : QByteArray → QString)
    (primaryId secondaryId : QByteArray) (query : QString) :
    ((Uri.construct fromUtf8 primaryId secondaryId query).type = UriType.Empty ↔
      primaryId = []) ∧
    (primaryId.length = 1 →
      (Uri.construct fromUtf8 primaryId secondaryId query).type = UriType.Invalid) ∧
    (primaryId ≠ [] → (∀ p ∈ firstPrefixes, (primaryId.headD 0).val ≠ p.1.toNat) →
      (Uri.construct fromUtf8 primaryId secondaryId query).type = UriType.Invalid) ∧
    (primaryId ≠ [] → secondaryId.length = 1 →
      (Uri.construct fromUtf8 primaryId secondaryId query).type = UriType.Invalid) ∧
    (∀ p ∈ firstPrefixes, 2 ≤ primaryId.length → (primaryId.headD 0).val = p.1.toNat →
      secondaryId.length ≠ 1 →
      (Uri.construct fromUtf8 primaryId secondaryId query).type = UriType.ofSigil p.1 ∧
      (Uri.construct fromUtf8 primaryId secondaryId query).scheme = "matrix" ∧
      (Uri.construct fromUtf8 primaryId secondaryId query).path
        = p.2 ++ fromUtf8 (replaceSlash (primaryId.drop 1))
          ++ (if secondaryId = [] then ""
              else "/event/" ++ fromUtf8 (replaceSlash (secondaryId.drop 1)))) ∧
    (∀ b ∈ replaceSlash (primaryId.drop 1), b.val ≠ 47) := by
  refine ⟨?_, ?_, ?_, ?_, ?_, replaceSlash_no_slash _⟩
  · cases primaryId with
    | nil =>
      simp only [Uri.construct, List.isEmpty_nil, if_true, Uri.type, iff_true]
      split <;> rfl
    | cons b rest =>
      simp only [reduceCtorEq, iff_false]
      rw [Uri_construct_cons]
      split
      · simp
      · split
        · simp
        · split <;> simp
  · intro h1
    have hne : primaryId.isEmpty = false := by
      cases primaryId <;> simp at h1 ⊢
    simp [Uri.construct, hne, h1, Uri.type]
  · intro hne hnone
    cases primaryId with
    | nil => exact absurd rfl hne
    | cons b rest =>
      simp only [List.headD_cons] at hnone
      simp only [Uri.construct, List.isEmpty_cons, Bool.false_eq_true, if_false, Uri.type,
        List.headD_cons, replacePairs_find_none b hnone]
      split
      · rfl
      · split <;> [(split <;> [rfl; (split <;> rfl)]); (split <;> rfl)]
  · intro hne h2
    cases primaryId with
    | nil => exact absurd rfl hne
    | cons b rest =>
      have hs : secondaryId.isEmpty = false := by
        cases secondaryId <;> simp at h2 ⊢
      simp only [Uri.construct, List.isEmpty_cons, Bool.false_eq_true, if_false, Uri.type, hs,
        Bool.not_false, if_true, h2, Nat.one_lt_ofNat]
      split <;> rfl
  · intro p hp hlen hb hsec
    cases primaryId with
    | nil => simp at hlen
    | cons b rest =>
      simp only [List.headD_cons] at hb
      have hl : ¬ (b :: rest).length < 2 := by omega
      simp only [Uri.construct, List.isEmpty_cons, Bool.false_eq_true, if_false, Uri.type, hl,
        List.headD_cons, replacePairs_find b p hp hb, List.drop_succ_cons, List.drop_zero]
      cases secondaryId with
      | nil =>
        simp only [List.isEmpty_nil, Bool.not_true, Bool.false_eq_true, if_false, if_true]
        split <;> simp
      | cons c rest2 =>
        have hl2 : ¬ (c :: rest2).length < 2 := by
          simp only [List.length_cons] at hsec ⊢
          omega
        simp only [List.isEmpty_cons, Bool.not_false, if_true, hl2, if_false, reduceCtorEq,
          List.drop_succ_cons, List.drop_zero]
        split <;> simp

theorem Uri_construct_type_path_witness :
    ('!', "roomid/") ∈ firstPrefixes ∧
    (Uri.construct fromLatin1 (toLatin1 "!room/1:example.org") (toLatin1 "$ev/1") "").type
      = UriType.ofSigil '!' ∧
    (Uri.construct fromLatin1 (toLatin1 "!room/1:example.org") (toLatin1 "$ev/1") "").path
      = "roomid/room%2F1:example.org/event/ev%2F1" :=
  ⟨by decide,
    ((Uri_construct_type_path fromLatin1 (toLatin1 "!room/1:example.org") (toLatin1 "$ev/1") "").2.2.2.2.1
      ('!', "roomid/") (by decide) (by decide) (by decide) (by decide)).1,
    by decide⟩

end Quotient
